import Mathlib

/-!
# Term environment and tokenizer of prologcoin

A shallow embedding of `src/common/term_env.cpp` (class `term_env_impl`: heap
cells, trail, `equal`, `unify`) and of `src/common/term_tokenizer.cpp` (class
`term_tokenizer`: `next_token` and the scanners it calls).

* Machine state is passed explicitly as a `term_env_impl` record.
* `std::vector` members: `trail_` is kept in vector order (push appends at the
  end); `stack_` is kept with the BACK of the vector at the HEAD of the list, so
  that `push` is a cons and `pop` removes the head.
* Every function that can read outside the heap, pop an empty stack, hit the
  `assert(false)` of the `BIG`/`GBL` case or loop forever returns `Option`;
  `none` stands for "no result".  Loops carry a fuel argument.
* The tokenizer state is a `term_tokenizer` record; its functions return a
  `tk` value that tells a normal return from a thrown token exception, a failed
  `assert` and a loop that did not end within the fuel.
-/

namespace prologcoin

/-- Tags of a heap cell (`tag_t`). -/
inductive tag_t where
  | REF | CON | STR | INT | BIG | GBL
  deriving DecidableEq, Repr

/-- Modelled from the spec: the tagged cell of `term.hpp` (not among the sources).
`REF i` and `STR i` carry a heap index, `CON name arity` is an interned
atom/functor symbol, `INT v` a machine integer, `BIG` and `GBL` are the two
reserved tags with an uninterpreted payload. -/
inductive cell where
  | REF (index : Nat)
  | CON (name : Nat) (arity : Nat)
  | STR (index : Nat)
  | INT (value : Int)
  | BIG (payload : Nat)
  | GBL (payload : Nat)
  deriving DecidableEq, Repr

/-- The tag of a cell (`cell::tag()`). -/
def cell.tag : cell → tag_t
  | .REF _ => .REF
  | .CON _ _ => .CON
  | .STR _ => .STR
  | .INT _ => .INT
  | .BIG _ => .BIG
  | .GBL _ => .GBL

/-- Modelled from the spec: `con_cell::arity()` of `term.hpp`; only a `CON`
cell has an arity. -/
def cell.arity : cell → Nat
  | .CON _ n => n
  | _ => 0

/-- The members of `term_env_impl` that `equal`, `unify`, `bind` and the trail
operations read or write.  `heap_` is the cell array owned by the heap object. -/
structure term_env_impl where
  heap_ : List cell
  register_hb_ : Nat
  register_h_ : Nat
  stack_ : List cell
  trail_ : List Nat
  deriving DecidableEq, Repr

/-- Modelled from the spec: `heap::deref` (heap.hpp is not among the sources).
"Iteratively replace `c` with the cell at its `REF` index while that slot
itself holds a differing cell; stop when the slot is `REF` to itself or is a
non-`REF` cell."  The fuel bounds the number of slots followed; reading
outside the heap gives no result. -/
def deref (h : List cell) : Nat → cell → Option cell
  | 0, c => if c.tag = tag_t.REF then none else some c
  | n + 1, c =>
    match c with
    | .REF i =>
      match h[i]? with
      | none => none
      | some nextc => if nextc = c then some c else deref h n nextc
    | _ => some c

/-- Modelled from the spec: `heap::functor` (heap.hpp is not among the
sources).  A `STR(index)` cell points to its functor cell, which is a `CON`. -/
def functor (h : List cell) : cell → Option cell
  | .STR p =>
    match h[p]? with
    | some (.CON name arity) => some (.CON name arity)
    | _ => none
  | _ => none

/-- Modelled from the spec: `heap::arg0` (heap.hpp is not among the sources).
The argument slots follow the functor cell; `index` counts from 0. -/
def arg (h : List cell) : cell → Nat → Option cell
  | .STR p, index => h[p + 1 + index]?
  | _, _ => none

/-- `push(c)`: `stack_.push_back(c)`. -/
def push (s : term_env_impl) (c : cell) : term_env_impl :=
  { s with stack_ := c :: s.stack_ }

/-- `pop()`: `c = stack_.back(); stack_.pop_back(); return c`. -/
def pop (s : term_env_impl) : Option (cell × term_env_impl) :=
  match s.stack_ with
  | [] => none
  | c :: rest => some (c, { s with stack_ := rest })

/-- `stack_depth()`. -/
def stack_depth (s : term_env_impl) : Nat := s.stack_.length

/-- `trim_stack(depth)`: `stack_.resize(depth)`.  Shrinking removes from the
back of the vector; growing would append value-initialised cells, taken here
to be `REF 0` (the callers never grow the stack). -/
def trim_stack (s : term_env_impl) (depth : Nat) : term_env_impl :=
  { s with stack_ :=
      if depth ≤ s.stack_.length then s.stack_.drop (s.stack_.length - depth)
      else List.replicate (depth - s.stack_.length) (cell.REF 0) ++ s.stack_ }

/-- `push_trail(i)`. -/
def push_trail (s : term_env_impl) (i : Nat) : term_env_impl :=
  { s with trail_ := s.trail_ ++ [i] }

/-- `trail(index)`: record the index only when it lies below `register_hb_`. -/
def trail (s : term_env_impl) (index : Nat) : term_env_impl :=
  if index < s.register_hb_ then push_trail s index else s

/-- `trail_depth()`. -/
def trail_depth (s : term_env_impl) : Nat := s.trail_.length

/-- `trim_trail(to)`: `trail_.resize(to)`; growing would append zeros. -/
def trim_trail (s : term_env_impl) (to_ : Nat) : term_env_impl :=
  { s with trail_ :=
      if to_ ≤ s.trail_.length then s.trail_.take to_
      else s.trail_ ++ List.replicate (to_ - s.trail_.length) 0 }

/-- `bind(a, b)`: `a` is cast to a `ref_cell`; `b` is stored in its heap slot
and the slot index is passed to `trail`.  No result when `a` is not a `REF`
or its index is outside the heap. -/
def bind (s : term_env_impl) (a b : cell) : Option term_env_impl :=
  match a with
  | .REF index =>
    if index < s.heap_.length then
      some (trail { s with heap_ := s.heap_.set index b } index)
    else none
  | _ => none

/-- The loop of `unwind_trail(from, to)`: `count` iterations starting at
`i`, each one resetting heap slot `trail_[i]` to `ref_cell(trail_[i])`. -/
def unwind_loop : Nat → Nat → term_env_impl → Option term_env_impl
  | 0, _, s => some s
  | count + 1, i, s =>
    match s.trail_[i]? with
    | none => none
    | some index =>
      if index < s.heap_.length then
        unwind_loop count (i + 1) { s with heap_ := s.heap_.set index (cell.REF index) }
      else none

/-- `unwind_trail(from, to)`: `for (i = from; i < to; i++)`. -/
def unwind_trail (s : term_env_impl) (from_ to_ : Nat) : Option term_env_impl :=
  unwind_loop (to_ - from_) from_ s

/-- The argument loop shared by `equal` and `unify_helper`:
`for (i = 0; i < num_args; i++) { push(arg(b, num_args-i-1)); push(arg(a, num_args-i-1)); }`.
The first parameter is the number of iterations left, so that the iteration
with `r + 1` left reads argument `r`. -/
def push_args (a b : cell) : Nat → term_env_impl → Option term_env_impl
  | 0, s => some s
  | r + 1, s =>
    match arg s.heap_ a r, arg s.heap_ b r with
    | some ai, some bi => push_args a b r (push (push s bi) ai)
    | _, _ => none

/-- What one pass through the body of a `while` loop does: go round again, or
leave the function with a boolean. -/
inductive outcome where
  | next (s : term_env_impl)
  | ret (r : Bool) (s : term_env_impl)
  deriving DecidableEq, Repr

/-- The body of the `while` loop of `equal`, `d` being the entry depth. -/
def equal_body (d fuel : Nat) (s : term_env_impl) : Option outcome :=
  match pop s with
  | none => none
  | some (a0, s1) =>
    match deref s1.heap_ fuel a0 with
    | none => none
    | some a =>
      match pop s1 with
      | none => none
      | some (b0, s2) =>
        match deref s2.heap_ fuel b0 with
        | none => none
        | some b =>
          if a = b then some (.next s2)
          else if a.tag ≠ b.tag then some (.ret false (trim_stack s2 d))
          else if a.tag ≠ tag_t.STR then some (.ret false (trim_stack s2 d))
          else
            match functor s2.heap_ a, functor s2.heap_ b with
            | some fa, some fb =>
              if fa ≠ fb then some (.ret false (trim_stack s2 d))
              else
                match push_args a b fa.arity s2 with
                | none => none
                | some s3 => some (.next s3)
            | _, _ => none

/-- The loop `while (stack_depth() > d)` of `equal`. -/
def equal_loop (d : Nat) : Nat → term_env_impl → Option (Bool × term_env_impl)
  | 0, s => if stack_depth s > d then none else some (true, s)
  | n + 1, s =>
    if stack_depth s > d then
      match equal_body d (n + 1) s with
      | none => none
      | some (.next s1) => equal_loop d n s1
      | some (.ret r s1) => some (r, s1)
    else some (true, s)

/-- `equal(a, b)`. -/
def equal (fuel : Nat) (s : term_env_impl) (a b : cell) : Option (Bool × term_env_impl) :=
  let d := stack_depth s
  equal_loop d fuel (push (push s b) a)

/-- The part of the body of `unify_helper` from `case tag_t::STR` to its
`break`: compare the functors and push the argument pairs. -/
def unify_str (s : term_env_impl) (a b : cell) : Option outcome :=
  match functor s.heap_ a, functor s.heap_ b with
  | some f, some fb =>
    if f ≠ fb then some (.ret false s)
    else
      match push_args a b f.arity s with
      | none => none
      | some s1 => some (.next s1)
  | _, _ => none

/-- The `switch (a.tag())` of `unify_helper`.  The `CON`/`INT` case has no
`break`: when its test `a != b` is false control continues into the `STR`
case.  `REF` has no case label; `BIG` and `GBL` hit `assert(false)`. -/
def unify_switch (s : term_env_impl) (a b : cell) : Option outcome :=
  match a.tag with
  | .CON | .INT => if a ≠ b then some (.ret false s) else unify_str s a b
  | .STR => unify_str s a b
  | .BIG | .GBL => none
  | .REF => some (.next s)

/-- The heap index carried by a `REF` or `STR` cell (`ref_cell::index()`,
`str_cell::index()`); the other cells carry none and give 0. -/
def cell.index : cell → Nat
  | .REF i => i
  | .STR i => i
  | _ => 0

/-- The body of the `while` loop of `unify_helper`. -/
def unify_body (fuel : Nat) (s : term_env_impl) : Option outcome :=
  match pop s with
  | none => none
  | some (a0, s1) =>
    match deref s1.heap_ fuel a0 with
    | none => none
    | some a =>
      match pop s1 with
      | none => none
      | some (b0, s2) =>
        match deref s2.heap_ fuel b0 with
        | none => none
        | some b =>
          if a = b then some (.next s2)
          else if a.tag = tag_t.REF then
            if b.tag = tag_t.REF then
              if a.index < b.index then (bind s2 b a).map outcome.next
              else (bind s2 a b).map outcome.next
            else (bind s2 a b).map outcome.next
          else if b.tag = tag_t.REF then (bind s2 b a).map outcome.next
          else if a.tag ≠ b.tag then some (.ret false s2)
          else unify_switch s2 a b

/-- The loop `while (stack_depth() > d)` of `unify_helper`. -/
def unify_loop (d : Nat) : Nat → term_env_impl → Option (Bool × term_env_impl)
  | 0, s => if stack_depth s > d then none else some (true, s)
  | n + 1, s =>
    if stack_depth s > d then
      match unify_body (n + 1) s with
      | none => none
      | some (.next s1) => unify_loop d n s1
      | some (.ret r s1) => some (r, s1)
    else some (true, s)

/-- `unify_helper(a, b)`. -/
def unify_helper (fuel : Nat) (s : term_env_impl) (a b : cell) :
    Option (Bool × term_env_impl) :=
  let d := stack_depth s
  unify_loop d fuel (push (push s b) a)

/-- `unify(a, b)`. -/
def unify (fuel : Nat) (s : term_env_impl) (a b : cell) : Option (Bool × term_env_impl) :=
  let start_trail := trail_depth s
  let start_stack := stack_depth s
  let old_register_hb := s.register_hb_
  let s1 := { s with register_hb_ := s.register_h_ }
  match unify_helper fuel s1 a b with
  | none => none
  | some (false, s2) =>
    match unwind_trail s2 start_trail (trail_depth s2) with
    | none => none
    | some s3 =>
      let s4 := trim_trail s3 start_trail
      let s5 := trim_stack s4 start_stack
      some (false, { s5 with register_hb_ := old_register_hb })
  | some (true, s2) => some (true, { s2 with register_hb_ := old_register_hb })

/-! ## Proof devices: the work stack as a list of pending pairs

`equal` and `unify_helper` only ever push and pop cells two at a time.  The
functions below run the same loops on a list of pairs; they are related to the
loops above by `equal_loop_eq` and `unify_loop_eq`. -/

/-- The cells of a list of pairs in stack order (first component on top). -/
def flat : List (cell × cell) → List cell
  | [] => []
  | (a, b) :: r => a :: b :: flat r

/-- The pairs `(arg(a, 0), arg(b, 0)), ..., (arg(a, k-1), arg(b, k-1))` that
`push_args a b k` leaves on the stack, top first. -/
def arg_pairs (h : List cell) (a b : cell) : Nat → Option (List (cell × cell))
  | 0 => some []
  | r + 1 =>
    match arg h a r, arg h b r with
    | some ai, some bi => (arg_pairs h a b r).map (fun l => l ++ [(ai, bi)])
    | _, _ => none

/-- The loop of `equal` on a list of pending pairs over a fixed heap. -/
def equal_pairs (h : List cell) : Nat → List (cell × cell) → Option Bool
  | 0, P => if P = [] then some true else none
  | _ + 1, [] => some true
  | n + 1, (a0, b0) :: P =>
    match deref h (n + 1) a0, deref h (n + 1) b0 with
    | some a, some b =>
      if a = b then equal_pairs h n P
      else if a.tag ≠ b.tag then some false
      else if a.tag ≠ tag_t.STR then some false
      else
        match functor h a, functor h b with
        | some fa, some fb =>
          if fa ≠ fb then some false
          else
            match arg_pairs h a b fa.arity with
            | none => none
            | some L => equal_pairs h n (L ++ P)
        | _, _ => none
    | _, _ => none

/-- The loop of `unify_helper` on a list of pending pairs; the result carries
the pairs still pending when the loop is left. -/
def unify_pairs : Nat → term_env_impl → List (cell × cell) →
    Option (Bool × term_env_impl × List (cell × cell))
  | 0, s, P => if P = [] then some (true, s, []) else none
  | _ + 1, s, [] => some (true, s, [])
  | n + 1, s, (a0, b0) :: P =>
    match deref s.heap_ (n + 1) a0, deref s.heap_ (n + 1) b0 with
    | some a, some b =>
      if a = b then unify_pairs n s P
      else if a.tag = tag_t.REF then
        match (if b.tag = tag_t.REF ∧ a.index < b.index then bind s b a else bind s a b) with
        | none => none
        | some s1 => unify_pairs n s1 P
      else if b.tag = tag_t.REF then
        match bind s b a with
        | none => none
        | some s1 => unify_pairs n s1 P
      else if a.tag ≠ b.tag then some (false, s, P)
      else if a.tag ≠ tag_t.STR then
        (if a.tag = tag_t.CON ∨ a.tag = tag_t.INT then some (false, s, P) else none)
      else
        match functor s.heap_ a, functor s.heap_ b with
        | some f, some fb =>
          if f ≠ fb then some (false, s, P)
          else
            match arg_pairs s.heap_ a b f.arity with
            | none => none
            | some L => unify_pairs n s (L ++ P)
        | _, _ => none
    | _, _ => none

/-- The cell `c` dereferences to `r` in heap `h`, with some amount of fuel. -/
def Dr (h : List cell) (c r : cell) : Prop := ∃ m, deref h m c = some r

/-- Heap `h1` comes from heap `h` by binding unbound variables only: a slot
that differs held its own self-reference, and every variable that was unbound
in `h` can still be dereferenced in `h1`. -/
structure Ext (h h1 : List cell) : Prop where
  length_eq : h1.length = h.length
  only_unbound : ∀ j, h1[j]? ≠ h[j]? → h[j]? = some (cell.REF j)
  still_deref : ∀ j, h[j]? = some (cell.REF j) → ∃ r, Dr h1 (cell.REF j) r

/-- State `sf` comes from state `s` by bindings made through `bind`: registers
and work stack are the same, the trail grew by the list `t` of bound slots below
the boundary, and the heap changed at unbound variables only. -/
structure Evolves (s sf : term_env_impl) (t : List Nat) : Prop where
  stack_eq : sf.stack_ = s.stack_
  hb_eq : sf.register_hb_ = s.register_hb_
  h_eq : sf.register_h_ = s.register_h_
  trail_eq : sf.trail_ = s.trail_ ++ t
  trailed : ∀ j ∈ t, s.heap_[j]? = some (cell.REF j) ∧ sf.heap_[j]? ≠ some (cell.REF j)
  changed : ∀ j, sf.heap_[j]? ≠ s.heap_[j]? → j < s.register_hb_ → j ∈ t
  ext : Ext s.heap_ sf.heap_

/-- The heap after `unwind_trail` has reset the slots listed in `t`, in order. -/
def reset_slots (t : List Nat) (h : List cell) : List cell :=
  t.foldl (fun h1 j => h1.set j (cell.REF j)) h

/-! ## Example states -/

/-- A heap holding `f(X)` at 0 and `f(Y)` at 2, with one cell on the work stack
and one entry on the trail. -/
def ex_fx_fy : term_env_impl :=
  ⟨[cell.CON 7 1, cell.REF 1, cell.CON 7 1, cell.REF 3], 4, 4, [cell.INT 9], [0]⟩

/-- A heap holding `f(X)` at 0 and `f(5)` at 2. -/
def ex_fx_f5 : term_env_impl :=
  ⟨[cell.CON 7 1, cell.REF 1, cell.CON 7 1, cell.INT 5], 1, 4, [cell.INT 9], [0]⟩

/-- The state `ex_fx_f5` after `X` has been bound to 5 and trailed. -/
def ex_fx_f5_bound : term_env_impl :=
  ⟨[cell.CON 7 1, cell.INT 5, cell.CON 7 1, cell.INT 5], 1, 4, [cell.INT 9], [0, 1]⟩

/-- A heap holding `g(X, 1)` at 0 and `g(2, 3)` at 3. -/
def ex_gx1_g23 : term_env_impl :=
  ⟨[cell.CON 8 2, cell.REF 1, cell.INT 1, cell.CON 8 2, cell.INT 2, cell.INT 3], 1, 6,
    [cell.INT 9], [0]⟩

/-- In heap `h`, whatever `x` dereferences to, `x1` dereferences to as well. -/
def App (h : List cell) (x1 x : cell) : Prop := ∀ r, Dr h x r → Dr h x1 r

/-- Two lists of pending pairs that agree, pair by pair, up to dereferencing. -/
def Rel (h : List cell) (Q P : List (cell × cell)) : Prop :=
  List.Forall₂ (fun q p => App h q.1 p.1 ∧ App h q.2 p.2) Q P

/-! ## The tokenizer (`src/common/term_tokenizer.cpp`)

The header `term_tokenizer.hpp` is not among the sources.  The stream
primitives, the token record and the character classes are modelled below;
the functions of `term_tokenizer.cpp` are translated on top of them.
Characters are character codes; the `int` returned by `next_char` and
`peek_char` is an `Int`, with `-1` for end of input. -/

/-- Modelled from the spec: the token kinds the tokenizer produces
(`term_tokenizer::token_type`, declared in the missing header). -/
inductive token_type where
  | TOKEN_NAME
  | TOKEN_NATURAL_NUMBER
  | TOKEN_UNSIGNED_FLOAT
  | TOKEN_VARIABLE
  | TOKEN_STRING
  | TOKEN_PUNCTUATION_CHAR
  | TOKEN_LAYOUT_TEXT
  | TOKEN_FULL_STOP
  deriving DecidableEq, Repr

/-- Modelled from the spec: the named error conditions of the tokenizer (the
exception classes are declared in the missing header; the tests name them). -/
inductive token_exception where
  | unterminated_quoted_name
  | unterminated_escape
  | control_char
  | hex_code
  | no_char_code
  | missing_number_after_base
  | missing_decimal
  | missing_exponent
  | unterminated_string
  deriving DecidableEq, Repr

/-- The members of `term_tokenizer` that scanning reads or writes: the unread
input `in_` with its end-of-file flag, the characters taken by `next_char_la`
and not yet given back, and the current token (`current_.type_`,
`current_.lexeme_`).  The line and column counters are left out. -/
structure term_tokenizer where
  in_ : List Nat
  eof_ : Bool
  la_ : List Nat
  type_ : token_type
  lexeme_ : List Nat
  deriving DecidableEq, Repr

/-- How a tokenizer function ends: normally, by throwing a token exception, in
a failed `assert`, or without a result within the fuel. -/
inductive tk (α : Type) where
  | ok (a : α)
  | raise (e : token_exception)
  | assert_fail
  | no_fuel
  deriving DecidableEq, Repr

/-- `static_cast<char>(ch)`, as the byte that is stored in the lexeme. -/
def to_char (ch : Int) : Nat := (ch % 256).toNat

/-- Modelled from the spec: `next_char()`, as `std::istream::get`: the next
character, or `-1` at end of input, which raises the end-of-file flag. -/
def next_char (t : term_tokenizer) : Int × term_tokenizer :=
  match t.in_ with
  | [] => (-1, { t with eof_ := true })
  | c :: r => ((c : Int), { t with in_ := r })

/-- Modelled from the spec: `peek_char()`: the next character without taking
it, `-1` at end of input. -/
def peek_char (t : term_tokenizer) : Int :=
  match t.in_ with
  | [] => -1
  | c :: _ => (c : Int)

/-- Modelled from the spec: `is_eof()`, the end-of-file flag of the stream. -/
def is_eof (t : term_tokenizer) : Bool := t.eof_

/-- Modelled from the spec: `next_char_la()`: takes the next character into the
lookahead buffer, from where `unget_char` can give it back. -/
def next_char_la (t : term_tokenizer) : Int × term_tokenizer :=
  match t.in_ with
  | [] => (-1, { t with eof_ := true })
  | c :: r => ((c : Int), { t with in_ := r, la_ := c :: t.la_ })

/-- Modelled from the spec: `unget_char()`: gives back the character taken last
by `next_char_la`. -/
def unget_char (t : term_tokenizer) : term_tokenizer :=
  match t.la_ with
  | [] => t
  | c :: l => { t with in_ := c :: t.in_, la_ := l }

/-- Modelled from the spec: `add_to_lexeme(ch)`. -/
def add_to_lexeme (t : term_tokenizer) (ch : Int) : term_tokenizer :=
  { t with lexeme_ := t.lexeme_ ++ [to_char ch] }

/-- Modelled from the spec: `consume_next_char()`: takes the next character and
appends it to the lexeme. -/
def consume_next_char (t : term_tokenizer) : term_tokenizer :=
  add_to_lexeme (next_char t).2 (next_char t).1

/-- Modelled from the spec: `set_token_type(type)`. -/
def set_token_type (t : term_tokenizer) (ty : token_type) : term_tokenizer :=
  { t with type_ := ty }

/-- Modelled from the spec: `current_.reset()`: empties the token buffer.  The
spec lists no token kind for "no token", so the kind is left as it is. -/
def reset (t : term_tokenizer) : term_tokenizer :=
  { t with lexeme_ := [] }

/-- Modelled from the spec: `is_layout_char` (grammar comment of
term_tokenizer.cpp, ISO 8859/1: codes 0..32 and 127..159). -/
def is_layout_char (ch : Int) : Bool :=
  decide ((0 ≤ ch ∧ ch ≤ 32) ∨ (127 ≤ ch ∧ ch ≤ 159))

/-- Modelled from the spec: `is_small_letter` (codes 97..122, 223..246, 248..255). -/
def is_small_letter (ch : Int) : Bool :=
  decide ((97 ≤ ch ∧ ch ≤ 122) ∨ (223 ≤ ch ∧ ch ≤ 246) ∨ (248 ≤ ch ∧ ch ≤ 255))

/-- Modelled from the spec: `is_capital_letter` (codes 65..90, 192..214, 216..222). -/
def is_capital_letter (ch : Int) : Bool :=
  decide ((65 ≤ ch ∧ ch ≤ 90) ∨ (192 ≤ ch ∧ ch ≤ 214) ∨ (216 ≤ ch ∧ ch ≤ 222))

/-- Modelled from the spec: `is_digit` (codes 48..57). -/
def is_digit (ch : Int) : Bool := decide (48 ≤ ch ∧ ch ≤ 57)

/-- Modelled from the spec: `is_underline_char` (code 95). -/
def is_underline_char (ch : Int) : Bool := decide (ch = 95)

/-- Modelled from the spec: `is_alpha`: capital letter, small letter, digit or
underline. -/
def is_alpha (ch : Int) : Bool :=
  is_capital_letter ch || is_small_letter ch || is_digit ch || is_underline_char ch

/-- Modelled from the spec: `is_symbol_char` (codes 35, 36, 38, 42, 43, 45..47,
58, 60..64, 92, 94, 96, 126, 160..191, 215 and 247). -/
def is_symbol_char (ch : Int) : Bool :=
  decide (ch = 35 ∨ ch = 36 ∨ ch = 38 ∨ ch = 42 ∨ ch = 43 ∨ (45 ≤ ch ∧ ch ≤ 47) ∨ ch = 58 ∨
    (60 ≤ ch ∧ ch ≤ 64) ∨ ch = 92 ∨ ch = 94 ∨ ch = 96 ∨ ch = 126 ∨
    (160 ≤ ch ∧ ch ≤ 191) ∨ ch = 215 ∨ ch = 247)

/-- Modelled from the spec: `is_solo_char` (codes 33 and 59). -/
def is_solo_char (ch : Int) : Bool := decide (ch = 33 ∨ ch = 59)

/-- Modelled from the spec: `is_punctuation_char` (codes 37, 40, 41, 44, 91, 93
and 123..125). -/
def is_punctuation_char (ch : Int) : Bool :=
  decide (ch = 37 ∨ ch = 40 ∨ ch = 41 ∨ ch = 44 ∨ ch = 91 ∨ ch = 93 ∨ (123 ≤ ch ∧ ch ≤ 125))

/-- Modelled from the spec: `boost::lexical_cast<std::string>(c)` for an `int`:
the decimal digits, after a minus sign when `c` is negative. -/
def lexical_cast (c : Int) : List Nat :=
  if c < 0 then 45 :: (Nat.toDigits 10 c.natAbs).map Char.toNat
  else (Nat.toDigits 10 c.natAbs).map Char.toNat

/-- The conversion `(char)` to `int` of a stored byte.  Whether `char` is signed
is left to the implementation in C++; it is the parameter `char_signed`. -/
def char_to_int (char_signed : Bool) (b : Nat) : Int :=
  if char_signed && decide (128 ≤ b % 256) then (b % 256 : Int) - 256 else (b % 256 : Int)

/-- `parse_hex_digit()`: the value of the next character as a hex digit. -/
def parse_hex_digit (t : term_tokenizer) : tk (Nat × term_tokenizer) :=
  let ch := (next_char t).1
  let t1 := (next_char t).2
  if 97 ≤ ch ∧ ch ≤ 102 then tk.ok ((ch - 97 + 10).toNat, t1)
  else if 65 ≤ ch ∧ ch ≤ 70 then tk.ok ((ch - 65 + 10).toNat, t1)
  else if 48 ≤ ch ∧ ch ≤ 57 then tk.ok ((ch - 48).toNat, t1)
  else tk.raise token_exception.hex_code

/-- The loop of `parse_oct_code()`: `i` iterations left, each taking a
character and stopping at the first that is no octal digit. -/
def parse_oct_loop : Nat → Nat → term_tokenizer → Nat × term_tokenizer
  | 0, v, t => (v, t)
  | i + 1, v, t =>
    let ch := (next_char t).1
    let t1 := (next_char t).2
    if 48 ≤ ch ∧ ch ≤ 55 then parse_oct_loop i ((v <<< 3) ||| (ch - 48).toNat) t1
    else (v, t1)

/-- `parse_oct_code()`: `for (int i = 0; i < 3; i++)`. -/
def parse_oct_code (t : term_tokenizer) : Nat × term_tokenizer :=
  parse_oct_loop 3 0 t

/-- The loop of the `c` escape: `while (is_layout_char(peek_char())) next_char()`. -/
def skip_layout : Nat → term_tokenizer → tk term_tokenizer
  | 0, _ => tk.no_fuel
  | n + 1, t =>
    if is_layout_char (peek_char t) then skip_layout n (next_char t).2 else tk.ok t

/-- `next_escape_sequence()`.  The `char c` that is appended at the end is
given as the `int` value assigned to it; `add_to_lexeme` truncates it. -/
def next_escape_sequence (fuel : Nat) (t : term_tokenizer) : tk term_tokenizer :=
  let ch := (next_char t).1
  let t1 := (next_char t).2
  if ch = 98 then tk.ok (add_to_lexeme t1 8)
  else if ch = 116 then tk.ok (add_to_lexeme t1 9)
  else if ch = 110 then tk.ok (add_to_lexeme t1 10)
  else if ch = 118 then tk.ok (add_to_lexeme t1 11)
  else if ch = 102 then tk.ok (add_to_lexeme t1 12)
  else if ch = 114 then tk.ok (add_to_lexeme t1 13)
  else if ch = 101 then tk.ok (add_to_lexeme t1 27)
  else if ch = 100 then tk.ok (add_to_lexeme t1 127)
  else if ch = 97 then tk.ok (add_to_lexeme t1 7)
  else if ch = 120 then
    match parse_hex_digit t1 with
    | tk.ok (v1, t2) =>
      match parse_hex_digit t2 with
      | tk.ok (v2, t3) => tk.ok (add_to_lexeme t3 (((v1 <<< 8) ||| v2 : Nat) : Int))
      | tk.raise e => tk.raise e
      | tk.assert_fail => tk.assert_fail
      | tk.no_fuel => tk.no_fuel
    | tk.raise e => tk.raise e
    | tk.assert_fail => tk.assert_fail
    | tk.no_fuel => tk.no_fuel
  else if ch = 99 then skip_layout fuel t1
  else if ch = 94 then
    let ch2 := (next_char t1).1
    let t2 := (next_char t1).2
    if ch2 = 63 then tk.ok (add_to_lexeme t2 127)
    else if is_capital_letter ch2 then tk.ok (add_to_lexeme t2 ((ch2 - 65 + 1) % 32))
    else if is_small_letter ch2 then tk.ok (add_to_lexeme t2 ((ch2 - 97 + 1) % 32))
    else tk.raise token_exception.control_char
  else if 48 ≤ ch ∧ ch ≤ 55 then
    tk.ok (add_to_lexeme (parse_oct_code t1).2 ((parse_oct_code t1).1 : Int))
  else if is_layout_char ch then tk.ok t1
  else tk.ok (add_to_lexeme t1 ch)

/-- The loop `while (!is_eof())` of `next_quoted_name()`; `none` in the result
stands for leaving the loop at its end, `some` for the `return` inside. -/
def quoted_name_loop (fuel : Nat) : Nat → term_tokenizer → tk term_tokenizer
  | 0, _ => tk.no_fuel
  | n + 1, t =>
    if !is_eof t then
      let ch := (next_char t).1
      let t1 := (next_char t).2
      if ch = 39 then
        if peek_char t1 = 39 then quoted_name_loop fuel n (add_to_lexeme t1 39)
        else tk.ok t1
      else if ch ≠ 92 then quoted_name_loop fuel n (add_to_lexeme t1 ch)
      else
        match next_escape_sequence fuel t1 with
        | tk.ok t2 => quoted_name_loop fuel n t2
        | tk.raise e => tk.raise e
        | tk.assert_fail => tk.assert_fail
        | tk.no_fuel => tk.no_fuel
    else tk.ok t

/-- `next_quoted_name()`. -/
def next_quoted_name (fuel : Nat) (t : term_tokenizer) : tk term_tokenizer :=
  let ch := (next_char t).1
  let t1 := (next_char t).2
  if ch ≠ 39 then tk.assert_fail
  else quoted_name_loop fuel fuel { t1 with type_ := token_type.TOKEN_NAME }

/-- `next_xs(predicate)`: `while (predicate(peek_char())) consume_next_char()`. -/
def next_xs (predicate : Int → Bool) : Nat → term_tokenizer → tk term_tokenizer
  | 0, _ => tk.no_fuel
  | n + 1, t =>
    if predicate (peek_char t) then next_xs predicate n (consume_next_char t) else tk.ok t

/-- `next_digits()`. -/
def next_digits (fuel : Nat) (t : term_tokenizer) : tk term_tokenizer :=
  next_xs is_digit fuel t

/-- `next_alphas()`. -/
def next_alphas (fuel : Nat) (t : term_tokenizer) : tk term_tokenizer :=
  next_xs is_alpha fuel t

/-- `next_word()`. -/
def next_word (fuel : Nat) (t : term_tokenizer) : tk term_tokenizer :=
  next_alphas fuel t

/-- `next_variable()`. -/
def next_variable (fuel : Nat) (t : term_tokenizer) : tk term_tokenizer :=
  next_alphas fuel t

/-- `is_comment_begin()`: the next character is `%`, or the next two are `/*`.
The function is `const`: the character it takes with `next_char_la` is given
back with `unget_char` on both ways out, so only the answer is kept. -/
def is_comment_begin (t : term_tokenizer) : Bool :=
  if peek_char t = 37 then true
  else if peek_char t ≠ 47 then false
  else decide (peek_char (next_char_la t).2 = 42)

/-- `is_full_stop()` with no argument: `peek_char() == '.'`. -/
def is_full_stop (t : term_tokenizer) : Bool := decide (peek_char t = 46)

/-- `is_full_stop(ch)`: `ch == '.'`. -/
def is_full_stop_char (ch : Int) : Bool := decide (ch = 46)

/-- The loop `while (depth > 0 && !is_eof())` of `parse_block_comment()`. -/
def block_comment_loop : Nat → Nat → term_tokenizer → tk term_tokenizer
  | 0, _, _ => tk.no_fuel
  | n + 1, depth, t =>
    if depth > 0 ∧ !is_eof t then
      let ch := (next_char t).1
      let t1 := (next_char t).2
      if ch = 42 ∧ peek_char t1 = 47 then
        block_comment_loop n (depth - 1)
          { (next_char t1).2 with lexeme_ := (next_char t1).2.lexeme_ ++ [42, 47] }
      else if ch = 47 ∧ peek_char t1 = 42 then
        block_comment_loop n (depth + 1)
          { (next_char t1).2 with lexeme_ := (next_char t1).2.lexeme_ ++ [47, 42] }
      else block_comment_loop n depth (add_to_lexeme t1 ch)
    else tk.ok t

/-- `parse_block_comment()`. -/
def parse_block_comment (fuel : Nat) (t : term_tokenizer) : tk term_tokenizer :=
  let ch := (next_char_la t).1
  let t1 := (next_char_la t).2
  if ch = 47 ∧ peek_char t1 = 42 then
    block_comment_loop fuel 1 (consume_next_char (consume_next_char (unget_char t1)))
  else tk.ok (unget_char t1)

/-- The loop `while (peek_char() != '\n')` of `parse_line_comment()`; the
boolean says whether the loop was left by the `return` inside. -/
def line_comment_loop : Nat → term_tokenizer → tk (Bool × term_tokenizer)
  | 0, _ => tk.no_fuel
  | n + 1, t =>
    if peek_char t ≠ 10 then
      if is_eof t then tk.ok (true, t)
      else line_comment_loop n (consume_next_char t)
    else tk.ok (false, t)

/-- `parse_line_comment()`. -/
def parse_line_comment (fuel : Nat) (t : term_tokenizer) : tk term_tokenizer :=
  if peek_char t ≠ 37 then tk.ok t
  else
    match line_comment_loop fuel t with
    | tk.ok (true, t1) => tk.ok t1
    | tk.ok (false, t1) => tk.ok (consume_next_char t1)
    | tk.raise e => tk.raise e
    | tk.assert_fail => tk.assert_fail
    | tk.no_fuel => tk.no_fuel

/-- `next_layout_text()`: the loop `while (cont)`. -/
def next_layout_text (fuel : Nat) : Nat → term_tokenizer → tk term_tokenizer
  | 0, _ => tk.no_fuel
  | n + 1, t =>
    let ch := peek_char t
    if is_layout_char ch then next_layout_text fuel n (consume_next_char t)
    else if ch = 47 ∧ is_comment_begin t then
      match parse_block_comment fuel t with
      | tk.ok t1 => next_layout_text fuel n t1
      | tk.raise e => tk.raise e
      | tk.assert_fail => tk.assert_fail
      | tk.no_fuel => tk.no_fuel
    else if ch = 37 then
      match parse_line_comment fuel t with
      | tk.ok t1 => next_layout_text fuel n t1
      | tk.raise e => tk.raise e
      | tk.assert_fail => tk.assert_fail
      | tk.no_fuel => tk.no_fuel
    else tk.ok t

/-- `next_solo_char()`. -/
def next_solo_char (t : term_tokenizer) : term_tokenizer := consume_next_char t

/-- `next_punctuation_char()`. -/
def next_punctuation_char (t : term_tokenizer) : term_tokenizer := consume_next_char t

/-- `next_full_stop()`. -/
def next_full_stop (t : term_tokenizer) : term_tokenizer := consume_next_char t

/-- `next_symbol()`: `while (is_symbol_char(peek_char()) && !is_comment_begin()
&& !is_full_stop()) consume_next_char()`. -/
def next_symbol : Nat → term_tokenizer → tk term_tokenizer
  | 0, _ => tk.no_fuel
  | n + 1, t =>
    if is_symbol_char (peek_char t) && !is_comment_begin t && !is_full_stop t then
      next_symbol n (consume_next_char t)
    else tk.ok t

/-- `next_char_code()`. -/
def next_char_code (char_signed : Bool) (fuel : Nat) (t : term_tokenizer) :
    tk term_tokenizer :=
  let r :=
    if peek_char t = 92 then next_escape_sequence fuel (reset (next_char t).2)
    else tk.ok (consume_next_char (reset t))
  match r with
  | tk.ok t1 =>
    match t1.lexeme_ with
    | [] => tk.raise token_exception.no_char_code
    | b :: _ => tk.ok { t1 with lexeme_ := lexical_cast (char_to_int char_signed b) }
  | tk.raise e => tk.raise e
  | tk.assert_fail => tk.assert_fail
  | tk.no_fuel => tk.no_fuel

/-- `next_exponent()`. -/
def next_exponent (fuel : Nat) (t : term_tokenizer) : tk term_tokenizer :=
  let t1 := consume_next_char t
  let ch := peek_char t1
  if ch = 43 ∨ ch = 45 then next_digits fuel (consume_next_char t1)
  else next_digits fuel t1

/-- `next_decimal()`. -/
def next_decimal (fuel : Nat) (t : term_tokenizer) : tk term_tokenizer :=
  match next_digits fuel (consume_next_char t) with
  | tk.ok t1 =>
    if peek_char t1 = 101 ∨ peek_char t1 = 69 then next_exponent fuel t1 else tk.ok t1
  | tk.raise e => tk.raise e
  | tk.assert_fail => tk.assert_fail
  | tk.no_fuel => tk.no_fuel

/-- `next_float()`. -/
def next_float (fuel : Nat) (t : term_tokenizer) : tk term_tokenizer :=
  let ch := peek_char t
  if ch = 101 ∨ ch = 69 then next_exponent fuel t
  else if ch = 46 then next_decimal fuel t
  else tk.ok t

/-- `next_number()`. -/
def next_number (char_signed : Bool) (fuel : Nat) (t : term_tokenizer) : tk term_tokenizer :=
  match next_digits fuel t with
  | tk.ok t1 =>
    let ch := peek_char t1
    if ch = 39 then
      let t2 := consume_next_char t1
      if t2.lexeme_ = [48, 39] then next_char_code char_signed fuel t2
      else next_alphas fuel t2
    else if ch = 46 ∨ ch = 101 ∨ ch = 69 then
      next_float fuel (set_token_type t1 token_type.TOKEN_UNSIGNED_FLOAT)
    else tk.ok t1
  | tk.raise e => tk.raise e
  | tk.assert_fail => tk.assert_fail
  | tk.no_fuel => tk.no_fuel

/-- The loop `while (cont)` of `next_string()`. -/
def string_loop (fuel : Nat) : Nat → term_tokenizer → tk term_tokenizer
  | 0, _ => tk.no_fuel
  | n + 1, t =>
    let ch := (next_char t).1
    let t1 := (next_char t).2
    if ch = 34 then
      if peek_char t1 = 34 then string_loop fuel n (consume_next_char t1)
      else tk.ok t1
    else if ch = 92 then
      match next_escape_sequence fuel t1 with
      | tk.ok t2 => string_loop fuel n t2
      | tk.raise e => tk.raise e
      | tk.assert_fail => tk.assert_fail
      | tk.no_fuel => tk.no_fuel
    else if is_eof t1 then tk.ok t1
    else string_loop fuel n (add_to_lexeme t1 ch)

/-- `next_string()`. -/
def next_string (fuel : Nat) (t : term_tokenizer) : tk term_tokenizer :=
  string_loop fuel fuel (next_char t).2

/-- `next_token()`; the result is the tokenizer with `current_` holding the
token returned.  Every loop may run `fuel` rounds. -/
def next_token (char_signed : Bool) (fuel : Nat) (t0 : term_tokenizer) : tk term_tokenizer :=
  let t := reset t0
  if is_comment_begin t then next_layout_text fuel fuel t
  else
    let ch := peek_char t
    if is_digit ch then
      next_number char_signed fuel (set_token_type t token_type.TOKEN_NATURAL_NUMBER)
    else if ch = 39 then next_quoted_name fuel (set_token_type t token_type.TOKEN_NAME)
    else if is_small_letter ch then next_word fuel (set_token_type t token_type.TOKEN_NAME)
    else if is_capital_letter ch || is_underline_char ch then
      next_variable fuel (set_token_type t token_type.TOKEN_VARIABLE)
    else if is_layout_char ch then
      next_layout_text fuel fuel (set_token_type t token_type.TOKEN_LAYOUT_TEXT)
    else if is_symbol_char ch && !is_full_stop_char ch then
      next_symbol fuel (set_token_type t token_type.TOKEN_NAME)
    else if is_solo_char ch then
      tk.ok (next_solo_char (set_token_type t token_type.TOKEN_NAME))
    else if is_punctuation_char ch then
      tk.ok (next_punctuation_char (set_token_type t token_type.TOKEN_PUNCTUATION_CHAR))
    else if ch = 34 then next_string fuel (set_token_type t token_type.TOKEN_STRING)
    else if is_full_stop_char ch then
      tk.ok (next_full_stop (set_token_type t token_type.TOKEN_FULL_STOP))
    else tk.ok t

/-- The code of the first character of an input, `-1` for the empty input:
what `peek_char` returns on it. -/
def head_code (l : List Nat) : Int :=
  match l with
  | [] => -1
  | c :: _ => (c : Int)

/-- The exception a tokenizer function ended with, if it ended with one. -/
def thrown {α : Type} (r : tk α) : Option token_exception :=
  match r with
  | tk.raise e => some e
  | _ => none

/-- The exceptions for which `term_tokenizer.cpp` has a `throw`: the two of
the escape decoder, and the one of `next_char_code`. -/
def may_throw (o : Option token_exception) : Prop :=
  o = none ∨ o = some token_exception.control_char ∨ o = some token_exception.hex_code ∨
    o = some token_exception.no_char_code

/-- The exceptions for which the escape decoder has a `throw`. -/
def may_throw_escape (o : Option token_exception) : Prop :=
  o = none ∨ o = some token_exception.control_char ∨ o = some token_exception.hex_code

/-- The pieces a block comment is made of, after its opening `/*`: an inner
opener `/*`, a closer `*/`, or any other single character. -/
inductive ctok where
  | opn
  | cls
  | chr (c : Nat)
  deriving DecidableEq, Repr

/-- The text of one comment piece. -/
def render_ctok : ctok → List Nat
  | ctok.opn => [47, 42]
  | ctok.cls => [42, 47]
  | ctok.chr c => [c]

/-- The text of a list of comment pieces. -/
def render_ctoks : List ctok → List Nat
  | [] => []
  | x :: r => render_ctok x ++ render_ctoks r

/-- The pieces, read at nesting depth `d`, are properly nested: every closer
matches an opener, and the depth reaches 0 exactly at the last piece. -/
def balanced : Nat → List ctok → Bool
  | 0, _ => false
  | _ + 1, [] => false
  | d + 1, ctok.opn :: r => balanced (d + 2) r
  | d + 1, ctok.chr _ :: r => balanced (d + 1) r
  | d + 1, ctok.cls :: r => if d = 0 then decide (r = []) else balanced d r

/-- The single characters among the pieces are bytes and spell no delimiter
with what follows: a `*` is not followed by `/`, and a `/` not by `*`. -/
def clean : List ctok → Bool
  | [] => true
  | ctok.chr c :: r =>
    decide (c < 256) &&
      !(decide (c = 42) && decide (head_code (render_ctoks r) = 47)) &&
      !(decide (c = 47) && decide (head_code (render_ctoks r) = 42)) && clean r
  | _ :: r => clean r

/-- The items of a layout text: a layout character, a block comment (given by
its pieces after the opening `/*`), or a line comment (given by its text
between `%` and the newline). -/
inductive litem where
  | lay (c : Nat)
  | block (body : List ctok)
  | line (txt : List Nat)
  deriving DecidableEq, Repr

/-- The text of a layout item. -/
def render_litem : litem → List Nat
  | litem.lay c => [c]
  | litem.block body => 47 :: 42 :: render_ctoks body
  | litem.line txt => 37 :: (txt ++ [10])

/-- The text of a list of layout items. -/
def render_litems : List litem → List Nat
  | [] => []
  | x :: r => render_litem x ++ render_litems r

/-- A layout item is well formed: a layout character; a properly nested block
comment; a line of bytes without a newline. -/
def valid_litem : litem → Bool
  | litem.lay c => is_layout_char (c : Int)
  | litem.block body => balanced 1 body && clean body
  | litem.line txt => txt.all (fun c => decide (c < 256) && decide (c ≠ 10))

/-- The layout text starts with a comment, not with a layout character. -/
def starts_with_comment : List litem → Bool
  | litem.lay _ :: _ => false
  | _ => true

/-- The input `rest` ends a layout text: its first character is no layout
character and does not start a comment (no `%`, no `/*`). -/
def ends_layout (rest : List Nat) : Bool :=
  !is_layout_char (head_code rest) && decide (head_code rest ≠ 37) &&
    !(decide (head_code rest = 47) && decide (head_code rest.tail = 42))

/-- The pieces of the comment `/*bla/* ha */ xx *q*/` of the test, after its
opening `/*`. -/
def ex_nested_comment : List ctok :=
  [ctok.chr 98, ctok.chr 108, ctok.chr 97, ctok.opn, ctok.chr 32, ctok.chr 104, ctok.chr 97,
   ctok.chr 32, ctok.cls, ctok.chr 32, ctok.chr 120, ctok.chr 120, ctok.chr 32, ctok.chr 42,
   ctok.chr 113, ctok.cls]

/-- The layout text of the test that follows `+=`: the nested comment, the
character 1, and the line comment `%To/*themoon` with the byte 240 before
its newline. -/
def ex_layout_items : List litem :=
  [litem.block ex_nested_comment, litem.lay 1,
   litem.line [84, 111, 47, 42, 116, 104, 101, 109, 111, 111, 110, 240]]

/-- The value of a hex digit: `0`..`9` count 0 to 9, the letters `a`..`f` and
`A`..`F` count 10 to 15; other characters have no value. -/
def hex_val (c : Nat) : Option Nat :=
  if 48 ≤ c ∧ c ≤ 57 then some (c - 48)
  else if 97 ≤ c ∧ c ≤ 102 then some (c - 97 + 10)
  else if 65 ≤ c ∧ c ≤ 70 then some (c - 65 + 10)
  else none

/-- The character is an octal digit, `0`..`7`. -/
def is_oct_digit (c : Nat) : Bool := decide (48 ≤ c ∧ c ≤ 55)

/-- The octal value of a run of octal digits, most significant digit first. -/
def oct_val (ds : List Nat) : Nat :=
  ds.foldl (fun v d => 8 * v + (d - 48)) 0

/-- The loop of `test_is_symbol_char()` in test_term_tokenizer.cpp, which
writes the codes classified by `is_symbol_char` as a text: single codes, and
`first..last` for a run of three or more.  `n` is the number of rounds left,
`i` the loop variable. -/
def symbol_chars_loop : Nat → Int → Bool → List Nat → List Nat
  | 0, _, _, str => str
  | n + 1, i, in_seq, str =>
    let str1 :=
      if is_symbol_char i then
        let s1 := if !in_seq && !str.isEmpty then str ++ [44, 32] else str
        if !in_seq then s1 ++ lexical_cast i else s1
      else str
    let in_seq1 :=
      if is_symbol_char i && !in_seq && is_symbol_char (i + 1) && is_symbol_char (i + 2)
      then true else in_seq
    if in_seq1 && !is_symbol_char i then
      symbol_chars_loop n (i + 1) false (str1 ++ [46, 46] ++ lexical_cast (i - 1))
    else symbol_chars_loop n (i + 1) in_seq1 str1

/-- The text built by `test_is_symbol_char()`: `for (int i = 0; i < 500; i++)`. -/
def symbol_chars_text : List Nat := symbol_chars_loop 500 0 false []

/-- The text `test_is_symbol_char()` expects:
`35, 36, 38, 42, 43, 45..47, 58, 60..64, 92, 94, 96, 126, 160..191, 215, 247`,
as character codes. -/
def symbol_chars_expected : List Nat :=
  [51, 53, 44, 32, 51, 54, 44, 32, 51, 56, 44, 32, 52, 50, 44, 32, 52, 51, 44, 32, 52, 53,
   46, 46, 52, 55, 44, 32, 53, 56, 44, 32, 54, 48, 46, 46, 54, 52, 44, 32, 57, 50, 44, 32,
   57, 52, 44, 32, 57, 54, 44, 32, 49, 50, 54, 44, 32, 49, 54, 48, 46, 46, 49, 57, 49, 44,
   32, 50, 49, 53, 44, 32, 50, 52, 55]

/-- A heap holding `f(X1, X2)` at 0 and `f(5, a)` at 3; the argument cells of
the first term refer to the unbound variables `X1` at slot 7 and `X2` at slot
6.  One cell is on the work stack and one entry on the trail. -/
def ex_fxy_f5a : term_env_impl :=
  ⟨[cell.CON 7 2, cell.REF 7, cell.REF 6, cell.CON 7 2, cell.INT 5, cell.CON 9 0,
    cell.REF 6, cell.REF 7], 0, 8, [cell.INT 9], [0]⟩

/-- The term at cell `c` of heap `h` is finite and well formed, with less than
`n` levels: a `REF` chain ends after finitely many slots, in an unbound variable
or in a term that is finite; a `STR` cell points to a `CON` functor cell whose
argument slots exist and hold finite terms; no cell carries one of the two
unimplemented tags.  A heap in which `REF` chains end and no compound contains
itself is one in which the term at every cell is finite for some `n`. -/
def finite_term (h : List cell) : Nat → cell → Bool
  | 0, _ => false
  | n + 1, cell.REF i =>
    match h[i]? with
    | none => false
    | some c => decide (c = cell.REF i) || finite_term h n c
  | n + 1, cell.STR p =>
    match h[p]? with
    | some (cell.CON _ k) =>
      (List.range k).all (fun j =>
        match h[p + 1 + j]? with
        | none => false
        | some c => finite_term h n c)
    | _ => false
  | _ + 1, cell.CON _ _ => true
  | _ + 1, cell.INT _ => true
  | _ + 1, cell.BIG _ => false
  | _ + 1, cell.GBL _ => false

/-- The number of unbound variables among the cells `l`, which are the heap
slots from index `i` on: the slots that hold their own self-reference. -/
def unbound_from : Nat → List cell → Nat
  | _, [] => 0
  | i, c :: r => (if c = cell.REF i then 1 else 0) + unbound_from (i + 1) r

/-- The number of unbound variables of a heap. -/
def unbound_count (h : List cell) : Nat := unbound_from 0 h

/-- One round of the loop of `unify_helper` entered at stack depth `d`: the loop
condition holds in `s`, and the body takes `s` to `s1` without returning. -/
def unify_round (d : Nat) (s s1 : term_env_impl) : Prop :=
  stack_depth s > d ∧ ∃ fuel, unify_body fuel s = some (outcome.next s1)

/-- The states in which the loop of `unify_helper`, entered at stack depth `d`
and started in `s`, comes to its head. -/
inductive unify_reaches (d : Nat) (s : term_env_impl) : term_env_impl → Prop where
  | start : unify_reaches d s s
  | round (s1 s2 : term_env_impl) :
      unify_reaches d s s1 → unify_round d s1 s2 → unify_reaches d s s2

/-- One round of the loop of `equal` entered at stack depth `d`. -/
def equal_round (d : Nat) (s s1 : term_env_impl) : Prop :=
  stack_depth s > d ∧ ∃ fuel, equal_body d fuel s = some (outcome.next s1)

/-- The states in which the loop of `equal`, entered at stack depth `d` and
started in `s`, comes to its head. -/
inductive equal_reaches (d : Nat) (s : term_env_impl) : term_env_impl → Prop where
  | start : equal_reaches d s s
  | round (s1 s2 : term_env_impl) :
      equal_reaches d s s1 → equal_round d s1 s2 → equal_reaches d s s2

/-- The cells pending on the work stack above the entry depth `d` are finite
terms of the heap of `s`. -/
def pending_finite (d : Nat) (s : term_env_impl) : Prop :=
  ∃ k, ∀ c ∈ s.stack_.take (stack_depth s - d), finite_term s.heap_ k c = true

/-- A heap holding `f(X, Y, X)` at 0 and `f(g(Y), g(X), Y)` at 4, with `X` at
slot 1 and `Y` at slot 2, both unbound, `g(Y)` at 8 and `g(X)` at 10. -/
def ex_occurs : term_env_impl :=
  ⟨[cell.CON 1 3, cell.REF 1, cell.REF 2, cell.REF 1,
    cell.CON 1 3, cell.STR 8, cell.STR 10, cell.REF 2,
    cell.CON 2 1, cell.REF 2, cell.CON 2 1, cell.REF 1], 0, 12, [], []⟩

/-- The heap of `ex_occurs` after `unify` has bound `X` to `g(Y)` and `Y` to
`g(X)`: the terms at slots 1 and 2 contain themselves. -/
def ex_occurs_bound : List cell :=
  [cell.CON 1 3, cell.STR 8, cell.STR 10, cell.REF 1,
   cell.CON 1 3, cell.STR 8, cell.STR 10, cell.REF 2,
   cell.CON 2 1, cell.REF 2, cell.CON 2 1, cell.REF 1]

/-- The state `t` with the cells of the pending pairs `P` pushed on its work
stack, first component of the first pair on top. -/
def with_pending (t : term_env_impl) (P : List (cell × cell)) : term_env_impl :=
  { t with stack_ := flat P ++ t.stack_ }

/-- What one round of the loop of `unify_helper` leaves: a state and the pairs
still pending, or the boolean the function returns with. -/
inductive round_result where
  | next (t : term_env_impl) (P : List (cell × cell))
  | ret (r : Bool)
  deriving DecidableEq, Repr

/-- One round of the loop of `unify_helper` on the pending pairs, after the two
cells popped have been dereferenced to `a` and `b`; `P` are the pairs under
them. -/
def unify_round_cells (t : term_env_impl) (a b : cell) (P : List (cell × cell)) :
    Option round_result :=
  if a = b then some (.next t P)
  else if a.tag = tag_t.REF then
    match (if b.tag = tag_t.REF ∧ a.index < b.index then bind t b a else bind t a b) with
    | none => none
    | some t1 => some (.next t1 P)
  else if b.tag = tag_t.REF then
    match bind t b a with
    | none => none
    | some t1 => some (.next t1 P)
  else if a.tag ≠ b.tag then some (.ret false)
  else if a.tag ≠ tag_t.STR then
    (if a.tag = tag_t.CON ∨ a.tag = tag_t.INT then some (.ret false) else none)
  else
    match functor t.heap_ a, functor t.heap_ b with
    | some f, some fb =>
      if f ≠ fb then some (.ret false)
      else
        match arg_pairs t.heap_ a b f.arity with
        | none => none
        | some L => some (.next t (L ++ P))
    | _, _ => none

/-- One round of the loop of `unify_helper` on the pending pairs: the pair
`(a0, b0)` is taken off and dereferenced, `P` are the pairs under it. -/
def unify_round_pairs (fuel : Nat) (t : term_env_impl) (a0 b0 : cell)
    (P : List (cell × cell)) : Option round_result :=
  match deref t.heap_ fuel a0, deref t.heap_ fuel b0 with
  | some a, some b => unify_round_cells t a b P
  | _, _ => none

/-- The loop of `unify_helper`, run on the pending pairs `P` from state `t`,
comes to an end: every large enough fuel gives a result. -/
def unify_pairs_ends (t : term_env_impl) (P : List (cell × cell)) : Prop :=
  ∃ N, ∀ m, N ≤ m → ∃ res, unify_pairs m t P = some res

/-- The state of `unify` on `ex_occurs` after both variables are bound, with
the pair `(X, Y)` pending: the state the loop of `unify_helper` is in after
four rounds. -/
def ex_occurs_loop_a : term_env_impl :=
  ⟨ex_occurs_bound, 12, 12, [cell.REF 1, cell.REF 2], [1, 2]⟩

/-- The state of the loop of `unify_helper` one round after `ex_occurs_loop_a`:
the pair `(Y, X)` is pending. -/
def ex_occurs_loop_b : term_env_impl :=
  ⟨ex_occurs_bound, 12, 12, [cell.REF 2, cell.REF 1], [1, 2]⟩

/-! ## Basic facts about the accessors -/

theorem deref_nonref (h : List cell) (n : Nat) (c : cell) (hc : c.tag ≠ tag_t.REF) :
    deref h n c = some c := by
  cases n <;> cases c <;> simp_all [deref, cell.tag]

theorem deref_ref_inv (h : List cell) (n : Nat) (c : cell) (i : Nat)
    (hd : deref h n c = some (cell.REF i)) : h[i]? = some (cell.REF i) := by
  induction n generalizing c with
  | zero =>
    cases c <;> simp_all [deref, cell.tag]
  | succ n ih =>
    cases c with
    | REF k =>
      simp only [deref] at hd
      cases hk : h[k]? with
      | none => simp [hk] at hd
      | some nextc =>
        simp only [hk] at hd
        by_cases he : nextc = cell.REF k
        · simp only [he, if_true, Option.some.injEq, cell.REF.injEq] at hd
          subst hd
          rw [hk, he]
        · simp only [he, if_false] at hd
          exact ih nextc hd
    | _ => simp_all [deref]

theorem deref_mono (h : List cell) (n : Nat) (c r : cell)
    (hd : deref h n c = some r) : deref h (n + 1) c = some r := by
  induction n generalizing c with
  | zero =>
    cases c <;> simp_all [deref, cell.tag]
  | succ n ih =>
    cases c with
    | REF k =>
      simp only [deref] at hd
      cases hk : h[k]? with
      | none => simp [hk] at hd
      | some nextc =>
        simp only [hk] at hd
        by_cases he : nextc = cell.REF k
        · simp only [he, if_true] at hd
          rw [deref]
          simp only [hk, he, if_true]
          exact hd
        · simp only [he, if_false] at hd
          have := ih nextc hd
          rw [deref]
          simp only [hk, he, if_false]
          exact this
    | _ => simp_all [deref]

theorem deref_mono_le (h : List cell) (n m : Nat) (c r : cell) (hnm : n ≤ m)
    (hd : deref h n c = some r) : deref h m c = some r := by
  induction hnm with
  | refl => exact hd
  | step _ ih => exact deref_mono h _ c r ih

theorem trim_stack_self (s : term_env_impl) (base : List cell) (w : List cell)
    (hs : s.stack_ = w ++ base) :
    trim_stack s base.length = { s with stack_ := base } := by
  simp [trim_stack, hs]

/-! ## C9: `bind` -/

/-- C9: `bind(a, b)` with `a = REF(i)` (and `i` inside the heap) stores exactly `b`
in heap slot `i`, leaves every other slot and the heap size unchanged, and
appends `i` to the trail if and only if `i < register_hb_`; otherwise the
trail is unchanged.  Registers and work stack are not touched. -/
theorem bind_writes_slot_and_trails (s : term_env_impl) (i : Nat) (b : cell)
    (hi : i < s.heap_.length) :
    ∃ s1, bind s (cell.REF i) b = some s1 ∧
      s1.heap_[i]? = some b ∧
      (∀ j, j ≠ i → s1.heap_[j]? = s.heap_[j]?) ∧
      s1.heap_.length = s.heap_.length ∧
      (i < s.register_hb_ → s1.trail_ = s.trail_ ++ [i]) ∧
      (¬ i < s.register_hb_ → s1.trail_ = s.trail_) ∧
      s1.register_hb_ = s.register_hb_ ∧ s1.register_h_ = s.register_h_ ∧
      s1.stack_ = s.stack_ := by
  refine ⟨trail { s with heap_ := s.heap_.set i b } i, by simp [bind, hi], ?_⟩
  by_cases hb : i < s.register_hb_
  · simp [trail, push_trail, hb, hi]
    intro j hj
    exact List.getElem?_set_ne (Ne.symm hj)
  · simp [trail, push_trail, hb, hi]
    intro j hj
    exact List.getElem?_set_ne (Ne.symm hj)

/-- C9 at a concrete state: binding `REF 1` to `INT 5` below the boundary. -/
theorem bind_writes_slot_and_trails_witness :
    ∃ s1, bind ⟨[cell.REF 0, cell.REF 1], 2, 2, [], []⟩ (cell.REF 1) (cell.INT 5) = some s1 ∧
      s1.heap_[1]? = some (cell.INT 5) ∧
      (∀ j, j ≠ 1 → s1.heap_[j]? = [cell.REF 0, cell.REF 1][j]?) ∧
      s1.heap_.length = 2 ∧
      (1 < 2 → s1.trail_ = [] ++ [1]) ∧
      (¬ 1 < 2 → s1.trail_ = []) ∧
      s1.register_hb_ = 2 ∧ s1.register_h_ = 2 ∧ s1.stack_ = [] :=
  bind_writes_slot_and_trails ⟨[cell.REF 0, cell.REF 1], 2, 2, [], []⟩ 1 (cell.INT 5)
    (by decide)

/-! ## C3: binding direction -/

/-- C3: when the loop body of `unify_helper` pops a pair whose two sides
dereference to the distinct unbound variables `REF i` and `REF j` with `i < j`,
in either argument position, the body goes round again after writing exactly
slot `j`, which becomes `REF i`; slot `i` still holds the self-reference `REF i`
and no other slot changes. -/
theorem unify_body_binds_higher_index (fuel : Nat) (s : term_env_impl) (a0 b0 : cell)
    (rest : List cell) (i j : Nat) (hs : s.stack_ = a0 :: b0 :: rest) (hij : i < j)
    (hd : (deref s.heap_ fuel a0 = some (cell.REF i) ∧ deref s.heap_ fuel b0 = some (cell.REF j)) ∨
          (deref s.heap_ fuel a0 = some (cell.REF j) ∧ deref s.heap_ fuel b0 = some (cell.REF i))) :
    ∃ s1, unify_body fuel s = some (outcome.next s1) ∧
      s1.heap_ = s.heap_.set j (cell.REF i) ∧
      s.heap_[i]? = some (cell.REF i) ∧ s.heap_[j]? = some (cell.REF j) ∧
      s1.heap_[j]? = some (cell.REF i) ∧ s1.heap_[i]? = some (cell.REF i) ∧
      (∀ k, k ≠ j → s1.heap_[k]? = s.heap_[k]?) ∧ s1.stack_ = rest := by
  have hi : s.heap_[i]? = some (cell.REF i) := by
    rcases hd with ⟨h1, _⟩ | ⟨_, h2⟩
    · exact deref_ref_inv _ _ _ _ h1
    · exact deref_ref_inv _ _ _ _ h2
  have hj : s.heap_[j]? = some (cell.REF j) := by
    rcases hd with ⟨_, h2⟩ | ⟨h1, _⟩
    · exact deref_ref_inv _ _ _ _ h2
    · exact deref_ref_inv _ _ _ _ h1
  have hjlt : j < s.heap_.length := by
    rcases List.getElem?_eq_some_iff.mp hj with ⟨h, _⟩
    exact h
  have hne : i ≠ j := Nat.ne_of_lt hij
  have hne2 : j ≠ i := Ne.symm hne
  have hnlt : ¬ j < i := by omega
  have key : ∀ t : term_env_impl, t.heap_ = s.heap_.set j (cell.REF i) →
      t.heap_ = s.heap_.set j (cell.REF i) ∧
      s.heap_[i]? = some (cell.REF i) ∧ s.heap_[j]? = some (cell.REF j) ∧
      t.heap_[j]? = some (cell.REF i) ∧ t.heap_[i]? = some (cell.REF i) ∧
      (∀ k, k ≠ j → t.heap_[k]? = s.heap_[k]?) := by
    intro t ht
    refine ⟨ht, hi, hj, ?_, ?_, ?_⟩
    · rw [ht]; simp [hjlt]
    · rw [ht, List.getElem?_set_ne hne2]; exact hi
    · intro k hk; rw [ht, List.getElem?_set_ne (Ne.symm hk)]
  rcases hd with ⟨h1, h2⟩ | ⟨h1, h2⟩
  · refine ⟨trail { s with heap_ := s.heap_.set j (cell.REF i), stack_ := rest } j, ?_, ?_⟩
    · simp [unify_body, pop, hs, h1, h2, cell.tag, cell.index, bind, hjlt, hne, hij]
    · have := key (trail { s with heap_ := s.heap_.set j (cell.REF i), stack_ := rest } j)
        (by unfold trail push_trail; split <;> rfl)
      refine ⟨this.1, this.2.1, this.2.2.1, this.2.2.2.1, this.2.2.2.2.1, this.2.2.2.2.2, ?_⟩
      unfold trail push_trail; split <;> rfl
  · refine ⟨trail { s with heap_ := s.heap_.set j (cell.REF i), stack_ := rest } j, ?_, ?_⟩
    · simp [unify_body, pop, hs, h1, h2, cell.tag, cell.index, bind, hjlt, hne2, hnlt]
    · have := key (trail { s with heap_ := s.heap_.set j (cell.REF i), stack_ := rest } j)
        (by unfold trail push_trail; split <;> rfl)
      refine ⟨this.1, this.2.1, this.2.2.1, this.2.2.2.1, this.2.2.2.2.1, this.2.2.2.2.2, ?_⟩
      unfold trail push_trail; split <;> rfl

/-- C3 at a concrete state: the pair `(REF 1, REF 0)`, higher index passed first. -/
theorem unify_body_binds_higher_index_witness :
    ∃ s1, unify_body 1 ⟨[cell.REF 0, cell.REF 1], 2, 2, [cell.REF 1, cell.REF 0], []⟩
        = some (outcome.next s1) ∧
      s1.heap_ = [cell.REF 0, cell.REF 1].set 1 (cell.REF 0) ∧
      [cell.REF 0, cell.REF 1][0]? = some (cell.REF 0) ∧
      [cell.REF 0, cell.REF 1][1]? = some (cell.REF 1) ∧
      s1.heap_[1]? = some (cell.REF 0) ∧ s1.heap_[0]? = some (cell.REF 0) ∧
      (∀ k, k ≠ 1 → s1.heap_[k]? = [cell.REF 0, cell.REF 1][k]?) ∧ s1.stack_ = [] :=
  unify_body_binds_higher_index 1 ⟨[cell.REF 0, cell.REF 1], 2, 2, [cell.REF 1, cell.REF 0], []⟩
    (cell.REF 1) (cell.REF 0) [] 0 1 rfl (by decide) (Or.inr ⟨by decide, by decide⟩)

/-! ## C6, C7: `equal` on identical cells and on distinct variables -/

theorem equal_same_deref (n : Nat) (s : term_env_impl) (a0 b0 c : cell)
    (ha : deref s.heap_ (n + 1) a0 = some c) (hb : deref s.heap_ (n + 1) b0 = some c) :
    equal (n + 1) s a0 b0 = some (true, s) := by
  have hlt : s.stack_.length < s.stack_.length + 1 + 1 := by omega
  cases n <;>
    simp [equal, equal_loop, equal_body, push, pop, stack_depth, ha, hb, hlt]

/-- C6: `equal` is reflexive: for every state and every cell `a` that can be
dereferenced, `equal(a, a)` returns true (and leaves the state as it was). -/
theorem equal_reflexive (n : Nat) (s : term_env_impl) (a c : cell)
    (ha : deref s.heap_ (n + 1) a = some c) :
    equal (n + 1) s a a = some (true, s) :=
  equal_same_deref n s a a c ha ha

/-- C6 at a concrete state: a compound cell compared with itself. -/
theorem equal_reflexive_witness :
    equal 1 ⟨[cell.CON 7 1, cell.REF 1], 2, 2, [], []⟩ (cell.STR 0) (cell.STR 0)
      = some (true, ⟨[cell.CON 7 1, cell.REF 1], 2, 2, [], []⟩) :=
  equal_reflexive 0 ⟨[cell.CON 7 1, cell.REF 1], 2, 2, [], []⟩ (cell.STR 0) (cell.STR 0)
    (by decide)

/-- C7: two cells that dereference to unbound `REF` cells at different heap
indices compare unequal, and two cells that dereference to the identical cell
compare equal; the state is left as it was in both cases. -/
theorem equal_distinct_refs_false_same_cell_true (n : Nat) (s : term_env_impl)
    (a0 b0 : cell) :
    (∀ i j, i ≠ j → deref s.heap_ (n + 1) a0 = some (cell.REF i) →
        deref s.heap_ (n + 1) b0 = some (cell.REF j) →
        equal (n + 1) s a0 b0 = some (false, s)) ∧
    (∀ c, deref s.heap_ (n + 1) a0 = some c → deref s.heap_ (n + 1) b0 = some c →
        equal (n + 1) s a0 b0 = some (true, s)) := by
  refine ⟨?_, fun c ha hb => equal_same_deref n s a0 b0 c ha hb⟩
  intro i j hij ha hb
  have ht : trim_stack { s with stack_ := s.stack_ } s.stack_.length = s := by
    simp [trim_stack]
  have hlt : s.stack_.length < s.stack_.length + 1 + 1 := by omega
  simp [equal, equal_loop, equal_body, push, pop, stack_depth, ha, hb, hij, cell.tag, hlt]
  exact ht

/-- C7 at a concrete state: `REF 2` is bound to `REF 1`; `REF 0` is unbound. -/
theorem equal_distinct_refs_false_same_cell_true_witness :
    equal 2 ⟨[cell.REF 0, cell.REF 1, cell.REF 1], 3, 3, [], []⟩ (cell.REF 2) (cell.REF 0)
        = some (false, ⟨[cell.REF 0, cell.REF 1, cell.REF 1], 3, 3, [], []⟩) ∧
    equal 2 ⟨[cell.REF 0, cell.REF 1, cell.REF 1], 3, 3, [], []⟩ (cell.REF 2) (cell.REF 1)
        = some (true, ⟨[cell.REF 0, cell.REF 1, cell.REF 1], 3, 3, [], []⟩) :=
  ⟨(equal_distinct_refs_false_same_cell_true 1
      ⟨[cell.REF 0, cell.REF 1, cell.REF 1], 3, 3, [], []⟩ (cell.REF 2) (cell.REF 0)).1
      1 0 (by decide) (by decide) (by decide),
   (equal_distinct_refs_false_same_cell_true 1
      ⟨[cell.REF 0, cell.REF 1, cell.REF 1], 3, 3, [], []⟩ (cell.REF 2) (cell.REF 1)).2
      (cell.REF 1) (by decide) (by decide)⟩

/-! ## C10: atomic cells of the same tag with different values -/

theorem unwind_trail_empty (s : term_env_impl) (k : Nat) : unwind_trail s k k = some s := by
  simp [unwind_trail, unwind_loop]

theorem trim_trail_depth (s : term_env_impl) : trim_trail s s.trail_.length = s := by
  simp [trim_trail]

theorem trim_stack_depth (s : term_env_impl) : trim_stack s s.stack_.length = s := by
  simp [trim_stack]

/-- C10: when both arguments dereference to atomic cells of the same tag (both
`CON` or both `INT`) with different values, `unify` returns false and leaves the
state as it was; and on such a pair the `switch` of `unify_helper` returns
false in every state, so the missing `break` of the `CON`/`INT` case is never
followed into the `STR` case (no functor or argument is looked up). -/
theorem unify_atomic_mismatch_fails (n : Nat) (s : term_env_impl) (a0 b0 a b : cell)
    (ha : deref s.heap_ (n + 1) a0 = some a) (hb : deref s.heap_ (n + 1) b0 = some b)
    (htag : a.tag = b.tag) (hat : a.tag = tag_t.CON ∨ a.tag = tag_t.INT) (hne : a ≠ b) :
    unify (n + 1) s a0 b0 = some (false, s) ∧
    (∀ t : term_env_impl, unify_switch t a b = some (outcome.ret false t)) := by
  have hsw : ∀ t : term_env_impl, unify_switch t a b = some (outcome.ret false t) := by
    intro t
    rcases hat with h | h <;> simp [unify_switch, h, hne]
  refine ⟨?_, hsw⟩
  · have hlt : s.stack_.length < s.stack_.length + 1 + 1 := by omega
    have hta : a.tag ≠ tag_t.REF := by rcases hat with h | h <;> simp [h]
    have htb : b.tag ≠ tag_t.REF := by rw [← htag]; exact hta
    have hbody : unify_body (n + 1)
        { heap_ := s.heap_, register_hb_ := s.register_h_, register_h_ := s.register_h_,
          stack_ := a0 :: b0 :: s.stack_, trail_ := s.trail_ } =
        some (outcome.ret false
          { heap_ := s.heap_, register_hb_ := s.register_h_, register_h_ := s.register_h_,
            stack_ := s.stack_, trail_ := s.trail_ }) := by
      simp [unify_body, pop, ha, hb, hne, hta, htb, htag, hsw]
    simp only [unify, unify_helper, push, stack_depth, unify_loop, List.length_cons, hlt,
      if_true, hbody, trail_depth, unwind_trail_empty]
    simp [trim_trail, trim_stack]

/-- C10 at a concrete state: the atoms `CON 1 0` and `CON 2 0`. -/
theorem unify_atomic_mismatch_fails_witness :
    unify 1 ⟨[cell.REF 0], 1, 1, [], []⟩ (cell.CON 1 0) (cell.CON 2 0)
        = some (false, ⟨[cell.REF 0], 1, 1, [], []⟩) ∧
    (∀ t : term_env_impl,
        unify_switch t (cell.CON 1 0) (cell.CON 2 0) = some (outcome.ret false t)) :=
  unify_atomic_mismatch_fails 0 ⟨[cell.REF 0], 1, 1, [], []⟩ (cell.CON 1 0) (cell.CON 2 0)
    (cell.CON 1 0) (cell.CON 2 0) (by decide) (by decide) (by decide) (Or.inl (by decide))
    (by decide)

/-! ## The loops as functions of the list of pending pairs -/

theorem flat_append (l m : List (cell × cell)) : flat (l ++ m) = flat l ++ flat m := by
  induction l with
  | nil => rfl
  | cons x l ih => obtain ⟨a, b⟩ := x; simp [flat, ih]

theorem push_args_eq (a b : cell) (k : Nat) (s : term_env_impl) :
    push_args a b k s =
      (arg_pairs s.heap_ a b k).map (fun l => { s with stack_ := flat l ++ s.stack_ }) := by
  induction k generalizing s with
  | zero => simp [push_args, arg_pairs, flat]
  | succ r ih =>
    rw [push_args, arg_pairs]
    cases hx : arg s.heap_ a r <;> cases hy : arg s.heap_ b r <;> simp only []
    · simp
    · simp
    · simp
    · rw [ih]
      simp only [push]
      cases hr : arg_pairs s.heap_ a b r <;> simp [flat_append, flat]

theorem state_stack_eq (s : term_env_impl) (l : List cell) (h : s.stack_ = l) :
    { s with stack_ := l } = s := by
  cases s; simp_all

theorem equal_loop_eq (n : Nat) (s : term_env_impl) (P : List (cell × cell))
    (base : List cell) (hs : s.stack_ = flat P ++ base) :
    equal_loop base.length n s =
      (equal_pairs s.heap_ n P).map (fun r => (r, { s with stack_ := base })) := by
  induction n generalizing s P with
  | zero =>
    cases P with
    | nil =>
      simp only [flat, List.nil_append] at hs
      simp [equal_loop, equal_pairs, stack_depth, hs, state_stack_eq s base hs]
    | cons x P =>
      obtain ⟨a0, b0⟩ := x
      simp [equal_loop, equal_pairs, stack_depth, hs, flat]
      omega
  | succ n ih =>
    cases P with
    | nil =>
      simp only [flat, List.nil_append] at hs
      simp [equal_loop, equal_pairs, stack_depth, hs, state_stack_eq s base hs]
    | cons x P =>
      obtain ⟨a0, b0⟩ := x
      have hs2 : s.stack_ = a0 :: b0 :: (flat P ++ base) := by simpa [flat] using hs
      have hlt : stack_depth s > base.length := by
        simp [stack_depth, hs2]; omega
      have htrim : trim_stack { s with stack_ := flat P ++ base } base.length =
          { s with stack_ := base } := by
        simp [trim_stack]
      rw [equal_loop, if_pos hlt, equal_pairs]
      simp only [equal_body, pop, hs2]
      cases hda : deref s.heap_ (n + 1) a0 with
      | none => simp
      | some a =>
        cases hdb : deref s.heap_ (n + 1) b0 with
        | none => simp
        | some b =>
          simp only []
          by_cases hab : a = b
          · rw [if_pos hab, if_pos hab]
            exact ih { s with stack_ := flat P ++ base } P rfl
          · rw [if_neg hab, if_neg hab]
            by_cases ht : a.tag ≠ b.tag
            · rw [if_pos ht, if_pos ht, htrim]; rfl
            · rw [if_neg ht, if_neg ht]
              by_cases hstr : a.tag ≠ tag_t.STR
              · rw [if_pos hstr, if_pos hstr, htrim]; rfl
              · rw [if_neg hstr, if_neg hstr]
                cases hfa : functor s.heap_ a with
                | none => simp
                | some fa =>
                  cases hfb : functor s.heap_ b with
                  | none => simp
                  | some fb =>
                    simp only []
                    by_cases hf : fa ≠ fb
                    · rw [if_pos hf, if_pos hf, htrim]; rfl
                    · rw [if_neg hf, if_neg hf, push_args_eq]
                      cases hL : arg_pairs s.heap_ a b fa.arity with
                      | none => simp
                      | some L =>
                        simp only [Option.map_some']
                        have := ih { s with stack_ := flat L ++ (flat P ++ base) } (L ++ P)
                          (by simp [flat_append])
                        simpa using this

theorem equal_eq (n : Nat) (s : term_env_impl) (a b : cell) :
    equal n s a b = (equal_pairs s.heap_ n [(a, b)]).map (fun r => (r, s)) := by
  have h := equal_loop_eq n (push (push s b) a) [(a, b)] s.stack_ (by simp [push, flat])
  simp only [equal, stack_depth]
  rw [h]
  simp [push]

/-! ## C4: `equal` leaves the state as it was -/

/-- C4: whatever `equal(a, b)` returns, true or false, the state after the call
is the state before it: heap cells and heap size, trail, `register_hb_`,
`register_h_` and the work stack (contents and depth) are all unchanged. -/
theorem equal_changes_nothing (n : Nat) (s : term_env_impl) (a b : cell) (r : Bool)
    (s1 : term_env_impl) (h : equal n s a b = some (r, s1)) :
    s1 = s ∧ s1.heap_ = s.heap_ ∧ s1.trail_ = s.trail_ ∧
      s1.register_hb_ = s.register_hb_ ∧ stack_depth s1 = stack_depth s := by
  rw [equal_eq] at h
  cases he : equal_pairs s.heap_ n [(a, b)] with
  | none => simp [he] at h
  | some r0 =>
    simp only [he, Option.map_some', Option.some.injEq, Prod.mk.injEq] at h
    rw [← h.2]
    exact ⟨rfl, rfl, rfl, rfl, rfl⟩

/-- C4 at a concrete state: comparing `f(X)` with `f(Y)` gives false and
restores the non-empty work stack. -/
theorem equal_changes_nothing_witness :
    equal 3 ex_fx_fy (cell.STR 0) (cell.STR 2) = some (false, ex_fx_fy) ∧
    (ex_fx_fy = ex_fx_fy ∧ ex_fx_fy.heap_ = ex_fx_fy.heap_ ∧
      ex_fx_fy.trail_ = ex_fx_fy.trail_ ∧
      ex_fx_fy.register_hb_ = ex_fx_fy.register_hb_ ∧
      stack_depth ex_fx_fy = stack_depth ex_fx_fy) :=
  ⟨by decide,
   equal_changes_nothing 3 ex_fx_fy (cell.STR 0) (cell.STR 2) false ex_fx_fy (by decide)⟩

/-! ## C5: `equal` is symmetric -/

theorem arg_pairs_swap (h : List cell) (a b : cell) (k : Nat) :
    arg_pairs h b a k = (arg_pairs h a b k).map (List.map Prod.swap) := by
  induction k with
  | zero => simp [arg_pairs]
  | succ r ih =>
    rw [arg_pairs, arg_pairs]
    cases hx : arg h a r <;> cases hy : arg h b r <;> simp only [] <;> try simp
    rw [ih]
    cases arg_pairs h a b r <;> simp

theorem equal_pairs_swap (h : List cell) (n : Nat) (P : List (cell × cell)) :
    equal_pairs h n (P.map Prod.swap) = equal_pairs h n P := by
  induction n generalizing P with
  | zero => cases P <;> simp [equal_pairs]
  | succ n ih =>
    cases P with
    | nil => simp [equal_pairs]
    | cons x P =>
      obtain ⟨a0, b0⟩ := x
      simp only [List.map_cons, Prod.swap_prod_mk, equal_pairs]
      cases hda : deref h (n + 1) a0 with
      | none => cases hdb : deref h (n + 1) b0 <;> simp
      | some a =>
        cases hdb : deref h (n + 1) b0 with
        | none => simp
        | some b =>
          simp only []
          by_cases hab : a = b
          · rw [if_pos hab, if_pos hab.symm]
            exact ih P
          · rw [if_neg hab, if_neg (Ne.symm hab)]
            by_cases ht : a.tag ≠ b.tag
            · rw [if_pos ht, if_pos (Ne.symm ht)]
            · rw [if_neg ht, if_neg (fun hh => ht (Ne.symm hh))]
              have hteq : a.tag = b.tag := not_not.mp ht
              by_cases hstr : a.tag ≠ tag_t.STR
              · rw [if_pos hstr, if_pos (by rw [← hteq]; exact hstr)]
              · rw [if_neg hstr, if_neg (by rw [← hteq]; exact hstr)]
                cases hfa : functor h a with
                | none => cases hfb : functor h b <;> simp
                | some fa =>
                  cases hfb : functor h b with
                  | none => simp
                  | some fb =>
                    simp only []
                    by_cases hf : fa ≠ fb
                    · rw [if_pos hf, if_pos (Ne.symm hf)]
                    · rw [if_neg hf, if_neg (fun hh => hf (Ne.symm hh))]
                      have hfeq : fa = fb := not_not.mp hf
                      rw [← hfeq, arg_pairs_swap h a b fa.arity]
                      cases hL : arg_pairs h a b fa.arity with
                      | none => simp
                      | some L =>
                        simp only [Option.map_some']
                        have := ih (L ++ P)
                        simpa using this

/-- C5: `equal` is symmetric: for every state and cells `a`, `b` the call
`equal(a, b)` gives what `equal(b, a)` gives (the same boolean and the same
state, or no result for both). -/
theorem equal_symmetric (n : Nat) (s : term_env_impl) (a b : cell) :
    equal n s a b = equal n s b a := by
  rw [equal_eq, equal_eq]
  have := equal_pairs_swap s.heap_ n [(a, b)]
  simp only [List.map_cons, Prod.swap_prod_mk, List.map_nil] at this
  rw [this]

/-! ## The loop of `unify_helper` as a function of the pending pairs -/

theorem bind_stack (s : term_env_impl) (l : List cell) (a b : cell) :
    bind { s with stack_ := l } a b = (bind s a b).map (fun t => { t with stack_ := l }) := by
  cases a <;> simp only [bind, Option.map_none']
  split
  · simp only [Option.map_some', trail, push_trail]
    split <;> rfl
  · rfl

theorem bind_frame (s t : term_env_impl) (a b : cell) (h : bind s a b = some t) :
    t.stack_ = s.stack_ ∧ t.register_hb_ = s.register_hb_ ∧ t.register_h_ = s.register_h_ ∧
      t.heap_.length = s.heap_.length := by
  cases a with
  | REF i =>
    simp only [bind] at h
    split at h
    · simp only [Option.some.injEq] at h
      subst h
      simp only [trail, push_trail]
      split <;> simp
    · exact absurd h (by simp)
  | _ => simp [bind] at h

theorem unify_switch_atomic (t : term_env_impl) (a b : cell) (hab : a ≠ b)
    (har : a.tag ≠ tag_t.REF) (hstr : a.tag ≠ tag_t.STR) :
    unify_switch t a b =
      if a.tag = tag_t.CON ∨ a.tag = tag_t.INT then some (outcome.ret false t) else none := by
  unfold unify_switch
  cases a <;> simp_all [cell.tag]

theorem unify_loop_eq (n : Nat) (s s0 : term_env_impl) (P : List (cell × cell))
    (base : List cell) (hs : s.stack_ = flat P ++ base) (hs0 : s0 = { s with stack_ := base }) :
    unify_loop base.length n s =
      (unify_pairs n s0 P).map
        (fun x => (x.1, { x.2.1 with stack_ := flat x.2.2 ++ base })) := by
  induction n generalizing s s0 P with
  | zero =>
    cases P with
    | nil =>
      simp only [flat, List.nil_append] at hs
      subst hs0
      simp [unify_loop, unify_pairs, stack_depth, hs, flat, state_stack_eq s base hs]
    | cons x P =>
      obtain ⟨a0, b0⟩ := x
      simp [unify_loop, unify_pairs, stack_depth, hs, flat]
      omega
  | succ n ih =>
    cases P with
    | nil =>
      simp only [flat, List.nil_append] at hs
      subst hs0
      simp [unify_loop, unify_pairs, stack_depth, hs, flat, state_stack_eq s base hs]
    | cons x P =>
      obtain ⟨a0, b0⟩ := x
      have hs2 : s.stack_ = a0 :: b0 :: (flat P ++ base) := by simpa [flat] using hs
      have hlt : stack_depth s > base.length := by
        simp [stack_depth, hs2]; omega
      have hh0 : s0.heap_ = s.heap_ := by rw [hs0]
      have hbind : ∀ x y : cell,
          (match (bind { s with stack_ := flat P ++ base } x y).map outcome.next with
            | none => none
            | some (outcome.next s1) => unify_loop base.length n s1
            | some (outcome.ret r s1) => some (r, s1)) =
          (match bind s0 x y with
            | none => none
            | some s1 => unify_pairs n s1 P).map
            (fun z : Bool × term_env_impl × List (cell × cell) =>
              (z.1, { z.2.1 with stack_ := flat z.2.2 ++ base })) := by
        intro x y
        have e1 := bind_stack s (flat P ++ base) x y
        have e2 := bind_stack s base x y
        rw [hs0, e1, e2]
        cases hb : bind s x y with
        | none => simp
        | some t =>
          simp only [Option.map_some']
          exact ih { t with stack_ := flat P ++ base } { t with stack_ := base } P rfl rfl
      rw [unify_loop, if_pos hlt, unify_pairs]
      simp only [unify_body, pop, hs2, hh0]
      cases hda : deref s.heap_ (n + 1) a0 with
      | none => simp
      | some a =>
        cases hdb : deref s.heap_ (n + 1) b0 with
        | none => simp
        | some b =>
          simp only []
          by_cases hab : a = b
          · rw [if_pos hab, if_pos hab]
            exact ih { s with stack_ := flat P ++ base } s0 P rfl hs0
          · rw [if_neg hab, if_neg hab]
            by_cases har : a.tag = tag_t.REF
            · rw [if_pos har, if_pos har]
              by_cases hbr : b.tag = tag_t.REF
              · rw [if_pos hbr]
                by_cases hlt2 : a.index < b.index
                · rw [if_pos hlt2, if_pos ⟨hbr, hlt2⟩]
                  exact hbind b a
                · rw [if_neg hlt2, if_neg (fun hh => hlt2 hh.2)]
                  exact hbind a b
              · rw [if_neg hbr, if_neg (fun hh => hbr hh.1)]
                exact hbind a b
            · rw [if_neg har, if_neg har]
              by_cases hbr : b.tag = tag_t.REF
              · rw [if_pos hbr, if_pos hbr]
                exact hbind b a
              · rw [if_neg hbr, if_neg hbr]
                by_cases ht : a.tag ≠ b.tag
                · rw [if_pos ht, if_pos ht, hs0]; rfl
                · rw [if_neg ht, if_neg ht]
                  by_cases hstr : a.tag ≠ tag_t.STR
                  · rw [if_pos hstr, unify_switch_atomic _ a b hab har hstr]
                    by_cases hc : a.tag = tag_t.CON ∨ a.tag = tag_t.INT
                    · rw [if_pos hc, if_pos hc, hs0]; rfl
                    · rw [if_neg hc, if_neg hc]; rfl
                  · rw [if_neg hstr]
                    have hstr2 : a.tag = tag_t.STR := not_not.mp hstr
                    simp only [unify_switch, hstr2, unify_str, hh0]
                    cases hfa : functor s.heap_ a with
                    | none => simp
                    | some fa =>
                      cases hfb : functor s.heap_ b with
                      | none => simp
                      | some fb =>
                        simp only []
                        by_cases hf : fa ≠ fb
                        · rw [if_pos hf, if_pos hf, hs0]; rfl
                        · rw [if_neg hf, if_neg hf, push_args_eq]
                          cases hL : arg_pairs s.heap_ a b fa.arity with
                          | none => simp
                          | some L =>
                            simp only [Option.map_some']
                            have := ih { s with stack_ := flat L ++ (flat P ++ base) } s0 (L ++ P)
                              (by simp [flat_append]) hs0
                            simpa using this

theorem unify_helper_eq (n : Nat) (s : term_env_impl) (a b : cell) :
    unify_helper n s a b =
      (unify_pairs n s [(a, b)]).map
        (fun x => (x.1, { x.2.1 with stack_ := flat x.2.2 ++ s.stack_ })) := by
  have h := unify_loop_eq n (push (push s b) a) s [(a, b)] s.stack_ (by simp [push, flat])
    (by simp [push])
  simp only [unify_helper, stack_depth]
  exact h

theorem tag_ref_iff (c : cell) : c.tag = tag_t.REF ↔ ∃ i, c = cell.REF i := by
  cases c <;> simp [cell.tag]

/-- What one round of `unify_pairs` does, read off a run that gave a result. -/
theorem unify_pairs_inv (n : Nat) (s : term_env_impl) (a0 b0 : cell)
    (P : List (cell × cell)) (res : Bool × term_env_impl × List (cell × cell))
    (h : unify_pairs (n + 1) s ((a0, b0) :: P) = some res) :
    ∃ a b, deref s.heap_ (n + 1) a0 = some a ∧ deref s.heap_ (n + 1) b0 = some b ∧
      ((a = b ∧ unify_pairs n s P = some res) ∨
       (a ≠ b ∧ ∃ i y s1, ((a = cell.REF i ∧ y = b) ∨ (b = cell.REF i ∧ y = a)) ∧
          bind s (cell.REF i) y = some s1 ∧ unify_pairs n s1 P = some res) ∨
       (a ≠ b ∧ a.tag ≠ tag_t.REF ∧ b.tag ≠ tag_t.REF ∧ res = (false, s, P)) ∨
       (a ≠ b ∧ ∃ f L, a.tag = tag_t.STR ∧ b.tag = tag_t.STR ∧
          functor s.heap_ a = some f ∧ functor s.heap_ b = some f ∧
          arg_pairs s.heap_ a b f.arity = some L ∧ unify_pairs n s (L ++ P) = some res)) := by
  rw [unify_pairs] at h
  cases hda : deref s.heap_ (n + 1) a0 with
  | none => simp [hda] at h
  | some a =>
    cases hdb : deref s.heap_ (n + 1) b0 with
    | none => simp [hda, hdb] at h
    | some b =>
      simp only [hda, hdb] at h
      refine ⟨a, b, rfl, rfl, ?_⟩
      by_cases hab : a = b
      · rw [if_pos hab] at h
        exact Or.inl ⟨hab, h⟩
      · rw [if_neg hab] at h
        by_cases har : a.tag = tag_t.REF
        · rw [if_pos har] at h
          obtain ⟨i, hi⟩ := (tag_ref_iff a).mp har
          right; left
          refine ⟨hab, ?_⟩
          by_cases hc : b.tag = tag_t.REF ∧ a.index < b.index
          · rw [if_pos hc] at h
            obtain ⟨j, hj⟩ := (tag_ref_iff b).mp hc.1
            cases hb : bind s b a with
            | none => simp [hb] at h
            | some s1 =>
              simp only [hb] at h
              exact ⟨j, a, s1, Or.inr ⟨hj, rfl⟩, by rw [← hj]; exact hb, h⟩
          · rw [if_neg hc] at h
            cases hb : bind s a b with
            | none => simp [hb] at h
            | some s1 =>
              simp only [hb] at h
              exact ⟨i, b, s1, Or.inl ⟨hi, rfl⟩, by rw [← hi]; exact hb, h⟩
        · rw [if_neg har] at h
          by_cases hbr : b.tag = tag_t.REF
          · rw [if_pos hbr] at h
            obtain ⟨j, hj⟩ := (tag_ref_iff b).mp hbr
            right; left
            refine ⟨hab, ?_⟩
            cases hb : bind s b a with
            | none => simp [hb] at h
            | some s1 =>
              simp only [hb] at h
              exact ⟨j, a, s1, Or.inr ⟨hj, rfl⟩, by rw [← hj]; exact hb, h⟩
          · rw [if_neg hbr] at h
            by_cases ht : a.tag ≠ b.tag
            · rw [if_pos ht] at h
              right; right; left
              exact ⟨hab, har, hbr, (Option.some.inj h).symm⟩
            · rw [if_neg ht] at h
              have hteq : a.tag = b.tag := not_not.mp ht
              by_cases hstr : a.tag ≠ tag_t.STR
              · rw [if_pos hstr] at h
                right; right; left
                by_cases hc : a.tag = tag_t.CON ∨ a.tag = tag_t.INT
                · rw [if_pos hc] at h
                  exact ⟨hab, har, hbr, (Option.some.inj h).symm⟩
                · rw [if_neg hc] at h
                  exact absurd h (by simp)
              · rw [if_neg hstr] at h
                have hstr2 : a.tag = tag_t.STR := not_not.mp hstr
                cases hfa : functor s.heap_ a with
                | none => simp [hfa] at h
                | some fa =>
                  cases hfb : functor s.heap_ b with
                  | none => simp [hfa, hfb] at h
                  | some fb =>
                    simp only [hfa, hfb] at h
                    by_cases hf : fa ≠ fb
                    · rw [if_pos hf] at h
                      right; right; left
                      exact ⟨hab, har, hbr, (Option.some.inj h).symm⟩
                    · rw [if_neg hf] at h
                      have hfeq : fa = fb := not_not.mp hf
                      cases hL : arg_pairs s.heap_ a b fa.arity with
                      | none => simp [hL] at h
                      | some L =>
                        simp only [hL] at h
                        right; right; right
                        exact ⟨hab, fa, L, hstr2, by rw [← hteq]; exact hstr2, rfl,
                          by rw [hfeq], hL, h⟩

/-! ## Dereferencing across bindings -/

theorem Dr_det (h : List cell) (c r r1 : cell) (h1 : Dr h c r) (h2 : Dr h c r1) : r = r1 := by
  obtain ⟨m, hm⟩ := h1
  obtain ⟨k, hk⟩ := h2
  have e1 := deref_mono_le h m (max m k) c r (le_max_left _ _) hm
  have e2 := deref_mono_le h k (max m k) c r1 (le_max_right _ _) hk
  rw [e1] at e2
  exact Option.some.inj e2

theorem Dr_nonref (h : List cell) (c : cell) (hc : c.tag ≠ tag_t.REF) : Dr h c c :=
  ⟨0, deref_nonref h 0 c hc⟩

theorem Dr_unbound (h : List cell) (i : Nat) (hi : h[i]? = some (cell.REF i)) :
    Dr h (cell.REF i) (cell.REF i) :=
  ⟨1, by simp [deref, hi]⟩

theorem Dr_step (h : List cell) (i : Nat) (c r : cell) (hi : h[i]? = some c)
    (hne : c ≠ cell.REF i) (hd : Dr h c r) : Dr h (cell.REF i) r := by
  obtain ⟨m, hm⟩ := hd
  exact ⟨m + 1, by simp [deref, hi, hne, hm]⟩

theorem Dr_step_inv (h : List cell) (i : Nat) (c r : cell) (hi : h[i]? = some c)
    (hne : c ≠ cell.REF i) (hd : Dr h (cell.REF i) r) : Dr h c r := by
  obtain ⟨m, hm⟩ := hd
  cases m with
  | zero => simp [deref, cell.tag] at hm
  | succ m =>
    simp only [deref, hi, hne, if_false] at hm
    exact ⟨m, hm⟩

theorem Dr_terminal (h : List cell) (c r : cell) (hd : Dr h c r) : Dr h r r := by
  obtain ⟨m, hm⟩ := hd
  by_cases hr : r.tag = tag_t.REF
  · obtain ⟨i, hi⟩ := (tag_ref_iff r).mp hr
    subst hi
    exact Dr_unbound h i (deref_ref_inv h m c i hm)
  · exact Dr_nonref h r hr

theorem Ext.ext_refl (h : List cell) : Ext h h :=
  ⟨rfl, fun _ hj => absurd rfl hj, fun j hj => ⟨_, Dr_unbound h j hj⟩⟩

theorem Ext.stable {h h1 : List cell} (e : Ext h h1) (j : Nat) (c : cell)
    (hj : h[j]? = some c) (hne : c ≠ cell.REF j) : h1[j]? = some c := by
  by_contra hc
  have := e.only_unbound j (by rw [hj]; exact hc)
  rw [hj] at this
  exact hne (Option.some.inj this)

theorem Ext.lift {h h1 : List cell} (e : Ext h h1) (x r : cell) (hd : Dr h x r) :
    ∃ r1, Dr h1 x r1 ∧ Dr h1 r r1 := by
  obtain ⟨m, hm⟩ := hd
  induction m generalizing x with
  | zero =>
    by_cases hx : x.tag = tag_t.REF
    · simp [deref, hx] at hm
    · simp only [deref, hx, if_false, Option.some.injEq] at hm
      subst hm
      exact ⟨x, Dr_nonref h1 x hx, Dr_nonref h1 x hx⟩
  | succ m ih =>
    by_cases hx : x.tag = tag_t.REF
    · obtain ⟨i, hi⟩ := (tag_ref_iff x).mp hx
      subst hi
      simp only [deref] at hm
      cases hk : h[i]? with
      | none => simp [hk] at hm
      | some nextc =>
        simp only [hk] at hm
        by_cases he : nextc = cell.REF i
        · simp only [he, if_true, Option.some.injEq] at hm
          subst hm
          obtain ⟨r1, hr1⟩ := e.still_deref i (by rw [hk, he])
          exact ⟨r1, hr1, hr1⟩
        · simp only [he, if_false] at hm
          obtain ⟨r1, hr1, hr2⟩ := ih nextc hm
          exact ⟨r1, Dr_step h1 i nextc r1 (e.stable i nextc hk he) he hr1, hr2⟩
    · have := deref_nonref h (m + 1) x hx
      rw [this] at hm
      have hxr := Option.some.inj hm
      subst hxr
      exact ⟨x, Dr_nonref h1 x hx, Dr_nonref h1 x hx⟩

theorem Ext.ext_trans {h h1 h2 : List cell} (e1 : Ext h h1) (e2 : Ext h1 h2) : Ext h h2 := by
  refine ⟨by rw [e2.length_eq, e1.length_eq], ?_, ?_⟩
  · intro j hj
    by_cases hc : h1[j]? = h[j]?
    · have := e2.only_unbound j (by rw [hc]; exact hj)
      rw [← hc]; exact this
    · exact e1.only_unbound j hc
  · intro j hj
    obtain ⟨r, hr⟩ := e1.still_deref j hj
    obtain ⟨r1, hr1, _⟩ := e2.lift _ _ hr
    exact ⟨r1, hr1⟩

theorem Dr_self_set (h : List cell) (i : Nat) (y : cell) (hne : y ≠ cell.REF i)
    (hy : Dr h y y) : Dr (h.set i y) y y := by
  by_cases hr : y.tag = tag_t.REF
  · obtain ⟨k, hk⟩ := (tag_ref_iff y).mp hr
    subst hk
    obtain ⟨m, hm⟩ := hy
    have hkk := deref_ref_inv h m _ k hm
    have hki : i ≠ k := fun hh => hne (by rw [hh])
    exact Dr_unbound _ k (by rw [List.getElem?_set_ne hki]; exact hkk)
  · exact Dr_nonref _ y hr

theorem Ext.set (h : List cell) (i : Nat) (y : cell) (hi : h[i]? = some (cell.REF i))
    (hne : y ≠ cell.REF i) (hy : Dr h y y) : Ext h (h.set i y) := by
  have hilt : i < h.length := (List.getElem?_eq_some_iff.mp hi).1
  have hy1 : Dr (h.set i y) y y := Dr_self_set h i y hne hy
  refine ⟨by simp, ?_, ?_⟩
  · intro k hj
    by_cases hji : i = k
    · subst hji; exact hi
    · rw [List.getElem?_set_ne hji] at hj
      exact absurd rfl hj
  · intro j hj
    by_cases hji : i = j
    · subst hji
      exact ⟨y, Dr_step _ i y y (by simp [hilt]) hne hy1⟩
    · exact ⟨_, Dr_unbound _ j (by rw [List.getElem?_set_ne hji]; exact hj)⟩

theorem bind_heap (s s1 : term_env_impl) (i : Nat) (y : cell)
    (hb : bind s (cell.REF i) y = some s1) :
    i < s.heap_.length ∧ s1.heap_ = s.heap_.set i y := by
  simp only [bind] at hb
  split at hb
  · rename_i hilt
    simp only [Option.some.injEq] at hb
    subst hb
    refine ⟨hilt, ?_⟩
    simp only [trail, push_trail]
    split <;> rfl
  · exact absurd hb (by simp)

/-! ## States reached by `unify_helper` -/

theorem Evolves.evolves_refl (s : term_env_impl) : Evolves s s [] :=
  ⟨rfl, rfl, rfl, by simp, fun j hj => absurd hj (List.not_mem_nil j),
    fun j hj => absurd rfl hj, Ext.ext_refl _⟩

theorem Evolves.evolves_trans {s s1 sf : term_env_impl} {t1 t2 : List Nat}
    (e1 : Evolves s s1 t1) (e2 : Evolves s1 sf t2) : Evolves s sf (t1 ++ t2) := by
  refine ⟨by rw [e2.stack_eq, e1.stack_eq], by rw [e2.hb_eq, e1.hb_eq],
    by rw [e2.h_eq, e1.h_eq], by rw [e2.trail_eq, e1.trail_eq, List.append_assoc], ?_, ?_,
    e1.ext.ext_trans e2.ext⟩
  · intro j hj
    rcases List.mem_append.mp hj with h1 | h2
    · refine ⟨(e1.trailed j h1).1, ?_⟩
      have hb := (e1.trailed j h1).2
      by_cases hc : sf.heap_[j]? = s1.heap_[j]?
      · rw [hc]; exact hb
      · exact absurd (e2.ext.only_unbound j hc) hb
    · refine ⟨?_, (e2.trailed j h2).2⟩
      have hb := (e2.trailed j h2).1
      by_cases hc : s1.heap_[j]? = s.heap_[j]?
      · rw [← hc]; exact hb
      · exact e1.ext.only_unbound j hc
  · intro j hj hlt
    by_cases hc : s1.heap_[j]? = s.heap_[j]?
    · exact List.mem_append.mpr
        (Or.inr (e2.changed j (by rw [hc]; exact hj) (by rw [e1.hb_eq]; exact hlt)))
    · exact List.mem_append.mpr (Or.inl (e1.changed j hc hlt))

theorem Evolves.of_bind (s s1 : term_env_impl) (i : Nat) (y : cell)
    (hb : bind s (cell.REF i) y = some s1) (hi : s.heap_[i]? = some (cell.REF i))
    (hne : y ≠ cell.REF i) (hy : Dr s.heap_ y y) :
    Evolves s s1 (if i < s.register_hb_ then [i] else []) := by
  have hilt : i < s.heap_.length := (List.getElem?_eq_some_iff.mp hi).1
  simp only [bind, hilt, if_true, Option.some.injEq] at hb
  subst hb
  have hext := Ext.set s.heap_ i y hi hne hy
  by_cases hlt : i < s.register_hb_
  · simp only [trail, push_trail, hlt, if_true]
    refine ⟨rfl, rfl, rfl, rfl, ?_, ?_, hext⟩
    · intro j hj
      rw [List.mem_singleton] at hj
      subst hj
      refine ⟨hi, ?_⟩
      simp only [List.getElem?_set_self hilt]
      intro hh
      exact hne (Option.some.inj hh)
    · intro j hj _
      by_cases hji : i = j
      · subst hji; simp
      · simp only [List.getElem?_set_ne hji] at hj
        exact absurd rfl hj
  · simp only [trail, hlt, if_false]
    refine ⟨rfl, rfl, rfl, by simp, fun j hj => absurd hj (List.not_mem_nil j), ?_, hext⟩
    intro j hj hjlt
    by_cases hji : i = j
    · subst hji; exact absurd hjlt hlt
    · simp only [List.getElem?_set_ne hji] at hj
      exact absurd rfl hj

theorem unify_pairs_evolves (n : Nat) (s sf : term_env_impl) (P P1 : List (cell × cell))
    (r : Bool) (h : unify_pairs n s P = some (r, sf, P1)) :
    ∃ t, Evolves s sf t ∧ (r = true → P1 = []) := by
  induction n generalizing s P with
  | zero =>
    cases P with
    | nil =>
      simp only [unify_pairs, if_true, Option.some.injEq, Prod.mk.injEq] at h
      obtain ⟨_, h2, h3⟩ := h
      subst h2; subst h3
      exact ⟨[], Evolves.evolves_refl s, fun _ => rfl⟩
    | cons x P => simp [unify_pairs] at h
  | succ n ih =>
    cases P with
    | nil =>
      simp only [unify_pairs, Option.some.injEq, Prod.mk.injEq] at h
      obtain ⟨_, h2, h3⟩ := h
      subst h2; subst h3
      exact ⟨[], Evolves.evolves_refl s, fun _ => rfl⟩
    | cons x P =>
      obtain ⟨a0, b0⟩ := x
      obtain ⟨a, b, hda, hdb, hcase⟩ := unify_pairs_inv n s a0 b0 P _ h
      rcases hcase with ⟨_, h1⟩ | ⟨hab, i, y, s1, hxy, hb, h1⟩ | ⟨_, _, _, h1⟩ |
        ⟨_, f, L, _, _, _, _, _, h1⟩
      · exact ih s P h1
      · obtain ⟨t2, e2, hp⟩ := ih s1 P h1
        have hfacts : s.heap_[i]? = some (cell.REF i) ∧ y ≠ cell.REF i ∧ Dr s.heap_ y y := by
          rcases hxy with ⟨ha, hy⟩ | ⟨hb2, hy⟩
          · subst ha; subst hy
            exact ⟨deref_ref_inv _ _ _ _ hda, fun hh => hab hh.symm, Dr_terminal _ _ _ ⟨_, hdb⟩⟩
          · subst hb2; subst hy
            exact ⟨deref_ref_inv _ _ _ _ hdb, hab, Dr_terminal _ _ _ ⟨_, hda⟩⟩
        have e1 := Evolves.of_bind s s1 i y hb hfacts.1 hfacts.2.1 hfacts.2.2
        exact ⟨_, e1.evolves_trans e2, hp⟩
      · simp only [Prod.mk.injEq] at h1
        obtain ⟨hr, h2, _⟩ := h1
        rw [h2]
        exact ⟨[], Evolves.evolves_refl s, fun hh => by rw [hr] at hh; exact absurd hh (by simp)⟩
      · exact ih s (L ++ P) h1

/-! ## `unify` in terms of the pending pairs -/

theorem unify_true_inv (n : Nat) (s s1 : term_env_impl) (a b : cell)
    (h : unify n s a b = some (true, s1)) :
    ∃ sf, unify_pairs n { s with register_hb_ := s.register_h_ } [(a, b)] = some (true, sf, []) ∧
      unify_helper n { s with register_hb_ := s.register_h_ } a b =
        some (true, { sf with stack_ := s.stack_ }) ∧
      s1 = { sf with stack_ := s.stack_, register_hb_ := s.register_hb_ } := by
  simp only [unify] at h
  have he := unify_helper_eq n { s with register_hb_ := s.register_h_ } a b
  cases hp : unify_pairs n { s with register_hb_ := s.register_h_ } [(a, b)] with
  | none =>
    rw [hp] at he
    simp only [Option.map_none'] at he
    rw [he] at h
    simp at h
  | some res =>
    obtain ⟨r, sf, P1⟩ := res
    rw [hp] at he
    simp only [Option.map_some'] at he
    obtain ⟨t, _, hnil⟩ := unify_pairs_evolves n _ sf _ P1 r hp
    cases r with
    | false =>
      rw [he] at h
      simp only [] at h
      cases hu : unwind_trail { sf with stack_ := flat P1 ++ s.stack_ } (trail_depth s)
          (trail_depth { sf with stack_ := flat P1 ++ s.stack_ }) with
      | none => simp [hu] at h
      | some s3 => simp [hu] at h
    | true =>
      have hP : P1 = [] := hnil rfl
      subst hP
      rw [he] at h
      simp only [flat, List.nil_append, Option.some.injEq, Prod.mk.injEq, true_and] at h
      refine ⟨sf, rfl, ?_, h.symm⟩
      rw [he]
      simp [flat]

/-! ## C8: what a successful `unify` leaves behind -/

/-- C8: when `unify(a, b)` returns true, `register_hb_` has its value from before
the call, the work stack is the one from before the call (so its depth is the
entry depth), the heap size (`register_h_` and the number of cells) is
unchanged, the old trail is a prefix of the new one, and no binding is undone:
heap and trail are exactly those left by `unify_helper`, every slot trailed
during the call was an unbound variable and is bound afterwards, and every
slot whose content changed was an unbound variable. -/
theorem unify_success_frame (n : Nat) (s s1 : term_env_impl) (a b : cell)
    (h : unify n s a b = some (true, s1)) :
    s1.register_hb_ = s.register_hb_ ∧ s1.register_h_ = s.register_h_ ∧
    s1.stack_ = s.stack_ ∧ stack_depth s1 = stack_depth s ∧
    s1.heap_.length = s.heap_.length ∧ s.trail_ <+: s1.trail_ ∧
    (∀ j ∈ s1.trail_.drop s.trail_.length,
        s.heap_[j]? = some (cell.REF j) ∧ s1.heap_[j]? ≠ some (cell.REF j)) ∧
    (∀ j, s1.heap_[j]? ≠ s.heap_[j]? → s.heap_[j]? = some (cell.REF j)) ∧
    (∃ s2, unify_helper n { s with register_hb_ := s.register_h_ } a b = some (true, s2) ∧
        s1.heap_ = s2.heap_ ∧ s1.trail_ = s2.trail_) := by
  obtain ⟨sf, hp, hh, hs1⟩ := unify_true_inv n s s1 a b h
  obtain ⟨t, e, _⟩ := unify_pairs_evolves n _ sf _ _ _ hp
  subst hs1
  refine ⟨rfl, e.h_eq, rfl, rfl, e.ext.length_eq, ?_, ?_, e.ext.only_unbound, ?_⟩
  · exact ⟨t, e.trail_eq.symm⟩
  · intro j hj
    have : sf.trail_ = s.trail_ ++ t := e.trail_eq
    simp only [this, List.drop_left] at hj
    exact e.trailed j hj
  · exact ⟨_, hh, rfl, rfl⟩

/-- C8 at a concrete state: `f(X)` unified with `f(5)` binds `X` and trails it. -/
theorem unify_success_frame_witness :
    unify 3 ex_fx_f5 (cell.STR 0) (cell.STR 2) = some (true, ex_fx_f5_bound) ∧
    (ex_fx_f5_bound.register_hb_ = ex_fx_f5.register_hb_ ∧
      ex_fx_f5_bound.register_h_ = ex_fx_f5.register_h_ ∧
      ex_fx_f5_bound.stack_ = ex_fx_f5.stack_ ∧
      stack_depth ex_fx_f5_bound = stack_depth ex_fx_f5 ∧
      ex_fx_f5_bound.heap_.length = ex_fx_f5.heap_.length ∧
      ex_fx_f5.trail_ <+: ex_fx_f5_bound.trail_ ∧
      (∀ j ∈ ex_fx_f5_bound.trail_.drop ex_fx_f5.trail_.length,
          ex_fx_f5.heap_[j]? = some (cell.REF j) ∧
          ex_fx_f5_bound.heap_[j]? ≠ some (cell.REF j)) ∧
      (∀ j, ex_fx_f5_bound.heap_[j]? ≠ ex_fx_f5.heap_[j]? →
          ex_fx_f5.heap_[j]? = some (cell.REF j)) ∧
      (∃ s2, unify_helper 3 { ex_fx_f5 with register_hb_ := ex_fx_f5.register_h_ }
            (cell.STR 0) (cell.STR 2) = some (true, s2) ∧
          ex_fx_f5_bound.heap_ = s2.heap_ ∧ ex_fx_f5_bound.trail_ = s2.trail_)) :=
  ⟨by decide,
   unify_success_frame 3 ex_fx_f5 ex_fx_f5_bound (cell.STR 0) (cell.STR 2) (by decide)⟩

/-! ## C1: a failed `unify` is rolled back -/

theorem reset_slots_length (t : List Nat) (h : List cell) :
    (reset_slots t h).length = h.length := by
  induction t generalizing h with
  | nil => rfl
  | cons j t ih =>
    simp only [reset_slots, List.foldl_cons] at ih ⊢
    rw [ih]; simp

theorem reset_slots_get (t : List Nat) (h : List cell) (k : Nat)
    (hb : ∀ j ∈ t, j < h.length) :
    (reset_slots t h)[k]? = if k ∈ t then some (cell.REF k) else h[k]? := by
  induction t generalizing h with
  | nil => simp [reset_slots]
  | cons j t ih =>
    have hj : j < h.length := hb j (List.mem_cons_self j t)
    have ht : ∀ i ∈ t, i < (h.set j (cell.REF j)).length := by
      intro i hi
      simp only [List.length_set]
      exact hb i (List.mem_cons_of_mem j hi)
    have := ih (h.set j (cell.REF j)) ht
    simp only [reset_slots, List.foldl_cons] at this ⊢
    rw [this]
    by_cases hk : k ∈ t
    · simp [hk]
    · by_cases hkj : k = j
      · subst hkj
        simp [hj]
      · have hne : j ≠ k := fun hh => hkj hh.symm
        simp [hk, hkj, List.getElem?_set_ne hne]

theorem unwind_loop_eq (t pre : List Nat) (s : term_env_impl) (hs : s.trail_ = pre ++ t)
    (hb : ∀ j ∈ t, j < s.heap_.length) :
    unwind_loop t.length pre.length s = some { s with heap_ := reset_slots t s.heap_ } := by
  induction t generalizing pre s with
  | nil => simp [unwind_loop, reset_slots]
  | cons j t ih =>
    have hj : j < s.heap_.length := hb j (List.mem_cons_self j t)
    have hget : s.trail_[pre.length]? = some j := by
      rw [hs, List.getElem?_append_right (le_refl _)]; simp
    simp only [List.length_cons, unwind_loop, hget, hj, if_true]
    have := ih (pre ++ [j]) { s with heap_ := s.heap_.set j (cell.REF j) }
      (by simp [hs])
      (by intro i hi; simp only [List.length_set]; exact hb i (List.mem_cons_of_mem j hi))
    simp only [List.length_append, List.length_singleton] at this
    rw [this]
    simp [reset_slots]

theorem unify_false_inv (n : Nat) (s s1 : term_env_impl) (a b : cell)
    (h : unify n s a b = some (false, s1)) :
    ∃ sf t, Evolves { s with register_hb_ := s.register_h_ } sf t ∧
      (∀ j ∈ t, j < sf.heap_.length) ∧
      s1 = ⟨reset_slots t sf.heap_, s.register_hb_, s.register_h_, s.stack_, s.trail_⟩ := by
  simp only [unify] at h
  have he := unify_helper_eq n { s with register_hb_ := s.register_h_ } a b
  cases hp : unify_pairs n { s with register_hb_ := s.register_h_ } [(a, b)] with
  | none =>
    rw [hp] at he
    simp only [Option.map_none'] at he
    rw [he] at h
    simp at h
  | some res =>
    obtain ⟨r, sf, P1⟩ := res
    rw [hp] at he
    simp only [Option.map_some'] at he
    obtain ⟨t, e, _⟩ := unify_pairs_evolves n _ sf _ P1 r hp
    cases r with
    | true =>
      rw [he] at h
      simp at h
    | false =>
      rw [he] at h
      simp only [trail_depth] at h
      have htr : sf.trail_ = s.trail_ ++ t := e.trail_eq
      have hlen : sf.heap_.length = s.heap_.length := e.ext.length_eq
      have hbnd : ∀ j ∈ t, j < sf.heap_.length := by
        intro j hj
        have := (e.trailed j hj).1
        rw [hlen]
        exact (List.getElem?_eq_some_iff.mp this).1
      have hun := unwind_loop_eq t s.trail_ { sf with stack_ := flat P1 ++ s.stack_ } htr hbnd
      have hcount : sf.trail_.length - s.trail_.length = t.length := by
        rw [htr]; simp
      simp only [unwind_trail, hcount, hun, Option.some.injEq, Prod.mk.injEq, true_and] at h
      refine ⟨sf, t, e, hbnd, ?_⟩
      rw [← h]
      have hreg : sf.register_h_ = s.register_h_ := e.h_eq
      have hfin : ∀ (h0 : List cell) (hb0 h1 : Nat) (st0 : List cell) (tr0 : List Nat),
          ({ trim_stack (trim_trail ⟨h0, hb0, h1, flat P1 ++ st0, tr0 ++ t⟩ tr0.length)
              st0.length with register_hb_ := hb0 } : term_env_impl) = ⟨h0, hb0, h1, st0, tr0⟩ := by
        intro h0 hb0 h1 st0 tr0
        simp [trim_trail, trim_stack]
      have := hfin (reset_slots t sf.heap_) s.register_hb_ s.register_h_ s.stack_ s.trail_
      rw [htr, hreg]
      simp only [stack_depth]
      exact this

/-- When `unify(a, b)` returns false, the trail, the work stack and both
registers are those from before the call, the heap has as many cells as before,
and every slot below the size register holds the cell it held before. -/
theorem unify_false_restores (n : Nat) (s s1 : term_env_impl) (a b : cell)
    (h : unify n s a b = some (false, s1)) :
    s1.trail_ = s.trail_ ∧ s1.stack_ = s.stack_ ∧
    s1.register_hb_ = s.register_hb_ ∧ s1.register_h_ = s.register_h_ ∧
    s1.heap_.length = s.heap_.length ∧
    (∀ j, j < s.register_h_ → s1.heap_[j]? = s.heap_[j]?) := by
  obtain ⟨sf, t, e, hbnd, hs1⟩ := unify_false_inv n s s1 a b h
  have hlen : sf.heap_.length = s.heap_.length := e.ext.length_eq
  have hslot : ∀ j, j < s.register_h_ → (reset_slots t sf.heap_)[j]? = s.heap_[j]? := by
    intro k hk
    rw [reset_slots_get t sf.heap_ k hbnd]
    by_cases hkt : k ∈ t
    · rw [if_pos hkt]
      exact ((e.trailed k hkt).1).symm
    · rw [if_neg hkt]
      by_contra hc
      exact hkt (e.changed k hc hk)
  have hlen1 : (reset_slots t sf.heap_).length = s.heap_.length := by
    rw [reset_slots_length, hlen]
  subst hs1
  exact ⟨rfl, rfl, rfl, rfl, hlen1, hslot⟩

/-- The size register keeps covering the heap: whatever `unify(a, b)` returns,
`register_h_` and the number of heap cells are those from before the call, so a
state in which `register_h_` is at least the number of heap cells is followed by
such a state. -/
theorem unify_keeps_size_register (n : Nat) (s s1 : term_env_impl) (a b : cell) (r : Bool)
    (h : unify n s a b = some (r, s1)) :
    s1.register_h_ = s.register_h_ ∧ s1.heap_.length = s.heap_.length ∧
    (s.heap_.length ≤ s.register_h_ → s1.heap_.length ≤ s1.register_h_) := by
  have hboth : s1.register_h_ = s.register_h_ ∧ s1.heap_.length = s.heap_.length := by
    cases r with
    | true =>
      obtain ⟨sf, hp, _, hs1⟩ := unify_true_inv n s s1 a b h
      obtain ⟨t, e, _⟩ := unify_pairs_evolves n _ sf _ _ _ hp
      subst hs1
      exact ⟨e.h_eq, e.ext.length_eq⟩
    | false =>
      obtain ⟨_, _, _, hh, hl, _⟩ := unify_false_restores n s s1 a b h
      exact ⟨hh, hl⟩
  refine ⟨hboth.1, hboth.2, ?_⟩
  intro hinv
  rw [hboth.1, hboth.2]
  exact hinv

/-- C1: a failed unification is fully rolled back.  In a state of the environment
(the size register `register_h_` covers the heap: the constructor sets it to 0 on
the empty heap, `parse` sets it to `heap_->size()`, and nothing else writes it or
adds cells), when `unify(a, b)` returns false the state returned is the state
given: the heap size, the contents of every heap cell, the trail and its depth,
the work stack and its depth, `register_hb_` and `register_h_` are all identical
to their values before the call. -/
theorem unify_failure_rolls_back (n : Nat) (s s1 : term_env_impl) (a b : cell)
    (hinv : s.heap_.length ≤ s.register_h_)
    (h : unify n s a b = some (false, s1)) :
    s1 = s ∧
    s1.heap_.length = s.heap_.length ∧ (∀ j : Nat, s1.heap_[j]? = s.heap_[j]?) ∧
    s1.trail_ = s.trail_ ∧ trail_depth s1 = trail_depth s ∧
    s1.stack_ = s.stack_ ∧ stack_depth s1 = stack_depth s ∧
    s1.register_hb_ = s.register_hb_ ∧ s1.register_h_ = s.register_h_ := by
  obtain ⟨htr, hst, hhb, hh, hlen, hslot⟩ := unify_false_restores n s s1 a b h
  have hcell : ∀ j : Nat, s1.heap_[j]? = s.heap_[j]? := by
    intro k
    by_cases hk : k < s.register_h_
    · exact hslot k hk
    · have h1 : s.heap_.length ≤ k := by omega
      rw [List.getElem?_eq_none (by rw [hlen]; exact h1), List.getElem?_eq_none h1]
  have hheap : s1.heap_ = s.heap_ := List.ext_getElem? hcell
  have hs : s1 = s := by
    cases s1
    cases s
    simp only [term_env_impl.mk.injEq]
    exact ⟨hheap, hhb, hh, hst, htr⟩
  refine ⟨hs, hlen, hcell, htr, ?_, hst, ?_, hhb, hh⟩
  · simp only [trail_depth, htr]
  · simp only [stack_depth, hst]

/-- C1 at a concrete state: `g(X, 1)` against `g(2, 3)` binds `X`, fails on the
second argument and restores `X`; the state returned is the state given. -/
theorem unify_failure_rolls_back_witness :
    ex_gx1_g23.heap_.length ≤ ex_gx1_g23.register_h_ ∧
    unify 4 ex_gx1_g23 (cell.STR 0) (cell.STR 3) = some (false, ex_gx1_g23) ∧
    (ex_gx1_g23 = ex_gx1_g23 ∧
      ex_gx1_g23.heap_.length = ex_gx1_g23.heap_.length ∧
      (∀ j : Nat, ex_gx1_g23.heap_[j]? = ex_gx1_g23.heap_[j]?) ∧
      ex_gx1_g23.trail_ = ex_gx1_g23.trail_ ∧
      trail_depth ex_gx1_g23 = trail_depth ex_gx1_g23 ∧
      ex_gx1_g23.stack_ = ex_gx1_g23.stack_ ∧
      stack_depth ex_gx1_g23 = stack_depth ex_gx1_g23 ∧
      ex_gx1_g23.register_hb_ = ex_gx1_g23.register_hb_ ∧
      ex_gx1_g23.register_h_ = ex_gx1_g23.register_h_) :=
  ⟨by decide, by decide,
   unify_failure_rolls_back 4 ex_gx1_g23 ex_gx1_g23 (cell.STR 0) (cell.STR 3) (by decide)
     (by decide)⟩

/-! ## C2: after a successful `unify` the two terms are `equal` -/

theorem equal_pairs_mono (h : List cell) (n : Nat) (P : List (cell × cell)) (r : Bool)
    (he : equal_pairs h n P = some r) : equal_pairs h (n + 1) P = some r := by
  induction n generalizing P with
  | zero =>
    cases P with
    | nil => simpa [equal_pairs] using he
    | cons x P => simp [equal_pairs] at he
  | succ n ih =>
    cases P with
    | nil => simpa [equal_pairs] using he
    | cons x P =>
      obtain ⟨a0, b0⟩ := x
      rw [equal_pairs] at he ⊢
      cases hda : deref h (n + 1) a0 with
      | none => simp [hda] at he
      | some a =>
        cases hdb : deref h (n + 1) b0 with
        | none => simp [hda, hdb] at he
        | some b =>
          simp only [hda, hdb] at he
          simp only [deref_mono h (n + 1) a0 a hda, deref_mono h (n + 1) b0 b hdb]
          by_cases hab : a = b
          · rw [if_pos hab] at he ⊢
            exact ih P he
          · rw [if_neg hab] at he ⊢
            by_cases ht : a.tag ≠ b.tag
            · rw [if_pos ht] at he ⊢; exact he
            · rw [if_neg ht] at he ⊢
              by_cases hstr : a.tag ≠ tag_t.STR
              · rw [if_pos hstr] at he ⊢; exact he
              · rw [if_neg hstr] at he ⊢
                cases hfa : functor h a with
                | none => simp [hfa] at he
                | some fa =>
                  cases hfb : functor h b with
                  | none => simp [hfa, hfb] at he
                  | some fb =>
                    simp only [hfa, hfb] at he ⊢
                    by_cases hf : fa ≠ fb
                    · rw [if_pos hf] at he ⊢; exact he
                    · rw [if_neg hf] at he ⊢
                      cases hL : arg_pairs h a b fa.arity with
                      | none => simp [hL] at he
                      | some L =>
                        simp only [hL] at he ⊢
                        exact ih (L ++ P) he

theorem equal_pairs_mono_le (h : List cell) (n m : Nat) (P : List (cell × cell)) (r : Bool)
    (hnm : n ≤ m) (he : equal_pairs h n P = some r) : equal_pairs h m P = some r := by
  induction hnm with
  | refl => exact he
  | step _ ih => exact equal_pairs_mono h _ P r ih

theorem equal_pairs_of_same (h : List cell) (Q : List (cell × cell)) (a0 b0 c : cell)
    (ha : Dr h a0 c) (hb : Dr h b0 c) (hq : ∃ m, equal_pairs h m Q = some true) :
    ∃ m, equal_pairs h m ((a0, b0) :: Q) = some true := by
  obtain ⟨ma, hma⟩ := ha
  obtain ⟨mb, hmb⟩ := hb
  obtain ⟨mq, hmq⟩ := hq
  refine ⟨max mq (max ma mb) + 1, ?_⟩
  have e1 := deref_mono_le h ma (max mq (max ma mb) + 1) a0 c (by omega) hma
  have e2 := deref_mono_le h mb (max mq (max ma mb) + 1) b0 c (by omega) hmb
  have e3 := equal_pairs_mono_le h mq (max mq (max ma mb)) Q true (by omega) hmq
  rw [equal_pairs]
  simp only [e1, e2, if_true]
  exact e3

theorem equal_pairs_of_str (h : List cell) (Q L : List (cell × cell)) (a0 b0 a b f : cell)
    (ha : Dr h a0 a) (hb : Dr h b0 b) (hab : a ≠ b)
    (hta : a.tag = tag_t.STR) (htb : b.tag = tag_t.STR)
    (hfa : functor h a = some f) (hfb : functor h b = some f)
    (hL : arg_pairs h a b f.arity = some L)
    (hq : ∃ m, equal_pairs h m (L ++ Q) = some true) :
    ∃ m, equal_pairs h m ((a0, b0) :: Q) = some true := by
  obtain ⟨ma, hma⟩ := ha
  obtain ⟨mb, hmb⟩ := hb
  obtain ⟨mq, hmq⟩ := hq
  refine ⟨max mq (max ma mb) + 1, ?_⟩
  have e1 := deref_mono_le h ma (max mq (max ma mb) + 1) a0 a (by omega) hma
  have e2 := deref_mono_le h mb (max mq (max ma mb) + 1) b0 b (by omega) hmb
  have e3 := equal_pairs_mono_le h mq (max mq (max ma mb)) (L ++ Q) true (by omega) hmq
  rw [equal_pairs]
  simp only [e1, e2, hfa, hfb, hL]
  rw [if_neg hab, if_neg (by rw [hta, htb]; exact fun hh => hh rfl),
    if_neg (fun hh => hh hta), if_neg (fun hh => hh rfl)]
  exact e3

theorem App.app_refl (h : List cell) (x : cell) : App h x x := fun _ hr => hr

theorem Ext.slot {h hf : List cell} (e : Ext h hf) (q : Nat) (c : cell)
    (hq : h[q]? = some c) : ∃ c1, hf[q]? = some c1 ∧ App hf c1 c := by
  have hlt : q < hf.length := by
    rw [e.length_eq]; exact (List.getElem?_eq_some_iff.mp hq).1
  refine ⟨hf[q], List.getElem?_eq_getElem hlt, ?_⟩
  by_cases hc : hf[q]? = h[q]?
  · have : hf[q] = c := by
      rw [hq, List.getElem?_eq_getElem hlt] at hc
      exact Option.some.inj hc
    rw [this]
    exact App.app_refl hf c
  · have hu := e.only_unbound q hc
    rw [hq] at hu
    have hcq : c = cell.REF q := Option.some.inj hu
    subst hcq
    intro r hr
    refine Dr_step_inv hf q _ r (List.getElem?_eq_getElem hlt) ?_ hr
    intro hh
    apply hc
    rw [hq, List.getElem?_eq_getElem hlt, hh]

theorem Ext.arg_app {h hf : List cell} (e : Ext h hf) (a : cell) (r : Nat) (ai : cell)
    (ha : arg h a r = some ai) : ∃ ai1, arg hf a r = some ai1 ∧ App hf ai1 ai := by
  cases a with
  | STR p => exact e.slot (p + 1 + r) ai ha
  | _ => simp [arg] at ha

theorem Ext.functor_eq {h hf : List cell} (e : Ext h hf) (a f : cell)
    (ha : functor h a = some f) : functor hf a = some f := by
  cases a with
  | STR p =>
    simp only [functor] at ha ⊢
    cases hp : h[p]? with
    | none => simp [hp] at ha
    | some c =>
      cases c with
      | CON name arity =>
        have := e.stable p (cell.CON name arity) hp (by simp)
        simp only [hp] at ha
        simp only [this]
        exact ha
      | _ => simp [hp] at ha
  | _ => simp [functor] at ha

theorem Ext.arg_pairs_rel {h hf : List cell} (e : Ext h hf) (a b : cell) (k : Nat)
    (L : List (cell × cell)) (hL : arg_pairs h a b k = some L) :
    ∃ L1, arg_pairs hf a b k = some L1 ∧ Rel hf L1 L := by
  induction k generalizing L with
  | zero =>
    simp only [arg_pairs, Option.some.injEq] at hL
    subst hL
    exact ⟨[], rfl, List.Forall₂.nil⟩
  | succ r ih =>
    rw [arg_pairs] at hL
    cases hx : arg h a r with
    | none => simp [hx] at hL
    | some ai =>
      cases hy : arg h b r with
      | none => simp [hx, hy] at hL
      | some bi =>
        simp only [hx, hy] at hL
        cases h0 : arg_pairs h a b r with
        | none => simp [h0] at hL
        | some L0 =>
          simp only [h0, Option.map_some', Option.some.injEq] at hL
          subst hL
          obtain ⟨L01, hL01, hrel⟩ := ih L0 h0
          obtain ⟨ai1, hai1, happa⟩ := e.arg_app a r ai hx
          obtain ⟨bi1, hbi1, happb⟩ := e.arg_app b r bi hy
          refine ⟨L01 ++ [(ai1, bi1)], ?_, ?_⟩
          · rw [arg_pairs]
            simp only [hai1, hbi1, hL01, Option.map_some']
          · exact List.rel_append hrel (List.Forall₂.cons ⟨happa, happb⟩ List.Forall₂.nil)

theorem unify_pairs_sim (n : Nat) (s sf : term_env_impl) (P P1 Q : List (cell × cell))
    (h : unify_pairs n s P = some (true, sf, P1)) (hQ : Rel sf.heap_ Q P) :
    ∃ m, equal_pairs sf.heap_ m Q = some true := by
  induction n generalizing s P Q with
  | zero =>
    cases P with
    | nil =>
      cases hQ
      exact ⟨0, by simp [equal_pairs]⟩
    | cons x P => simp [unify_pairs] at h
  | succ n ih =>
    cases P with
    | nil =>
      cases hQ
      exact ⟨0, by simp [equal_pairs]⟩
    | cons x P =>
      obtain ⟨a0, b0⟩ := x
      cases hQ with
      | cons hhead htail =>
        rename_i q Q0
        obtain ⟨a1, b1⟩ := q
        obtain ⟨happa, happb⟩ := hhead
        simp only at happa happb
        obtain ⟨t, e, _⟩ := unify_pairs_evolves (n + 1) s sf _ P1 true h
        obtain ⟨a, b, hda, hdb, hcase⟩ := unify_pairs_inv n s a0 b0 P _ h
        obtain ⟨ra, hra0, hraa⟩ := e.ext.lift a0 a ⟨_, hda⟩
        obtain ⟨rb, hrb0, hrbb⟩ := e.ext.lift b0 b ⟨_, hdb⟩
        have hra1 : Dr sf.heap_ a1 ra := happa ra hra0
        have hrb1 : Dr sf.heap_ b1 rb := happb rb hrb0
        rcases hcase with ⟨hab, h1⟩ | ⟨hab, i, y, s1, hxy, hb, h1⟩ | ⟨_, _, _, h1⟩ |
          ⟨hab, f, L, hta, htb, hfa, hfb, hL, h1⟩
        · subst hab
          have hrr : ra = rb := Dr_det _ _ _ _ hraa hrbb
          subst hrr
          exact equal_pairs_of_same _ _ _ _ ra hra1 hrb1 (ih s P Q0 h1 htail)
        · obtain ⟨t2, e2, _⟩ := unify_pairs_evolves n s1 sf P P1 true h1
          have hfacts : s.heap_[i]? = some (cell.REF i) ∧ y ≠ cell.REF i ∧ Dr s.heap_ y y := by
            rcases hxy with ⟨ha, hy⟩ | ⟨hb2, hy⟩
            · subst ha; subst hy
              exact ⟨deref_ref_inv _ _ _ _ hda, fun hh => hab hh.symm,
                Dr_terminal _ _ _ ⟨_, hdb⟩⟩
            · subst hb2; subst hy
              exact ⟨deref_ref_inv _ _ _ _ hdb, hab, Dr_terminal _ _ _ ⟨_, hda⟩⟩
          have e1 := Evolves.of_bind s s1 i y hb hfacts.1 hfacts.2.1 hfacts.2.2
          obtain ⟨hilt, hheap1⟩ := bind_heap s s1 i y hb
          have hy1 : Dr s1.heap_ y y := by
            rw [hheap1]; exact Dr_self_set _ i y hfacts.2.1 hfacts.2.2
          have hs1i : s1.heap_[i]? = some y := by
            rw [hheap1]; simp [hilt]
          have hxi : Dr s1.heap_ (cell.REF i) y := Dr_step _ i y y hs1i hfacts.2.1 hy1
          obtain ⟨r1, hx1, _⟩ := e2.ext.lift _ _ hxi
          obtain ⟨r2, hy2, _⟩ := e2.ext.lift _ _ hy1
          have hr12 : r1 = r2 := by
            have hstep := Dr_step_inv sf.heap_ i y r1
            by_cases hc : sf.heap_[i]? = some y
            · exact Dr_det _ _ _ _ (hstep hc hfacts.2.1 hx1) hy2
            · have := e2.ext.only_unbound i (by rw [hs1i]; exact hc)
              rw [hs1i] at this
              exact absurd (Option.some.inj this) hfacts.2.1
          have hrr : ra = rb := by
            rcases hxy with ⟨ha, hy⟩ | ⟨hb2, hy⟩
            · subst ha; subst hy
              rw [Dr_det _ _ _ _ hraa hx1, Dr_det _ _ _ _ hrbb hy2, hr12]
            · subst hb2; subst hy
              rw [Dr_det _ _ _ _ hraa hy2, Dr_det _ _ _ _ hrbb hx1, hr12]
          subst hrr
          exact equal_pairs_of_same _ _ _ _ ra hra1 hrb1 (ih s1 P Q0 h1 htail)
        · simp at h1
        · have htar : a.tag ≠ tag_t.REF := by rw [hta]; simp
          have htbr : b.tag ≠ tag_t.REF := by rw [htb]; simp
          have hraeq : ra = a := Dr_det _ _ _ _ hraa (Dr_nonref _ a htar)
          have hrbeq : rb = b := Dr_det _ _ _ _ hrbb (Dr_nonref _ b htbr)
          subst hraeq; subst hrbeq
          obtain ⟨L1, hL1, hrel⟩ := e.ext.arg_pairs_rel ra rb f.arity L hL
          have hq := ih s (L ++ P) (L1 ++ Q0) h1 (List.rel_append hrel htail)
          exact equal_pairs_of_str _ _ L1 _ _ ra rb f hra1 hrb1 hab hta htb
            (e.ext.functor_eq ra f hfa) (e.ext.functor_eq rb f hfb) hL1 hq

/-- C2: when `unify(a, b)` returns true, `equal(a, b)` run in the resulting state
returns true (and leaves that state as it is) for every sufficient amount of
fuel: the successful unification has made the two terms structurally equal. -/
theorem unify_true_makes_equal (n : Nat) (s s1 : term_env_impl) (a b : cell)
    (h : unify n s a b = some (true, s1)) :
    ∃ m, ∀ k, m ≤ k → equal k s1 a b = some (true, s1) := by
  obtain ⟨sf, hp, _, hs1⟩ := unify_true_inv n s s1 a b h
  have hrel : Rel sf.heap_ [(a, b)] [(a, b)] :=
    List.Forall₂.cons ⟨App.app_refl _ _, App.app_refl _ _⟩ List.Forall₂.nil
  obtain ⟨m, hm⟩ := unify_pairs_sim n _ sf _ _ _ hp hrel
  refine ⟨m, fun k hk => ?_⟩
  have hheap : s1.heap_ = sf.heap_ := by rw [hs1]
  rw [equal_eq, hheap, equal_pairs_mono_le sf.heap_ m k _ true hk hm]
  rfl

/-- C2 at a concrete state: after `f(X)` has been unified with `f(5)` the two
terms compare equal. -/
theorem unify_true_makes_equal_witness :
    unify 3 ex_fx_f5 (cell.STR 0) (cell.STR 2) = some (true, ex_fx_f5_bound) ∧
    ∃ m, ∀ k, m ≤ k →
      equal k ex_fx_f5_bound (cell.STR 0) (cell.STR 2) = some (true, ex_fx_f5_bound) :=
  ⟨by decide,
   unify_true_makes_equal 3 ex_fx_f5 ex_fx_f5_bound (cell.STR 0) (cell.STR 2) (by decide)⟩

/-! ## C11: different tags or different functors -/

theorem unify_of_body_false (n : Nat) (s : term_env_impl) (a0 b0 : cell)
    (hbody : unify_body (n + 1)
        { heap_ := s.heap_, register_hb_ := s.register_h_, register_h_ := s.register_h_,
          stack_ := a0 :: b0 :: s.stack_, trail_ := s.trail_ } =
      some (outcome.ret false
        { heap_ := s.heap_, register_hb_ := s.register_h_, register_h_ := s.register_h_,
          stack_ := s.stack_, trail_ := s.trail_ })) :
    unify (n + 1) s a0 b0 = some (false, s) := by
  have hlt : s.stack_.length < s.stack_.length + 1 + 1 := by omega
  simp only [unify, unify_helper, push, stack_depth, unify_loop, List.length_cons, hlt,
    if_true, hbody, trail_depth, unwind_trail_empty]
  simp [trim_trail, trim_stack]

/-- C11: when both arguments dereference to non-variable cells whose tags differ,
or to two `STR` cells whose functors differ (in name or in arity), `unify`
returns false and so does `equal`; both leave the state as it was. -/
theorem unify_and_equal_fail_on_mismatch (n : Nat) (s : term_env_impl) (a0 b0 a b : cell)
    (ha : deref s.heap_ (n + 1) a0 = some a) (hb : deref s.heap_ (n + 1) b0 = some b)
    (har : a.tag ≠ tag_t.REF) (hbr : b.tag ≠ tag_t.REF)
    (hmis : a.tag ≠ b.tag ∨
      (a.tag = tag_t.STR ∧ b.tag = tag_t.STR ∧
        ∃ fa fb, functor s.heap_ a = some fa ∧ functor s.heap_ b = some fb ∧ fa ≠ fb)) :
    unify (n + 1) s a0 b0 = some (false, s) ∧ equal (n + 1) s a0 b0 = some (false, s) := by
  have hab : a ≠ b := by
    rcases hmis with h | ⟨_, _, fa, fb, hfa, hfb, hne⟩
    · intro hh; rw [hh] at h; exact h rfl
    · intro hh; rw [hh, hfb] at hfa; exact hne (Option.some.inj hfa).symm
  constructor
  · apply unify_of_body_false
    rcases hmis with h | ⟨hta, htb, fa, fb, hfa, hfb, hne⟩
    · simp only [unify_body, pop, ha, hb]
      rw [if_neg hab, if_neg har, if_neg hbr, if_pos h]
    · simp only [unify_body, pop, ha, hb]
      rw [if_neg hab, if_neg har, if_neg hbr, if_neg (by rw [hta, htb]; exact fun hh => hh rfl)]
      simp only [unify_switch, hta, unify_str, hfa, hfb]
      rw [if_pos hne]
  · rw [equal_eq]
    rcases hmis with h | ⟨hta, htb, fa, fb, hfa, hfb, hne⟩
    · simp only [equal_pairs, ha, hb]
      rw [if_neg hab, if_pos h]
      rfl
    · simp only [equal_pairs, ha, hb, hfa, hfb]
      rw [if_neg hab, if_neg (by rw [hta, htb]; exact fun hh => hh rfl),
        if_neg (fun hh => hh hta), if_pos hne]
      rfl

/-- C11 at a concrete state: `f(X)` against `h(Y)`, functors `CON 7 1` and `CON 9 1`. -/
theorem unify_and_equal_fail_on_mismatch_witness :
    unify 1 ⟨[cell.CON 7 1, cell.REF 1, cell.CON 9 1, cell.REF 3], 4, 4, [], []⟩
        (cell.STR 0) (cell.STR 2) =
      some (false, ⟨[cell.CON 7 1, cell.REF 1, cell.CON 9 1, cell.REF 3], 4, 4, [], []⟩) ∧
    equal 1 ⟨[cell.CON 7 1, cell.REF 1, cell.CON 9 1, cell.REF 3], 4, 4, [], []⟩
        (cell.STR 0) (cell.STR 2) =
      some (false, ⟨[cell.CON 7 1, cell.REF 1, cell.CON 9 1, cell.REF 3], 4, 4, [], []⟩) :=
  unify_and_equal_fail_on_mismatch 0
    ⟨[cell.CON 7 1, cell.REF 1, cell.CON 9 1, cell.REF 3], 4, 4, [], []⟩
    (cell.STR 0) (cell.STR 2) (cell.STR 0) (cell.STR 2) (by decide) (by decide)
    (by decide) (by decide)
    (Or.inr ⟨by decide, by decide, cell.CON 7 1, cell.CON 9 1, by decide, by decide,
      by decide⟩)

/-! ## Basic facts about the stream primitives -/

theorem to_char_of_lt (c : Nat) (h : c < 256) : to_char (c : Int) = c := by
  unfold to_char
  have : ((c : Int) % 256) = (c : Int) := Int.emod_eq_of_lt (by omega) (by omega)
  rw [this]
  simp

theorem peek_char_eq (t : term_tokenizer) : peek_char t = head_code t.in_ := by
  unfold peek_char head_code
  cases t.in_ <;> rfl

theorem head_code_cons (c : Nat) (r : List Nat) : head_code (c :: r) = (c : Int) := rfl

theorem head_code_nil : head_code [] = -1 := rfl

theorem consume_next_char_cons (c : Nat) (r : List Nat) (eof : Bool) (la : List Nat)
    (ty : token_type) (lex : List Nat) (hc : c < 256) :
    consume_next_char ⟨c :: r, eof, la, ty, lex⟩ = ⟨r, eof, la, ty, lex ++ [c]⟩ := by
  simp [consume_next_char, next_char, add_to_lexeme, to_char_of_lt c hc]

theorem next_xs_run (p : Int → Bool) (run rest : List Nat) (fuel : Nat) (eof : Bool)
    (la : List Nat) (ty : token_type) (lex : List Nat)
    (hrun : ∀ c ∈ run, p (c : Int) = true ∧ c < 256) (hstop : p (head_code rest) = false)
    (hfuel : run.length < fuel) :
    next_xs p fuel ⟨run ++ rest, eof, la, ty, lex⟩ = tk.ok ⟨rest, eof, la, ty, lex ++ run⟩ := by
  induction run generalizing fuel lex with
  | nil =>
    cases fuel with
    | zero => simp at hfuel
    | succ n =>
      simp only [List.nil_append, next_xs, peek_char_eq, hstop, List.append_nil]
      simp
  | cons c run ih =>
    cases fuel with
    | zero => simp at hfuel
    | succ n =>
      have hc := hrun c (List.mem_cons_self c run)
      have hp : p (peek_char ⟨c :: run ++ rest, eof, la, ty, lex⟩) = true := by
        simp only [peek_char_eq, List.cons_append, head_code_cons]; exact hc.1
      simp only [List.cons_append] at hp ⊢
      rw [next_xs, if_pos hp, consume_next_char_cons c _ eof la ty lex hc.2]
      rw [ih n (lex ++ [c]) (fun d hd => hrun d (List.mem_cons_of_mem c hd))
        (by simp at hfuel; omega)]
      simp

theorem digit_lt (c : Nat) (h : is_digit (c : Int) = true) : c < 256 := by
  simp only [is_digit, decide_eq_true_eq] at h
  omega

theorem next_digits_run (run rest : List Nat) (fuel : Nat) (eof : Bool)
    (la : List Nat) (ty : token_type) (lex : List Nat)
    (hrun : ∀ c ∈ run, is_digit (c : Int) = true) (hstop : is_digit (head_code rest) = false)
    (hfuel : run.length < fuel) :
    next_digits fuel ⟨run ++ rest, eof, la, ty, lex⟩ = tk.ok ⟨rest, eof, la, ty, lex ++ run⟩ :=
  next_xs_run is_digit run rest fuel eof la ty lex
    (fun c hc => ⟨hrun c hc, digit_lt c (hrun c hc)⟩) hstop hfuel

/-! ## Numbers with a fraction or an exponent -/

theorem head_code_digits_append (d rest : List Nat) (hd : ∀ c ∈ d, is_digit (c : Int) = true)
    (hne : d ≠ []) :
    is_digit (head_code (d ++ rest)) = true := by
  cases d with
  | nil => exact absurd rfl hne
  | cons c d => exact hd c (List.mem_cons_self c d)

theorem next_exponent_run (e : Nat) (sign d3 rest : List Nat) (fuel : Nat) (eof : Bool)
    (la : List Nat) (ty : token_type) (lex : List Nat) (he : e < 256)
    (hsign : sign = [] ∨ sign = [43] ∨ sign = [45])
    (hd3 : ∀ c ∈ d3, is_digit (c : Int) = true)
    (hstop : is_digit (head_code rest) = false)
    (hns : sign = [] → head_code (d3 ++ rest) ≠ 43 ∧ head_code (d3 ++ rest) ≠ 45)
    (hfuel : d3.length < fuel) :
    next_exponent fuel ⟨e :: (sign ++ (d3 ++ rest)), eof, la, ty, lex⟩ =
      tk.ok ⟨rest, eof, la, ty, lex ++ e :: (sign ++ d3)⟩ := by
  unfold next_exponent
  rw [consume_next_char_cons e _ eof la ty lex he]
  rcases hsign with h | h | h
  · subst h
    have h1 := (hns rfl).1
    have h2 := (hns rfl).2
    simp only [List.nil_append, peek_char_eq]
    rw [if_neg (by intro hh; rcases hh with hh | hh; exact h1 hh; exact h2 hh)]
    rw [next_digits_run d3 rest fuel eof la ty _ hd3 hstop hfuel]
    simp
  · subst h
    simp only [List.singleton_append, peek_char_eq, head_code_cons]
    have hcond : ((43 : Nat) : Int) = 43 ∨ ((43 : Nat) : Int) = 45 := Or.inl rfl
    rw [if_pos hcond, consume_next_char_cons 43 _ eof la ty _ (by omega)]
    rw [next_digits_run d3 rest fuel eof la ty _ hd3 hstop hfuel]
    simp
  · subst h
    simp only [List.singleton_append, peek_char_eq, head_code_cons]
    have hcond : ((45 : Nat) : Int) = 43 ∨ ((45 : Nat) : Int) = 45 := Or.inr rfl
    rw [if_pos hcond, consume_next_char_cons 45 _ eof la ty _ (by omega)]
    rw [next_digits_run d3 rest fuel eof la ty _ hd3 hstop hfuel]
    simp

theorem next_decimal_plain (d2 rest : List Nat) (fuel : Nat) (eof : Bool)
    (la : List Nat) (ty : token_type) (lex : List Nat)
    (hd2 : ∀ c ∈ d2, is_digit (c : Int) = true)
    (hstop : is_digit (head_code rest) = false)
    (hne : head_code rest ≠ 101 ∧ head_code rest ≠ 69)
    (hfuel : d2.length < fuel) :
    next_decimal fuel ⟨46 :: (d2 ++ rest), eof, la, ty, lex⟩ =
      tk.ok ⟨rest, eof, la, ty, lex ++ 46 :: d2⟩ := by
  unfold next_decimal
  rw [consume_next_char_cons 46 _ eof la ty lex (by omega)]
  rw [next_digits_run d2 rest fuel eof la ty _ hd2 hstop hfuel]
  simp only [peek_char_eq]
  rw [if_neg (by intro hh; rcases hh with hh | hh; exact hne.1 hh; exact hne.2 hh)]
  simp

theorem next_decimal_exponent (e : Nat) (d2 sign d3 rest : List Nat) (fuel : Nat) (eof : Bool)
    (la : List Nat) (ty : token_type) (lex : List Nat)
    (he : e = 101 ∨ e = 69)
    (hd2 : ∀ c ∈ d2, is_digit (c : Int) = true)
    (hsign : sign = [] ∨ sign = [43] ∨ sign = [45])
    (hd3 : ∀ c ∈ d3, is_digit (c : Int) = true)
    (hstop : is_digit (head_code rest) = false)
    (hns : sign = [] → head_code (d3 ++ rest) ≠ 43 ∧ head_code (d3 ++ rest) ≠ 45)
    (hfuel : d2.length + d3.length < fuel) :
    next_decimal fuel ⟨46 :: (d2 ++ e :: (sign ++ (d3 ++ rest))), eof, la, ty, lex⟩ =
      tk.ok ⟨rest, eof, la, ty, lex ++ 46 :: (d2 ++ e :: (sign ++ d3))⟩ := by
  unfold next_decimal
  rw [consume_next_char_cons 46 _ eof la ty lex (by omega)]
  have hstop2 : is_digit (head_code (e :: (sign ++ (d3 ++ rest)))) = false := by
    rcases he with h | h <;> subst h <;> simp [head_code_cons, is_digit]
  rw [next_digits_run d2 _ fuel eof la ty _ hd2 hstop2 (by omega)]
  simp only [peek_char_eq, head_code_cons]
  have hcond : (e : Int) = 101 ∨ (e : Int) = 69 := by
    rcases he with h | h <;> subst h <;> simp
  rw [if_pos hcond]
  rw [next_exponent_run e sign d3 rest fuel eof la ty _ (by rcases he with h | h <;> omega)
    hsign hd3 hstop hns (by omega)]
  simp

theorem is_comment_begin_digit (c : Nat) (r : List Nat) (eof : Bool) (la : List Nat)
    (ty : token_type) (lex : List Nat) (hc : is_digit (c : Int) = true) :
    is_comment_begin ⟨c :: r, eof, la, ty, lex⟩ = false := by
  simp only [is_digit, decide_eq_true_eq] at hc
  simp only [is_comment_begin, peek_char_eq, head_code_cons]
  rw [if_neg (by omega), if_pos (by omega)]

/-- What `next_token` does on a digit run `d1` that is followed by a point or
an exponent letter: the token kind becomes `TOKEN_UNSIGNED_FLOAT` and the
scan goes on in `next_float`. -/
theorem next_token_float_start (cs : Bool) (fuel : Nat) (d1 rest : List Nat) (eof : Bool)
    (la : List Nat) (ty : token_type) (lex0 : List Nat) (hne : d1 ≠ [])
    (hd1 : ∀ c ∈ d1, is_digit (c : Int) = true)
    (hrest : head_code rest = 46 ∨ head_code rest = 101 ∨ head_code rest = 69)
    (hfuel : d1.length < fuel) :
    next_token cs fuel ⟨d1 ++ rest, eof, la, ty, lex0⟩ =
      next_float fuel ⟨rest, eof, la, token_type.TOKEN_UNSIGNED_FLOAT, d1⟩ := by
  cases d1 with
  | nil => exact absurd rfl hne
  | cons c d =>
    have hc := hd1 c (List.mem_cons_self c d)
    have hstop : is_digit (head_code rest) = false := by
      rcases hrest with h | h | h <;> rw [h] <;> decide
    unfold next_token
    simp only [reset, List.cons_append]
    rw [is_comment_begin_digit c _ eof la ty [] hc]
    simp only [peek_char_eq, head_code_cons, hc, if_true, Bool.false_eq_true, if_false,
      set_token_type, next_number]
    have := next_digits_run (c :: d) rest fuel eof la token_type.TOKEN_NATURAL_NUMBER []
      hd1 hstop hfuel
    simp only [List.cons_append, List.nil_append] at this
    rw [this]
    simp only [peek_char_eq]
    rw [if_neg (by rcases hrest with h | h | h <;> rw [h] <;> decide), if_pos hrest]

/-- C13: for non-empty digit runs `d1`, `d2`, `d3`, an exponent letter `e`
(`e` or `E`) and a sign that is absent, `+` or `-`, each of the inputs
`d1.d2`, `d1 e sign d3` and `d1.d2 e sign d3`, followed by input `rest` that
cannot continue the number (no digit next; after `d1.d2` no `e` or `E`
either), is returned by one `next_token` call as a `TOKEN_UNSIGNED_FLOAT`
whose lexeme is the entire literal, with `rest` left unread. -/
theorem next_token_unsigned_float (cs : Bool) (fuel : Nat) (d1 d2 d3 sign rest : List Nat)
    (e : Nat) (eof : Bool) (la : List Nat) (ty : token_type) (lex0 : List Nat)
    (h1 : d1 ≠ []) (hd1 : ∀ c ∈ d1, is_digit (c : Int) = true)
    (_h2 : d2 ≠ []) (hd2 : ∀ c ∈ d2, is_digit (c : Int) = true)
    (h3 : d3 ≠ []) (hd3 : ∀ c ∈ d3, is_digit (c : Int) = true)
    (he : e = 101 ∨ e = 69) (hsign : sign = [] ∨ sign = [43] ∨ sign = [45])
    (hstop : is_digit (head_code rest) = false)
    (hfuel : d1.length + d2.length + d3.length < fuel) :
    (head_code rest ≠ 101 → head_code rest ≠ 69 →
      next_token cs fuel ⟨d1 ++ 46 :: (d2 ++ rest), eof, la, ty, lex0⟩ =
        tk.ok ⟨rest, eof, la, token_type.TOKEN_UNSIGNED_FLOAT, d1 ++ 46 :: d2⟩) ∧
    next_token cs fuel ⟨d1 ++ e :: (sign ++ (d3 ++ rest)), eof, la, ty, lex0⟩ =
      tk.ok ⟨rest, eof, la, token_type.TOKEN_UNSIGNED_FLOAT, d1 ++ e :: (sign ++ d3)⟩ ∧
    next_token cs fuel ⟨d1 ++ 46 :: (d2 ++ e :: (sign ++ (d3 ++ rest))), eof, la, ty, lex0⟩ =
      tk.ok ⟨rest, eof, la, token_type.TOKEN_UNSIGNED_FLOAT,
        d1 ++ 46 :: (d2 ++ e :: (sign ++ d3))⟩ := by
  have hns : sign = [] → head_code (d3 ++ rest) ≠ 43 ∧ head_code (d3 ++ rest) ≠ 45 := by
    intro _
    have := head_code_digits_append d3 rest hd3 h3
    simp only [is_digit, decide_eq_true_eq] at this
    constructor <;> omega
  have hecode : (e : Int) = 101 ∨ (e : Int) = 69 := by
    rcases he with h | h <;> subst h <;> simp
  have he256 : e < 256 := by rcases he with h | h <;> omega
  refine ⟨?_, ?_, ?_⟩
  · intro hn1 hn2
    rw [next_token_float_start cs fuel d1 (46 :: _) eof la ty lex0 h1 hd1 (Or.inl rfl) (by omega)]
    unfold next_float
    simp only [peek_char_eq, head_code_cons]
    have hc1 : ¬ (((46 : Nat) : Int) = 101 ∨ ((46 : Nat) : Int) = 69) := by decide
    have hc2 : ((46 : Nat) : Int) = 46 := rfl
    rw [if_neg hc1, if_pos hc2]
    exact next_decimal_plain d2 rest fuel eof la _ d1 hd2 hstop ⟨hn1, hn2⟩ (by omega)
  · rw [next_token_float_start cs fuel d1 _ eof la ty lex0 h1 hd1
      (by simp only [head_code_cons]; exact Or.inr hecode) (by omega)]
    unfold next_float
    simp only [peek_char_eq, head_code_cons]
    rw [if_pos hecode]
    exact next_exponent_run e sign d3 rest fuel eof la _ d1 he256 hsign hd3 hstop hns
      (by omega)
  · rw [next_token_float_start cs fuel d1 (46 :: _) eof la ty lex0 h1 hd1 (Or.inl rfl) (by omega)]
    unfold next_float
    simp only [peek_char_eq, head_code_cons]
    have hc1 : ¬ (((46 : Nat) : Int) = 101 ∨ ((46 : Nat) : Int) = 69) := by decide
    have hc2 : ((46 : Nat) : Int) = 46 := rfl
    rw [if_neg hc1, if_pos hc2]
    exact next_decimal_exponent e d2 sign d3 rest fuel eof la _ d1 he hd2 hsign hd3 hstop hns
      (by omega)

/-- C13 at the literals of the test: `47.11`, `47e-12` and `47.11e-12`, each
followed by a blank. -/
theorem next_token_unsigned_float_witness :
    next_token true 9
        ⟨[52, 55] ++ 46 :: ([49, 49] ++ [32]), false, [], token_type.TOKEN_NAME, []⟩ =
      tk.ok ⟨[32], false, [], token_type.TOKEN_UNSIGNED_FLOAT, [52, 55] ++ 46 :: [49, 49]⟩ ∧
    next_token true 9
        ⟨[52, 55] ++ 101 :: ([45] ++ ([49, 50] ++ [32])), false, [], token_type.TOKEN_NAME, []⟩ =
      tk.ok ⟨[32], false, [], token_type.TOKEN_UNSIGNED_FLOAT,
        [52, 55] ++ 101 :: ([45] ++ [49, 50])⟩ ∧
    next_token true 9
        ⟨[52, 55] ++ 46 :: ([49, 49] ++ 101 :: ([45] ++ ([49, 50] ++ [32]))), false, [],
          token_type.TOKEN_NAME, []⟩ =
      tk.ok ⟨[32], false, [], token_type.TOKEN_UNSIGNED_FLOAT,
        [52, 55] ++ 46 :: ([49, 49] ++ 101 :: ([45] ++ [49, 50]))⟩ :=
  ⟨(next_token_unsigned_float true 9 [52, 55] [49, 49] [49, 50] [45] [32] 101 false []
      token_type.TOKEN_NAME [] (by decide) (by decide) (by decide) (by decide) (by decide)
      (by decide) (by decide) (by decide) (by decide) (by decide)).1 (by decide) (by decide),
   (next_token_unsigned_float true 9 [52, 55] [49, 49] [49, 50] [45] [32] 101 false []
      token_type.TOKEN_NAME [] (by decide) (by decide) (by decide) (by decide) (by decide)
      (by decide) (by decide) (by decide) (by decide) (by decide)).2⟩

/-! ## The exceptions `next_token` can end with -/

theorem next_xs_thrown (p : Int → Bool) (fuel : Nat) (t : term_tokenizer) :
    thrown (next_xs p fuel t) = none := by
  induction fuel generalizing t with
  | zero => rfl
  | succ n ih =>
    unfold next_xs
    split
    · exact ih _
    · rfl

theorem skip_layout_thrown (fuel : Nat) (t : term_tokenizer) :
    thrown (skip_layout fuel t) = none := by
  induction fuel generalizing t with
  | zero => rfl
  | succ n ih =>
    unfold skip_layout
    split
    · exact ih _
    · rfl

theorem next_symbol_thrown (fuel : Nat) (t : term_tokenizer) :
    thrown (next_symbol fuel t) = none := by
  induction fuel generalizing t with
  | zero => rfl
  | succ n ih =>
    unfold next_symbol
    split
    · exact ih _
    · rfl

theorem block_comment_loop_thrown (fuel depth : Nat) (t : term_tokenizer) :
    thrown (block_comment_loop fuel depth t) = none := by
  induction fuel generalizing depth t with
  | zero => rfl
  | succ n ih =>
    unfold block_comment_loop
    simp only []
    split
    · split
      · exact ih _ _
      · split
        · exact ih _ _
        · exact ih _ _
    · rfl

theorem parse_block_comment_thrown (fuel : Nat) (t : term_tokenizer) :
    thrown (parse_block_comment fuel t) = none := by
  unfold parse_block_comment
  simp only []
  split
  · exact block_comment_loop_thrown _ _ _
  · rfl

theorem line_comment_loop_thrown (fuel : Nat) (t : term_tokenizer) :
    thrown (line_comment_loop fuel t) = none := by
  induction fuel generalizing t with
  | zero => rfl
  | succ n ih =>
    unfold line_comment_loop
    split
    · split
      · rfl
      · exact ih _
    · rfl

theorem parse_line_comment_thrown (fuel : Nat) (t : term_tokenizer) :
    thrown (parse_line_comment fuel t) = none := by
  unfold parse_line_comment
  split
  · rfl
  · have := line_comment_loop_thrown fuel t
    split <;> simp_all [thrown]

theorem next_layout_text_thrown (fuel n : Nat) (t : term_tokenizer) :
    thrown (next_layout_text fuel n t) = none := by
  induction n generalizing t with
  | zero => rfl
  | succ n ih =>
    unfold next_layout_text
    simp only []
    split
    · exact ih _
    · split
      · have := parse_block_comment_thrown fuel t
        split
        · exact ih _
        · simp_all [thrown]
        · rfl
        · rfl
      · split
        · have := parse_line_comment_thrown fuel t
          split
          · exact ih _
          · simp_all [thrown]
          · rfl
          · rfl
        · rfl

theorem parse_hex_digit_thrown (t : term_tokenizer) :
    thrown (parse_hex_digit t) = none ∨
      thrown (parse_hex_digit t) = some token_exception.hex_code := by
  unfold parse_hex_digit
  simp only []
  split
  · exact Or.inl rfl
  · split
    · exact Or.inl rfl
    · split
      · exact Or.inl rfl
      · exact Or.inr rfl

theorem next_escape_sequence_thrown (fuel : Nat) (t : term_tokenizer) :
    may_throw_escape (thrown (next_escape_sequence fuel t)) := by
  unfold next_escape_sequence
  dsimp only
  by_cases h98 : (next_char t).1 = 98
  · rw [if_pos h98]; exact Or.inl rfl
  rw [if_neg h98]
  by_cases h116 : (next_char t).1 = 116
  · rw [if_pos h116]; exact Or.inl rfl
  rw [if_neg h116]
  by_cases h110 : (next_char t).1 = 110
  · rw [if_pos h110]; exact Or.inl rfl
  rw [if_neg h110]
  by_cases h118 : (next_char t).1 = 118
  · rw [if_pos h118]; exact Or.inl rfl
  rw [if_neg h118]
  by_cases h102 : (next_char t).1 = 102
  · rw [if_pos h102]; exact Or.inl rfl
  rw [if_neg h102]
  by_cases h114 : (next_char t).1 = 114
  · rw [if_pos h114]; exact Or.inl rfl
  rw [if_neg h114]
  by_cases h101 : (next_char t).1 = 101
  · rw [if_pos h101]; exact Or.inl rfl
  rw [if_neg h101]
  by_cases h100 : (next_char t).1 = 100
  · rw [if_pos h100]; exact Or.inl rfl
  rw [if_neg h100]
  by_cases h97 : (next_char t).1 = 97
  · rw [if_pos h97]; exact Or.inl rfl
  rw [if_neg h97]
  by_cases h120 : (next_char t).1 = 120
  · rw [if_pos h120]
    have h1 := parse_hex_digit_thrown (next_char t).2
    cases hp : parse_hex_digit (next_char t).2 with
    | ok x =>
      obtain ⟨v1, t2⟩ := x
      dsimp only
      have h2 := parse_hex_digit_thrown t2
      cases hq : parse_hex_digit t2 with
      | ok y => exact Or.inl rfl
      | raise e =>
        rw [hq] at h2
        simp only [thrown] at h2 ⊢
        rcases h2 with h2 | h2
        · exact absurd h2 (by simp)
        · exact Or.inr (Or.inr h2)
      | assert_fail => exact Or.inl rfl
      | no_fuel => exact Or.inl rfl
    | raise e =>
      rw [hp] at h1
      simp only [thrown] at h1 ⊢
      rcases h1 with h1 | h1
      · exact absurd h1 (by simp)
      · exact Or.inr (Or.inr h1)
    | assert_fail => exact Or.inl rfl
    | no_fuel => exact Or.inl rfl
  rw [if_neg h120]
  by_cases h99 : (next_char t).1 = 99
  · rw [if_pos h99]; exact Or.inl (skip_layout_thrown _ _)
  rw [if_neg h99]
  by_cases h94 : (next_char t).1 = 94
  · rw [if_pos h94]
    split_ifs
    · exact Or.inl rfl
    · exact Or.inl rfl
    · exact Or.inl rfl
    · exact Or.inr (Or.inl rfl)
  rw [if_neg h94]
  split_ifs
  · exact Or.inl rfl
  · exact Or.inl rfl
  · exact Or.inl rfl

theorem quoted_name_loop_thrown (fuel n : Nat) (t : term_tokenizer) :
    may_throw_escape (thrown (quoted_name_loop fuel n t)) := by
  induction n generalizing t with
  | zero => exact Or.inl rfl
  | succ n ih =>
    unfold quoted_name_loop
    dsimp only
    split_ifs
    · exact ih _
    · exact Or.inl rfl
    · exact ih _
    · have := next_escape_sequence_thrown fuel (next_char t).2
      cases he : next_escape_sequence fuel (next_char t).2 with
      | ok t2 => exact ih _
      | raise e => rw [he] at this; exact this
      | assert_fail => exact Or.inl rfl
      | no_fuel => exact Or.inl rfl
    · exact Or.inl rfl

theorem next_quoted_name_thrown (fuel : Nat) (t : term_tokenizer) :
    may_throw_escape (thrown (next_quoted_name fuel t)) := by
  unfold next_quoted_name
  dsimp only
  split_ifs
  · exact Or.inl rfl
  · exact quoted_name_loop_thrown _ _ _

theorem string_loop_thrown (fuel n : Nat) (t : term_tokenizer) :
    may_throw_escape (thrown (string_loop fuel n t)) := by
  induction n generalizing t with
  | zero => exact Or.inl rfl
  | succ n ih =>
    unfold string_loop
    dsimp only
    split_ifs
    · exact ih _
    · exact Or.inl rfl
    · have := next_escape_sequence_thrown fuel (next_char t).2
      cases he : next_escape_sequence fuel (next_char t).2 with
      | ok t2 => exact ih _
      | raise e => rw [he] at this; exact this
      | assert_fail => exact Or.inl rfl
      | no_fuel => exact Or.inl rfl
    · exact Or.inl rfl
    · exact ih _

theorem next_exponent_thrown (fuel : Nat) (t : term_tokenizer) :
    thrown (next_exponent fuel t) = none := by
  unfold next_exponent
  dsimp only
  split_ifs
  · exact next_xs_thrown _ _ _
  · exact next_xs_thrown _ _ _

theorem next_decimal_thrown (fuel : Nat) (t : term_tokenizer) :
    thrown (next_decimal fuel t) = none := by
  unfold next_decimal
  have := next_xs_thrown is_digit fuel (consume_next_char t)
  cases hd : next_digits fuel (consume_next_char t) with
  | ok t1 =>
    dsimp only
    split_ifs
    · exact next_exponent_thrown _ _
    · rfl
  | raise e => unfold next_digits at hd; rw [hd] at this; simp [thrown] at this
  | assert_fail => rfl
  | no_fuel => rfl

theorem next_float_thrown (fuel : Nat) (t : term_tokenizer) :
    thrown (next_float fuel t) = none := by
  unfold next_float
  dsimp only
  split_ifs
  · exact next_exponent_thrown _ _
  · exact next_decimal_thrown _ _
  · rfl

theorem may_throw_of_escape (o : Option token_exception) (h : may_throw_escape o) :
    may_throw o := by
  rcases h with h | h | h
  · exact Or.inl h
  · exact Or.inr (Or.inl h)
  · exact Or.inr (Or.inr (Or.inl h))

theorem next_char_code_thrown (cs : Bool) (fuel : Nat) (t : term_tokenizer) :
    may_throw (thrown (next_char_code cs fuel t)) := by
  unfold next_char_code
  dsimp only
  split_ifs
  · have := next_escape_sequence_thrown fuel (reset (next_char t).2)
    cases he : next_escape_sequence fuel (reset (next_char t).2) with
    | ok t1 =>
      dsimp only
      cases t1.lexeme_ with
      | nil => exact Or.inr (Or.inr (Or.inr rfl))
      | cons b l => exact Or.inl rfl
    | raise e => rw [he] at this; exact may_throw_of_escape _ this
    | assert_fail => exact Or.inl rfl
    | no_fuel => exact Or.inl rfl
  · dsimp only
    cases (consume_next_char (reset t)).lexeme_ with
    | nil => exact Or.inr (Or.inr (Or.inr rfl))
    | cons b l => exact Or.inl rfl

theorem next_number_thrown (cs : Bool) (fuel : Nat) (t : term_tokenizer) :
    may_throw (thrown (next_number cs fuel t)) := by
  unfold next_number
  have := next_xs_thrown is_digit fuel t
  cases hd : next_digits fuel t with
  | ok t1 =>
    dsimp only
    split_ifs
    · exact next_char_code_thrown _ _ _
    · exact Or.inl (next_xs_thrown _ _ _)
    · exact Or.inl (next_float_thrown _ _)
    · exact Or.inl rfl
  | raise e => unfold next_digits at hd; rw [hd] at this; simp [thrown] at this
  | assert_fail => exact Or.inl rfl
  | no_fuel => exact Or.inl rfl

/-- The only exceptions `next_token` can end with are the three for which
`term_tokenizer.cpp` has a `throw`: control character, hex code and missing
character code. -/
theorem next_token_thrown (cs : Bool) (fuel : Nat) (t : term_tokenizer) :
    may_throw (thrown (next_token cs fuel t)) := by
  unfold next_token
  dsimp only
  by_cases h0 : is_comment_begin (reset t) = true
  · rw [if_pos h0]; exact Or.inl (next_layout_text_thrown _ _ _)
  rw [if_neg h0]
  by_cases h1 : is_digit (peek_char (reset t)) = true
  · rw [if_pos h1]; exact next_number_thrown _ _ _
  rw [if_neg h1]
  by_cases h2 : peek_char (reset t) = 39
  · rw [if_pos h2]; exact may_throw_of_escape _ (next_quoted_name_thrown _ _)
  rw [if_neg h2]
  by_cases h3 : is_small_letter (peek_char (reset t)) = true
  · rw [if_pos h3]; exact Or.inl (next_xs_thrown _ _ _)
  rw [if_neg h3]
  by_cases h4 : (is_capital_letter (peek_char (reset t)) || is_underline_char (peek_char (reset t))) = true
  · rw [if_pos h4]; exact Or.inl (next_xs_thrown _ _ _)
  rw [if_neg h4]
  by_cases h5 : is_layout_char (peek_char (reset t)) = true
  · rw [if_pos h5]; exact Or.inl (next_layout_text_thrown _ _ _)
  rw [if_neg h5]
  by_cases h6 : (is_symbol_char (peek_char (reset t)) && !is_full_stop_char (peek_char (reset t))) = true
  · rw [if_pos h6]; exact Or.inl (next_symbol_thrown _ _)
  rw [if_neg h6]
  by_cases h7 : is_solo_char (peek_char (reset t)) = true
  · rw [if_pos h7]; exact Or.inl rfl
  rw [if_neg h7]
  by_cases h8 : is_punctuation_char (peek_char (reset t)) = true
  · rw [if_pos h8]; exact Or.inl rfl
  rw [if_neg h8]
  by_cases h9 : peek_char (reset t) = 34
  · rw [if_pos h9]; exact may_throw_of_escape _ (string_loop_thrown _ _ _)
  rw [if_neg h9]
  by_cases h10 : is_full_stop_char (peek_char (reset t)) = true
  · rw [if_pos h10]; exact Or.inl rfl
  rw [if_neg h10]
  exact Or.inl rfl

theorem next_token_never_raises (cs : Bool) (fuel : Nat) (t : term_tokenizer)
    (e : token_exception) (h1 : e ≠ token_exception.control_char)
    (h2 : e ≠ token_exception.hex_code) (h3 : e ≠ token_exception.no_char_code) :
    next_token cs fuel t ≠ tk.raise e := by
  intro h
  have := next_token_thrown cs fuel t
  rw [h] at this
  simp only [thrown] at this
  rcases this with h0 | h0 | h0 | h0
  · simp at h0
  · exact h1 (Option.some.inj h0)
  · exact h2 (Option.some.inj h0)
  · exact h3 (Option.some.inj h0)

/-! ## C17 to C20: errors the tests expect and the code does not raise -/

/-- C17 (what the code does): `next_token` never ends with the
unterminated-quoted-name error, whatever the input; on the input `'foo` it
returns a `TOKEN_NAME` whose lexeme is `foo` followed by the byte 255 that the
read at end of input gave. -/
theorem next_token_no_unterminated_quoted_name :
    (∀ (cs : Bool) (fuel : Nat) (t : term_tokenizer),
      next_token cs fuel t ≠ tk.raise token_exception.unterminated_quoted_name) ∧
    (∀ (cs : Bool) (ty : token_type),
      next_token cs 5 ⟨[39, 102, 111, 111], false, [], ty, []⟩ =
        tk.ok ⟨[], true, [], token_type.TOKEN_NAME, [102, 111, 111, 255]⟩) :=
  ⟨fun cs fuel t => next_token_never_raises cs fuel t _ (by decide) (by decide) (by decide),
   fun _ _ => rfl⟩

/-- C18 (what the code does): `next_token` never ends with the missing-decimal
error, whatever the input; on the inputs `1.` and `1.e` it returns a
`TOKEN_UNSIGNED_FLOAT` with lexeme `1.` and `1.e`. -/
theorem next_token_no_missing_decimal :
    (∀ (cs : Bool) (fuel : Nat) (t : term_tokenizer),
      next_token cs fuel t ≠ tk.raise token_exception.missing_decimal) ∧
    (∀ (cs : Bool) (ty : token_type),
      next_token cs 2 ⟨[49, 46], false, [], ty, []⟩ =
        tk.ok ⟨[], false, [], token_type.TOKEN_UNSIGNED_FLOAT, [49, 46]⟩) ∧
    (∀ (cs : Bool) (ty : token_type),
      next_token cs 2 ⟨[49, 46, 101], false, [], ty, []⟩ =
        tk.ok ⟨[], false, [], token_type.TOKEN_UNSIGNED_FLOAT, [49, 46, 101]⟩) :=
  ⟨fun cs fuel t => next_token_never_raises cs fuel t _ (by decide) (by decide) (by decide),
   fun _ _ => rfl, fun _ _ => rfl⟩

/-- C19 (what the code does): `next_token` never ends with the missing-exponent
error, whatever the input; on the inputs `1e`, `1e+`, `1e-` and `2E-` it returns
a `TOKEN_UNSIGNED_FLOAT` whose lexeme is the whole input. -/
theorem next_token_no_missing_exponent :
    (∀ (cs : Bool) (fuel : Nat) (t : term_tokenizer),
      next_token cs fuel t ≠ tk.raise token_exception.missing_exponent) ∧
    (∀ (cs : Bool) (ty : token_type),
      next_token cs 2 ⟨[49, 101], false, [], ty, []⟩ =
        tk.ok ⟨[], false, [], token_type.TOKEN_UNSIGNED_FLOAT, [49, 101]⟩) ∧
    (∀ (cs : Bool) (ty : token_type),
      next_token cs 2 ⟨[49, 101, 43], false, [], ty, []⟩ =
        tk.ok ⟨[], false, [], token_type.TOKEN_UNSIGNED_FLOAT, [49, 101, 43]⟩) ∧
    (∀ (cs : Bool) (ty : token_type),
      next_token cs 2 ⟨[49, 101, 45], false, [], ty, []⟩ =
        tk.ok ⟨[], false, [], token_type.TOKEN_UNSIGNED_FLOAT, [49, 101, 45]⟩) ∧
    (∀ (cs : Bool) (ty : token_type),
      next_token cs 2 ⟨[50, 69, 45], false, [], ty, []⟩ =
        tk.ok ⟨[], false, [], token_type.TOKEN_UNSIGNED_FLOAT, [50, 69, 45]⟩) :=
  ⟨fun cs fuel t => next_token_never_raises cs fuel t _ (by decide) (by decide) (by decide),
   fun _ _ => rfl, fun _ _ => rfl, fun _ _ => rfl, fun _ _ => rfl⟩

/-- C20 (what the code does): `next_token` never ends with the
unterminated-string error, whatever the input; on the input `"foo` it returns a
`TOKEN_STRING` with lexeme `foo`. -/
theorem next_token_no_unterminated_string :
    (∀ (cs : Bool) (fuel : Nat) (t : term_tokenizer),
      next_token cs fuel t ≠ tk.raise token_exception.unterminated_string) ∧
    (∀ (cs : Bool) (ty : token_type),
      next_token cs 4 ⟨[34, 102, 111, 111], false, [], ty, []⟩ =
        tk.ok ⟨[], true, [], token_type.TOKEN_STRING, [102, 111, 111]⟩) :=
  ⟨fun cs fuel t => next_token_never_raises cs fuel t _ (by decide) (by decide) (by decide),
   fun _ _ => rfl⟩

/-! ## C12: symbol runs -/

theorem is_comment_begin_cons (c : Nat) (r : List Nat) (eof : Bool) (la : List Nat)
    (ty : token_type) (lex : List Nat) :
    is_comment_begin ⟨c :: r, eof, la, ty, lex⟩ =
      (decide ((c : Int) = 37) || (decide ((c : Int) = 47) && decide (head_code r = 42))) := by
  simp only [is_comment_begin, peek_char_eq, head_code_cons, next_char_la]
  by_cases h1 : (c : Int) = 37
  · simp [h1]
  · by_cases h2 : (c : Int) = 47
    · simp [h1, h2]
    · simp [h1, h2]

theorem is_comment_begin_nil (eof : Bool) (la : List Nat) (ty : token_type)
    (lex : List Nat) : is_comment_begin ⟨[], eof, la, ty, lex⟩ = false := by
  simp [is_comment_begin, peek_char_eq, head_code_nil]

theorem symbol_char_facts (c : Nat) (h : is_symbol_char (c : Int) = true) :
    c < 256 ∧ (c : Int) ≠ 37 ∧ (c : Int) ≠ 39 ∧ is_digit (c : Int) = false ∧
      is_small_letter (c : Int) = false ∧ is_capital_letter (c : Int) = false ∧
      is_underline_char (c : Int) = false ∧ is_layout_char (c : Int) = false := by
  simp only [is_symbol_char, decide_eq_true_eq] at h
  simp only [is_digit, is_small_letter, is_capital_letter, is_underline_char, is_layout_char,
    decide_eq_false_iff_not]
  refine ⟨?_, ?_, ?_, ?_, ?_, ?_, ?_, ?_⟩ <;> omega

theorem next_symbol_run (run rest : List Nat) (fuel : Nat) (eof : Bool) (la : List Nat)
    (ty : token_type) (lex : List Nat)
    (hsym : ∀ c ∈ run, is_symbol_char (c : Int) = true ∧ c ≠ 46)
    (hcom : ¬ [47, 42] <:+: run)
    (hrest : is_symbol_char (head_code rest) = false ∨ ∃ r, rest = 47 :: 42 :: r)
    (hfuel : run.length < fuel) :
    next_symbol fuel ⟨run ++ rest, eof, la, ty, lex⟩ = tk.ok ⟨rest, eof, la, ty, lex ++ run⟩ := by
  have hb : head_code rest ≠ 42 := by
    rcases hrest with h | ⟨r, h⟩
    · intro hh; rw [hh] at h; simp [is_symbol_char] at h
    · rw [h]; simp [head_code_cons]
  induction run generalizing fuel lex with
  | nil =>
    cases fuel with
    | zero => simp at hfuel
    | succ n =>
      simp only [List.nil_append, List.append_nil]
      unfold next_symbol
      have : (is_symbol_char (peek_char ⟨rest, eof, la, ty, lex⟩) &&
          !is_comment_begin ⟨rest, eof, la, ty, lex⟩ &&
          !is_full_stop ⟨rest, eof, la, ty, lex⟩) = false := by
        rcases hrest with h | ⟨r, h⟩
        · simp [peek_char_eq, h]
        · subst h
          simp [is_comment_begin_cons, head_code_cons]
      rw [this]
      simp
  | cons c run ih =>
    cases fuel with
    | zero => simp at hfuel
    | succ n =>
      have hc := hsym c (List.mem_cons_self c run)
      have hf := symbol_char_facts c hc.1
      have hcom2 : ¬ [47, 42] <:+: run := fun h => hcom (h.trans (List.infix_cons (List.infix_refl _)))
      have hnext : (c : Int) = 47 → head_code (run ++ rest) ≠ 42 := by
        intro h47
        cases run with
        | nil => simpa using hb
        | cons d run2 =>
          simp only [List.cons_append, head_code_cons]
          intro hd
          apply hcom
          have hc47 : c = 47 := by omega
          have hd42 : d = 42 := by omega
          subst hc47; subst hd42
          exact ⟨[], run2, by simp⟩
      have hcond : (is_symbol_char (peek_char ⟨c :: run ++ rest, eof, la, ty, lex⟩) &&
          !is_comment_begin ⟨c :: run ++ rest, eof, la, ty, lex⟩ &&
          !is_full_stop ⟨c :: run ++ rest, eof, la, ty, lex⟩) = true := by
        simp only [List.cons_append, peek_char_eq, head_code_cons, is_comment_begin_cons,
          is_full_stop, hc.1, Bool.true_and, Bool.and_eq_true, Bool.not_eq_true',
          Bool.or_eq_false_iff, decide_eq_false_iff_not, Bool.and_eq_false_imp,
          decide_eq_true_eq]
        refine ⟨⟨hf.2.1, hnext⟩, ?_⟩
        have := hc.2
        omega
      unfold next_symbol
      rw [hcond]
      simp only [if_true, List.cons_append]
      rw [consume_next_char_cons c _ eof la ty lex hf.1]
      rw [ih n (lex ++ [c]) (fun d hd => hsym d (List.mem_cons_of_mem c hd)) hcom2
        (by simp at hfuel; omega)]
      simp

/-- C12: an input that starts with a non-empty run of symbol characters without
`.` and without the comment opener `/*`, followed by a character that is no
symbol character, by end of input, or by `/*`, is returned by one `next_token`
call as a `TOKEN_NAME` whose lexeme is the whole run; what follows the run is
left unread. -/
theorem next_token_symbol_run (cs : Bool) (fuel : Nat) (run rest : List Nat) (eof : Bool)
    (la : List Nat) (ty : token_type) (lex0 : List Nat)
    (hne : run ≠ [])
    (hsym : ∀ c ∈ run, is_symbol_char (c : Int) = true ∧ c ≠ 46)
    (hcom : ¬ [47, 42] <:+: run)
    (hrest : is_symbol_char (head_code rest) = false ∨ ∃ r, rest = 47 :: 42 :: r)
    (hfuel : run.length < fuel) :
    next_token cs fuel ⟨run ++ rest, eof, la, ty, lex0⟩ =
      tk.ok ⟨rest, eof, la, token_type.TOKEN_NAME, run⟩ := by
  have hrun := next_symbol_run run rest fuel eof la token_type.TOKEN_NAME [] hsym hcom hrest
    hfuel
  cases run with
  | nil => exact absurd rfl hne
  | cons c run2 =>
    have hc := hsym c (List.mem_cons_self c run2)
    have hf := symbol_char_facts c hc.1
    have hnext : (c : Int) = 47 → head_code (run2 ++ rest) ≠ 42 := by
      intro h47
      cases run2 with
      | nil =>
        rcases hrest with h | ⟨r, h⟩
        · intro hh; rw [List.nil_append] at hh; rw [hh] at h; simp [is_symbol_char] at h
        · rw [h]; simp [head_code_cons]
      | cons d run3 =>
        simp only [List.cons_append, head_code_cons]
        intro hd
        apply hcom
        have hc47 : c = 47 := by omega
        have hd42 : d = 42 := by omega
        subst hc47; subst hd42
        exact ⟨[], run3, by simp⟩
    have hcb : is_comment_begin ⟨c :: (run2 ++ rest), eof, la, ty, []⟩ = false := by
      rw [is_comment_begin_cons]
      simp only [Bool.or_eq_false_iff, decide_eq_false_iff_not, Bool.and_eq_false_imp,
        decide_eq_true_eq]
      exact ⟨hf.2.1, hnext⟩
    have hnd : (c : Int) ≠ 46 := by have := hc.2; omega
    unfold next_token
    simp only [reset, List.cons_append, hcb, Bool.false_eq_true, if_false, peek_char_eq,
      head_code_cons, hf.2.2.2.1, hf.2.2.2.2.1, hf.2.2.2.2.2.1, hf.2.2.2.2.2.2.1,
      hf.2.2.2.2.2.2.2, hf.2.2.1, Bool.or_self, hc.1, is_full_stop_char, hnd, decide_False,
      Bool.not_false, Bool.and_self, if_true, set_token_type]
    simpa using hrun

/-- C12 at the input of the test: `+=` followed by `/*bla`. -/
theorem next_token_symbol_run_witness :
    next_token true 3 ⟨[43, 61] ++ [47, 42, 98, 108, 97], false, [], token_type.TOKEN_VARIABLE, []⟩ =
      tk.ok ⟨[47, 42, 98, 108, 97], false, [], token_type.TOKEN_NAME, [43, 61]⟩ :=
  next_token_symbol_run true 3 [43, 61] [47, 42, 98, 108, 97] false []
    token_type.TOKEN_VARIABLE [] (by decide) (by decide) (by decide)
    (Or.inr ⟨[98, 108, 97], rfl⟩) (by decide)

/-! ## Block comments, line comments and layout text -/

theorem head_code_append_ne (l rest : List Nat) (hl : l ≠ []) :
    head_code (l ++ rest) = head_code l := by
  cases l with
  | nil => exact absurd rfl hl
  | cons c l => rfl

theorem render_ctoks_ne (body : List ctok) (hne : body ≠ []) : render_ctoks body ≠ [] := by
  cases body with
  | nil => exact absurd rfl hne
  | cons x r => cases x <;> simp [render_ctoks, render_ctok]

theorem balanced_ne (d : Nat) (body : List ctok) (h : balanced d body = true) : body ≠ [] := by
  intro hh
  subst hh
  cases d <;> simp [balanced] at h

theorem block_comment_loop_run (body : List ctok) (d fuel : Nat) (rest : List Nat)
    (la : List Nat) (ty : token_type) (lex : List Nat)
    (hbal : balanced d body = true) (hclean : clean body = true) (hfuel : body.length < fuel) :
    block_comment_loop fuel d ⟨render_ctoks body ++ rest, false, la, ty, lex⟩ =
      tk.ok ⟨rest, false, la, ty, lex ++ render_ctoks body⟩ := by
  induction body generalizing d fuel lex with
  | nil => exact absurd rfl (balanced_ne d [] hbal)
  | cons x r ih =>
    cases d with
    | zero => simp [balanced] at hbal
    | succ d =>
      cases fuel with
      | zero => simp at hfuel
      | succ n =>
        have hn : r.length < n := by simp at hfuel; omega
        have hcond : (d + 1 > 0 ∧ (!is_eof ⟨render_ctoks (x :: r) ++ rest, false, la, ty, lex⟩) = true) := by
          simp [is_eof]
        unfold block_comment_loop
        rw [if_pos hcond]
        cases x with
        | opn =>
          simp only [balanced] at hbal
          simp only [clean] at hclean
          simp only [render_ctoks, render_ctok, List.cons_append, List.nil_append, next_char,
            peek_char_eq, head_code_cons]
          have h1 : ¬ (((47 : Nat) : Int) = 42 ∧ ((42 : Nat) : Int) = 47) := by decide
          have h2 : ((47 : Nat) : Int) = 47 ∧ ((42 : Nat) : Int) = 42 := ⟨rfl, rfl⟩
          rw [if_neg h1, if_pos h2]
          have := ih (d + 2) n (lex ++ [47, 42]) hbal hclean hn
          simp only [List.append_assoc] at this ⊢
          exact this
        | cls =>
          simp only [clean] at hclean
          simp only [render_ctoks, render_ctok, List.cons_append, List.nil_append, next_char,
            peek_char_eq, head_code_cons]
          have h1 : ((42 : Nat) : Int) = 42 ∧ ((47 : Nat) : Int) = 47 := ⟨rfl, rfl⟩
          rw [if_pos h1]
          simp only [balanced] at hbal
          by_cases hd : d = 0
          · subst hd
            simp only [if_true, decide_eq_true_eq] at hbal
            subst hbal
            cases n with
            | zero => simp at hn
            | succ m =>
              simp [block_comment_loop, render_ctoks]
          · rw [if_neg hd] at hbal
            have := ih d n (lex ++ [42, 47]) hbal hclean hn
            simp only [Nat.add_sub_cancel, List.append_assoc] at this ⊢
            exact this
        | chr c =>
          simp only [balanced] at hbal
          simp only [clean, Bool.and_eq_true, Bool.not_eq_true', Bool.and_eq_false_imp,
            decide_eq_true_eq, decide_eq_false_iff_not] at hclean
          obtain ⟨⟨⟨hc, h42⟩, h47⟩, hcl⟩ := hclean
          have hr : r ≠ [] := balanced_ne _ r hbal
          have hhead : head_code (render_ctoks r ++ rest) = head_code (render_ctoks r) :=
            head_code_append_ne _ _ (render_ctoks_ne r hr)
          simp only [render_ctoks, render_ctok, List.cons_append, List.nil_append, next_char,
            peek_char_eq, head_code_cons, hhead]
          have h1 : ¬ ((c : Int) = 42 ∧ head_code (render_ctoks r) = 47) := by
            intro hh
            exact h42 (by omega) hh.2
          have h2 : ¬ ((c : Int) = 47 ∧ head_code (render_ctoks r) = 42) := by
            intro hh
            exact h47 (by omega) hh.2
          rw [if_neg h1, if_neg h2]
          have := ih (d + 1) n (lex ++ [c]) hbal hcl hn
          simp only [add_to_lexeme, to_char_of_lt c hc, List.append_assoc] at this ⊢
          exact this

theorem parse_block_comment_run (body : List ctok) (fuel : Nat) (rest : List Nat)
    (la : List Nat) (ty : token_type) (lex : List Nat)
    (hbal : balanced 1 body = true) (hclean : clean body = true) (hfuel : body.length < fuel) :
    parse_block_comment fuel ⟨47 :: 42 :: (render_ctoks body ++ rest), false, la, ty, lex⟩ =
      tk.ok ⟨rest, false, la, ty, lex ++ 47 :: 42 :: render_ctoks body⟩ := by
  unfold parse_block_comment
  simp only [next_char_la, peek_char_eq, head_code_cons, unget_char]
  have h1 : ((47 : Nat) : Int) = 47 ∧ ((42 : Nat) : Int) = 42 := ⟨rfl, rfl⟩
  rw [if_pos h1, consume_next_char_cons 47 _ false la ty lex (by omega),
    consume_next_char_cons 42 _ false la ty _ (by omega),
    block_comment_loop_run body 1 fuel rest la ty _ hbal hclean hfuel]
  simp

theorem line_comment_loop_run (txt rest : List Nat) (fuel : Nat) (la : List Nat)
    (ty : token_type) (lex : List Nat) (htxt : ∀ c ∈ txt, c < 256 ∧ c ≠ 10)
    (hfuel : txt.length < fuel) :
    line_comment_loop fuel ⟨txt ++ 10 :: rest, false, la, ty, lex⟩ =
      tk.ok (false, ⟨10 :: rest, false, la, ty, lex ++ txt⟩) := by
  induction txt generalizing fuel lex with
  | nil =>
    cases fuel with
    | zero => simp at hfuel
    | succ n =>
      unfold line_comment_loop
      simp only [List.nil_append, peek_char_eq, head_code_cons, List.append_nil]
      have h1 : ¬ (((10 : Nat) : Int) ≠ 10) := by decide
      rw [if_neg h1]
  | cons c txt ih =>
    cases fuel with
    | zero => simp at hfuel
    | succ n =>
      have hc := htxt c (List.mem_cons_self c txt)
      unfold line_comment_loop
      simp only [List.cons_append, peek_char_eq, head_code_cons]
      have h1 : (c : Int) ≠ 10 := by have := hc.2; omega
      rw [if_pos h1]
      simp only [is_eof, Bool.false_eq_true, if_false]
      rw [consume_next_char_cons c _ false la ty lex hc.1,
        ih n (lex ++ [c]) (fun d hd => htxt d (List.mem_cons_of_mem c hd))
          (by simp at hfuel; omega)]
      simp

theorem parse_line_comment_run (txt rest : List Nat) (fuel : Nat) (la : List Nat)
    (ty : token_type) (lex : List Nat) (htxt : ∀ c ∈ txt, c < 256 ∧ c ≠ 10)
    (hfuel : txt.length + 1 < fuel) :
    parse_line_comment fuel ⟨37 :: (txt ++ 10 :: rest), false, la, ty, lex⟩ =
      tk.ok ⟨rest, false, la, ty, lex ++ 37 :: (txt ++ [10])⟩ := by
  unfold parse_line_comment
  simp only [peek_char_eq, head_code_cons]
  have h1 : ¬ (((37 : Nat) : Int) ≠ 37) := by decide
  rw [if_neg h1]
  have h37 : ∀ c ∈ 37 :: txt, c < 256 ∧ c ≠ 10 := by
    intro c hc
    rcases List.mem_cons.mp hc with h | h
    · subst h; omega
    · exact htxt c h
  have := line_comment_loop_run (37 :: txt) rest fuel la ty lex h37 (by simp; omega)
  simp only [List.cons_append] at this
  rw [this]
  simp only []
  rw [consume_next_char_cons 10 _ false la ty _ (by omega)]
  simp

theorem layout_char_facts (c : Nat) (h : is_layout_char (c : Int) = true) :
    c < 256 ∧ (c : Int) ≠ 37 ∧ (c : Int) ≠ 47 ∧ (c : Int) ≠ 39 ∧ is_digit (c : Int) = false ∧
      is_small_letter (c : Int) = false ∧ is_capital_letter (c : Int) = false ∧
      is_underline_char (c : Int) = false := by
  simp only [is_layout_char, decide_eq_true_eq] at h
  simp only [is_digit, is_small_letter, is_capital_letter, is_underline_char,
    decide_eq_false_iff_not]
  refine ⟨?_, ?_, ?_, ?_, ?_, ?_, ?_, ?_⟩ <;> omega

theorem next_layout_text_run (items : List litem) (rest : List Nat) (fuel n : Nat)
    (la : List Nat) (ty : token_type) (lex : List Nat)
    (hvalid : ∀ x ∈ items, valid_litem x = true) (hend : ends_layout rest = true)
    (hn : items.length < n) (hfuel : ∀ x ∈ items, (render_litem x).length < fuel) :
    next_layout_text fuel n ⟨render_litems items ++ rest, false, la, ty, lex⟩ =
      tk.ok ⟨rest, false, la, ty, lex ++ render_litems items⟩ := by
  induction items generalizing n lex with
  | nil =>
    cases n with
    | zero => simp at hn
    | succ m =>
      simp only [ends_layout, Bool.and_eq_true, Bool.not_eq_true', Bool.and_eq_false_imp,
        decide_eq_true_eq, decide_eq_false_iff_not] at hend
      obtain ⟨⟨h1, h2⟩, h3⟩ := hend
      unfold next_layout_text
      simp only [render_litems, List.nil_append, List.append_nil, peek_char_eq, h1,
        Bool.false_eq_true, if_false]
      have hcb : ¬ (head_code rest = 47 ∧ is_comment_begin ⟨rest, false, la, ty, lex⟩ = true) := by
        intro hh
        cases rest with
        | nil => simp [head_code_nil] at hh
        | cons c r =>
          rw [is_comment_begin_cons] at hh
          simp only [head_code_cons, List.tail_cons] at hh h2 h3
          have := h3 hh.1
          simp [h2, this] at hh
      rw [if_neg hcb, if_neg h2]
  | cons x items ih =>
    cases n with
    | zero => simp at hn
    | succ m =>
      have hm : items.length < m := by simp at hn; omega
      have hv := hvalid x (List.mem_cons_self x items)
      have hf := hfuel x (List.mem_cons_self x items)
      have hvalid2 : ∀ y ∈ items, valid_litem y = true := fun y hy => hvalid y (List.mem_cons_of_mem x hy)
      have hfuel2 : ∀ y ∈ items, (render_litem y).length < fuel :=
        fun y hy => hfuel y (List.mem_cons_of_mem x hy)
      unfold next_layout_text
      cases x with
      | lay c =>
        simp only [valid_litem] at hv
        have hc := layout_char_facts c hv
        simp only [render_litems, render_litem, List.cons_append, List.nil_append, peek_char_eq,
          head_code_cons, hv, if_true]
        rw [consume_next_char_cons c _ false la ty lex hc.1, ih m (lex ++ [c]) hvalid2 hm hfuel2]
        simp
      | block body =>
        simp only [valid_litem, Bool.and_eq_true] at hv
        simp only [render_litem, List.length_cons] at hf
        have hlen : body.length < fuel := by
          have : body.length ≤ (render_ctoks body).length := by
            clear hv hf ih hvalid hfuel hn
            induction body with
            | nil => simp
            | cons y r ihr => cases y <;> simp [render_ctoks, render_ctok] <;> omega
          omega
        simp only [render_litems, render_litem, List.cons_append, peek_char_eq, head_code_cons]
        have h1 : is_layout_char ((47 : Nat) : Int) = false := by decide
        have h2 : ((47 : Nat) : Int) = 47 ∧
            is_comment_begin ⟨47 :: 42 :: (render_ctoks body ++ render_litems items ++ rest),
              false, la, ty, lex⟩ = true := by
          refine ⟨rfl, ?_⟩
          rw [is_comment_begin_cons]
          simp [head_code_cons]
        simp only [h1, Bool.false_eq_true, if_false]
        rw [if_pos h2]
        have := parse_block_comment_run body fuel (render_litems items ++ rest) la ty lex
          hv.1 hv.2 hlen
        simp only [List.append_assoc] at this ⊢
        rw [this]
        simp only []
        rw [ih m _ hvalid2 hm hfuel2]
        simp
      | line txt =>
        simp only [valid_litem, List.all_eq_true, Bool.and_eq_true, decide_eq_true_eq] at hv
        simp only [render_litem, List.length_cons, List.length_append, List.length_singleton] at hf
        simp only [render_litems, render_litem, List.cons_append, peek_char_eq, head_code_cons]
        have h1 : is_layout_char ((37 : Nat) : Int) = false := by decide
        have h2 : ¬ (((37 : Nat) : Int) = 47 ∧
            is_comment_begin ⟨37 :: (txt ++ [10] ++ render_litems items ++ rest),
              false, la, ty, lex⟩ = true) := by
          intro hh
          exact absurd hh.1 (by decide)
        have h3 : ((37 : Nat) : Int) = 37 := rfl
        simp only [h1, Bool.false_eq_true, if_false]
        rw [if_neg h2, if_pos h3]
        have := parse_line_comment_run txt (render_litems items ++ rest) fuel la ty lex hv
          (by omega)
        simp only [List.append_assoc, List.singleton_append, List.cons_append,
          List.nil_append] at this ⊢
        rw [this]
        simp only []
        rw [ih m _ hvalid2 hm hfuel2]
        simp

theorem render_litem_pos (x : litem) : 1 ≤ (render_litem x).length := by
  cases x <;> simp [render_litem]

theorem length_le_render_litems (items : List litem) :
    items.length ≤ (render_litems items).length := by
  induction items with
  | nil => simp [render_litems]
  | cons x r ih =>
    have := render_litem_pos x
    simp only [render_litems, List.length_cons, List.length_append]
    omega

theorem render_litem_le (items : List litem) (x : litem) (hx : x ∈ items) :
    (render_litem x).length ≤ (render_litems items).length := by
  induction items with
  | nil => simp at hx
  | cons y r ih =>
    simp only [render_litems, List.length_append]
    rcases List.mem_cons.mp hx with h | h
    · subst h; omega
    · have := ih h; omega

/-- What `next_token` does on a layout text: the lexeme is the text; the kind is
set to `TOKEN_LAYOUT_TEXT` when the text starts with a layout character, and
is left as it was when the text starts with a comment. -/
theorem next_token_layout_run (cs : Bool) (fuel : Nat) (items : List litem) (rest : List Nat)
    (la : List Nat) (ty : token_type) (lex0 : List Nat)
    (hne : items ≠ []) (hvalid : ∀ x ∈ items, valid_litem x = true)
    (hend : ends_layout rest = true) (hfuel : (render_litems items).length < fuel) :
    next_token cs fuel ⟨render_litems items ++ rest, false, la, ty, lex0⟩ =
      tk.ok ⟨rest, false, la,
        if starts_with_comment items then ty else token_type.TOKEN_LAYOUT_TEXT,
        render_litems items⟩ := by
  have hn : items.length < fuel := lt_of_le_of_lt (length_le_render_litems items) hfuel
  have hf : ∀ x ∈ items, (render_litem x).length < fuel :=
    fun x hx => lt_of_le_of_lt (render_litem_le items x hx) hfuel
  have hrun := fun ty1 => next_layout_text_run items rest fuel fuel la ty1 [] hvalid hend hn hf
  cases items with
  | nil => exact absurd rfl hne
  | cons x r =>
    unfold next_token
    cases x with
    | lay c =>
      have hv := hvalid (litem.lay c) (List.mem_cons_self _ _)
      simp only [valid_litem] at hv
      have hc := layout_char_facts c hv
      have hcb : is_comment_begin
          ⟨c :: (render_litems r ++ rest), false, la, ty, []⟩ = false := by
        rw [is_comment_begin_cons]
        simp [hc.2.1, hc.2.2.1]
      simp only [reset, render_litems, render_litem, List.cons_append, List.nil_append, hcb,
        Bool.false_eq_true, if_false, peek_char_eq, head_code_cons, hc.2.2.2.2.1,
        hc.2.2.2.1, hc.2.2.2.2.2.1, hc.2.2.2.2.2.2.1, hc.2.2.2.2.2.2.2, Bool.or_self, hv,
        if_true, set_token_type, starts_with_comment]
      have := hrun token_type.TOKEN_LAYOUT_TEXT
      simpa [render_litems, render_litem] using this
    | block body =>
      have hcb : is_comment_begin
          ⟨47 :: 42 :: (render_ctoks body ++ (render_litems r ++ rest)), false, la, ty, []⟩ =
            true := by
        rw [is_comment_begin_cons]
        simp [head_code_cons]
      simp only [reset, render_litems, render_litem, List.cons_append, List.append_assoc, hcb,
        if_true, starts_with_comment]
      have := hrun ty
      simpa [render_litems, render_litem] using this
    | line txt =>
      have hcb : is_comment_begin
          ⟨37 :: (txt ++ 10 :: (render_litems r ++ rest)), false, la, ty, []⟩ = true := by
        rw [is_comment_begin_cons]
        simp
      simp only [reset, render_litems, render_litem, List.cons_append, List.append_assoc,
        List.singleton_append, hcb, if_true, starts_with_comment]
      have := hrun ty
      simpa [render_litems, render_litem] using this

/-! ## C15 and C16: layout text that starts with a comment -/

/-- C15 (what the code does): on a block comment whose pieces are properly
nested, `parse_block_comment` takes the whole comment, up to and including the
`*/` that closes the outermost `/*`, into the lexeme and leaves the rest of the
input; `next_token` on an input that starts with such a comment, followed by
input that ends the layout text, returns a token whose lexeme is the whole
comment, but whose kind is the kind the token had before the call: the branch
of `next_token` for a comment start does not call `set_token_type`. -/
theorem next_token_block_comment (cs : Bool) (fuel : Nat) (body : List ctok)
    (rest la : List Nat) (ty : token_type) (lex0 : List Nat)
    (hbal : balanced 1 body = true) (hclean : clean body = true)
    (hend : ends_layout rest = true)
    (hfuel : (render_ctoks body).length + 2 < fuel) :
    (∀ rest1 lex, parse_block_comment fuel
        ⟨47 :: 42 :: (render_ctoks body ++ rest1), false, la, ty, lex⟩ =
      tk.ok ⟨rest1, false, la, ty, lex ++ 47 :: 42 :: render_ctoks body⟩) ∧
    next_token cs fuel ⟨47 :: 42 :: (render_ctoks body ++ rest), false, la, ty, lex0⟩ =
      tk.ok ⟨rest, false, la, ty, 47 :: 42 :: render_ctoks body⟩ := by
  have hlen : body.length ≤ (render_ctoks body).length := by
    clear hbal hclean hfuel
    induction body with
    | nil => simp
    | cons y r ihr => cases y <;> simp [render_ctoks, render_ctok] <;> omega
  refine ⟨fun rest1 lex =>
    parse_block_comment_run body fuel rest1 la ty lex hbal hclean (by omega), ?_⟩
  have := next_token_layout_run cs fuel [litem.block body] rest la ty lex0 (by simp)
    (by
      intro x hx
      rw [List.mem_singleton] at hx
      subst hx
      simp [valid_litem, hbal, hclean])
    hend (by simp [render_litems, render_litem]; omega)
  simpa [render_litems, render_litem, starts_with_comment] using this

/-- C15 at the comment of the test, `/*bla/* ha */ xx *q*/`, met when the
current token is the `TOKEN_NAME` left by `+=`: the token returned has the whole
comment as lexeme and is still a `TOKEN_NAME`. -/
theorem next_token_block_comment_witness :
    (∀ rest1 lex, parse_block_comment 24
        ⟨47 :: 42 :: (render_ctoks ex_nested_comment ++ rest1), false, [],
          token_type.TOKEN_NAME, lex⟩ =
      tk.ok ⟨rest1, false, [], token_type.TOKEN_NAME,
        lex ++ 47 :: 42 :: render_ctoks ex_nested_comment⟩) ∧
    next_token true 24
        ⟨47 :: 42 :: (render_ctoks ex_nested_comment ++ [39, 102, 111, 111, 39]), false, [],
          token_type.TOKEN_NAME, [43, 61]⟩ =
      tk.ok ⟨[39, 102, 111, 111, 39], false, [], token_type.TOKEN_NAME,
        47 :: 42 :: render_ctoks ex_nested_comment⟩ :=
  next_token_block_comment true 24 ex_nested_comment [39, 102, 111, 111, 39] []
    token_type.TOKEN_NAME [43, 61] (by decide) (by decide) (by decide) (by decide)

/-- C16 (what the code does): a run of layout items (layout characters, properly
nested block comments, `%` line comments up to and including their newline)
followed by input that ends the layout text is returned by one `next_token`
call as one token whose lexeme is exactly the text of the run, the rest being
left unread.  The kind of the token is `TOKEN_LAYOUT_TEXT` when the run starts
with a layout character; when it starts with a comment the kind is not set and
stays what it was before the call. -/
theorem next_token_layout_text (cs : Bool) (fuel : Nat) (items : List litem)
    (rest la : List Nat) (ty : token_type) (lex0 : List Nat)
    (hne : items ≠ []) (hvalid : ∀ x ∈ items, valid_litem x = true)
    (hend : ends_layout rest = true) (hfuel : (render_litems items).length < fuel) :
    next_token cs fuel ⟨render_litems items ++ rest, false, la, ty, lex0⟩ =
      tk.ok ⟨rest, false, la,
        if starts_with_comment items then ty else token_type.TOKEN_LAYOUT_TEXT,
        render_litems items⟩ :=
  next_token_layout_run cs fuel items rest la ty lex0 hne hvalid hend hfuel

/-- C16 at the layout text of the test that follows `+=`: the lexeme is the whole
text, the kind is still the `TOKEN_NAME` of `+=`. -/
theorem next_token_layout_text_witness :
    next_token true 40
        ⟨render_litems ex_layout_items ++ [39, 102, 111, 111, 39], false, [],
          token_type.TOKEN_NAME, [43, 61]⟩ =
      tk.ok ⟨[39, 102, 111, 111, 39], false, [], token_type.TOKEN_NAME,
        render_litems ex_layout_items⟩ :=
  next_token_layout_text true 40 ex_layout_items [39, 102, 111, 111, 39] []
    token_type.TOKEN_NAME [43, 61] (by decide) (by decide) (by decide) (by decide)

/-! ## C14: character codes `0'c` -/

theorem char_to_int_small (cs : Bool) (c : Nat) (hc : c < 128) :
    char_to_int cs c = (c : Int) := by
  unfold char_to_int
  have h1 : c % 256 = c := Nat.mod_eq_of_lt (by omega)
  have h2 : ¬ (128 ≤ c % 256) := by omega
  have h3 : ((c : Int) % 256) = (c : Int) := Int.emod_eq_of_lt (by omega) (by omega)
  simp [h2, h3]

/-- C14 (what the code does): for every character `c` with a code below 128 other
than the backslash, the input `0'c` is returned as one `TOKEN_NATURAL_NUMBER`
whose lexeme is the decimal code of `c`, and `0'\^g` gives the lexeme `7`; but
`0'\x41`, whose escape stands for the character with hex code 41 (decimal 65),
gives the lexeme `1`, because the hex escape computes `(v1 << 8) | v2` and the
result is cut to a `char`. -/
theorem next_token_char_code (cs : Bool) (fuel : Nat) (c : Nat) (rest : List Nat)
    (eof : Bool) (la : List Nat) (ty : token_type) (lex0 : List Nat)
    (hc : c < 128) (hbs : c ≠ 92) (hfuel : 1 < fuel) :
    next_token cs fuel ⟨48 :: 39 :: c :: rest, eof, la, ty, lex0⟩ =
      tk.ok ⟨rest, eof, la, token_type.TOKEN_NATURAL_NUMBER, lexical_cast (c : Int)⟩ ∧
    next_token cs 2 ⟨[48, 39, 92, 94, 103], false, [], ty, []⟩ =
      tk.ok ⟨[], false, [], token_type.TOKEN_NATURAL_NUMBER, [55]⟩ ∧
    next_token cs 2 ⟨[48, 39, 92, 120, 52, 49], false, [], ty, []⟩ =
      tk.ok ⟨[], false, [], token_type.TOKEN_NATURAL_NUMBER, [49]⟩ ∧
    lexical_cast 65 = [54, 53] := by
  refine ⟨?_, ?_, ?_, by decide⟩
  · have hd : ∀ d ∈ [48], is_digit ((d : Nat) : Int) = true := by decide
    have hstop : is_digit (head_code (39 :: c :: rest)) = false := by
      simp [head_code_cons, is_digit]
    have hrun := next_digits_run [48] (39 :: c :: rest) fuel eof la
      token_type.TOKEN_NATURAL_NUMBER [] hd hstop (by simpa using hfuel)
    simp only [List.cons_append, List.nil_append] at hrun
    unfold next_token
    simp only [reset]
    rw [is_comment_begin_digit 48 _ eof la ty [] (by decide)]
    have h48 : is_digit (((48 : Nat) : Int)) = true := by decide
    simp only [Bool.false_eq_true, if_false, peek_char_eq, head_code_cons, h48, if_true,
      set_token_type, next_number, hrun]
    have h39 : ((39 : Nat) : Int) = 39 := rfl
    rw [if_pos h39, consume_next_char_cons 39 _ eof la _ _ (by omega)]
    simp only [List.cons_append, List.nil_append, if_true, next_char_code, peek_char_eq,
      head_code_cons, reset]
    have h92 : ¬ ((c : Int) = 92) := by omega
    rw [if_neg h92, consume_next_char_cons c _ eof la _ _ (by omega)]
    simp only [List.nil_append, char_to_int_small cs c hc]
  · cases cs <;> cases ty <;> rfl
  · cases cs <;> cases ty <;> rfl

/-- C14 at the inputs of the test: `0'a` gives 97. -/
theorem next_token_char_code_witness :
    next_token true 2 ⟨48 :: 39 :: 97 :: [48], false, [], token_type.TOKEN_NAME, []⟩ =
      tk.ok ⟨[48], false, [], token_type.TOKEN_NATURAL_NUMBER, lexical_cast ((97 : Nat) : Int)⟩ ∧
    next_token true 2 ⟨[48, 39, 92, 94, 103], false, [], token_type.TOKEN_NAME, []⟩ =
      tk.ok ⟨[], false, [], token_type.TOKEN_NATURAL_NUMBER, [55]⟩ ∧
    next_token true 2 ⟨[48, 39, 92, 120, 52, 49], false, [], token_type.TOKEN_NAME, []⟩ =
      tk.ok ⟨[], false, [], token_type.TOKEN_NATURAL_NUMBER, [49]⟩ ∧
    lexical_cast 65 = [54, 53] :=
  next_token_char_code true 2 97 [48] false [] token_type.TOKEN_NAME [] (by decide)
    (by decide) (by decide)


/-! ## C21: a base marker with no digits after it -/

/-- C21 (what the code does): `next_token` never ends with the
missing-number-after-base error, whatever the input.  For every run of digits
`ds` other than `0`, followed by a single quote and then by no alphanumeric
character, it returns a `TOKEN_NATURAL_NUMBER` whose lexeme is the digits and
the quote. -/
theorem next_token_no_missing_number_after_base (cs : Bool) (fuel : Nat) (ds rest : List Nat)
    (eof : Bool) (la : List Nat) (ty : token_type) (lex0 : List Nat)
    (hds : ∀ c ∈ ds, is_digit (c : Int) = true) (hne : ds ≠ []) (h0 : ds ≠ [48])
    (hrest : is_alpha (head_code rest) = false) (hfuel : ds.length < fuel) :
    next_token cs fuel ⟨ds ++ 39 :: rest, eof, la, ty, lex0⟩ =
      tk.ok ⟨rest, eof, la, token_type.TOKEN_NATURAL_NUMBER, ds ++ [39]⟩ ∧
    (∀ (cs1 : Bool) (fuel1 : Nat) (t : term_tokenizer),
      next_token cs1 fuel1 t ≠ tk.raise token_exception.missing_number_after_base) := by
  refine ⟨?_, fun cs1 fuel1 t =>
    next_token_never_raises cs1 fuel1 t _ (by decide) (by decide) (by decide)⟩
  have hstop : is_digit (head_code (39 :: rest)) = false := by
    simp [head_code_cons, is_digit]
  have hrun := next_digits_run ds (39 :: rest) fuel eof la
    token_type.TOKEN_NATURAL_NUMBER [] hds hstop hfuel
  cases ds with
  | nil => exact absurd rfl hne
  | cons d ds1 =>
    have hd : is_digit ((d : Nat) : Int) = true := hds d (List.mem_cons_self d ds1)
    have hfuel1 : 0 < fuel := by simp at hfuel; omega
    have halpha := next_xs_run is_alpha [] rest fuel eof la
      token_type.TOKEN_NATURAL_NUMBER (d :: ds1 ++ [39]) (by simp) hrest (by simpa using hfuel1)
    simp only [List.nil_append, List.append_nil] at halpha
    have hlex : ¬ (d :: ds1 ++ [39] = [48, 39]) := by
      intro h
      apply h0
      cases ds1 with
      | nil => simp at h; simp [h]
      | cons e ds2 =>
        cases ds2 with
        | nil => simp at h
        | cons e2 ds3 => simp at h
    unfold next_token
    simp only [reset, List.cons_append] at hrun ⊢
    rw [is_comment_begin_digit d _ eof la ty [] hd]
    simp only [Bool.false_eq_true, if_false, peek_char_eq, head_code_cons, hd, if_true,
      set_token_type, next_number, hrun]
    have h39 : ((39 : Nat) : Int) = 39 := rfl
    rw [if_pos h39, consume_next_char_cons 39 _ eof la _ _ (by omega)]
    simp only [List.nil_append]
    rw [if_neg hlex]
    exact halpha

/-- C21 at the input of the test, `11'`: a natural number with lexeme `11'`. -/
theorem next_token_no_missing_number_after_base_witness :
    next_token true 3 ⟨[49, 49, 39], false, [], token_type.TOKEN_NAME, []⟩ =
      tk.ok ⟨[], false, [], token_type.TOKEN_NATURAL_NUMBER, [49, 49, 39]⟩ ∧
    (∀ (cs1 : Bool) (fuel1 : Nat) (t : term_tokenizer),
      next_token cs1 fuel1 t ≠ tk.raise token_exception.missing_number_after_base) :=
  next_token_no_missing_number_after_base true 3 [49, 49] [] false [] token_type.TOKEN_NAME []
    (by decide) (by decide) (by decide) (by decide) (by decide)

/-! ## C22, C23, C24: the escapes with a character code -/

theorem hex_val_lt (c v : Nat) (h : hex_val c = some v) : v < 16 ∧ c < 256 := by
  unfold hex_val at h
  split at h
  · simp at h; omega
  · split at h
    · simp at h; omega
    · split at h
      · simp at h; omega
      · simp at h

theorem parse_hex_digit_val (c v : Nat) (r : List Nat) (eof : Bool) (la : List Nat)
    (ty : token_type) (lex : List Nat) (h : hex_val c = some v) :
    parse_hex_digit ⟨c :: r, eof, la, ty, lex⟩ = tk.ok (v, ⟨r, eof, la, ty, lex⟩) := by
  unfold hex_val at h
  unfold parse_hex_digit
  simp only [next_char]
  by_cases h1 : 48 ≤ c ∧ c ≤ 57
  · rw [if_pos h1] at h
    have e1 : ¬ ((97 : Int) ≤ (c : Int) ∧ (c : Int) ≤ 102) := by omega
    have e2 : ¬ ((65 : Int) ≤ (c : Int) ∧ (c : Int) ≤ 70) := by omega
    have e3 : (48 : Int) ≤ (c : Int) ∧ (c : Int) ≤ 57 := by omega
    rw [if_neg e1, if_neg e2, if_pos e3]
    simp only [Option.some.injEq] at h
    have : ((c : Int) - 48).toNat = v := by omega
    rw [this]
  · rw [if_neg h1] at h
    by_cases h2 : 97 ≤ c ∧ c ≤ 102
    · rw [if_pos h2] at h
      have e1 : (97 : Int) ≤ (c : Int) ∧ (c : Int) ≤ 102 := by omega
      rw [if_pos e1]
      simp only [Option.some.injEq] at h
      have : ((c : Int) - 97 + 10).toNat = v := by omega
      rw [this]
    · rw [if_neg h2] at h
      by_cases h3 : 65 ≤ c ∧ c ≤ 70
      · rw [if_pos h3] at h
        have e1 : ¬ ((97 : Int) ≤ (c : Int) ∧ (c : Int) ≤ 102) := by omega
        have e2 : (65 : Int) ≤ (c : Int) ∧ (c : Int) ≤ 70 := by omega
        rw [if_neg e1, if_pos e2]
        simp only [Option.some.injEq] at h
        have : ((c : Int) - 65 + 10).toNat = v := by omega
        rw [this]
      · rw [if_neg h3] at h
        simp at h

theorem to_char_shift_or (v1 v2 : Nat) (h2 : v2 < 16) :
    to_char (((v1 <<< 8) ||| v2 : Nat) : Int) = v2 := by
  have hor : (v1 <<< 8) ||| v2 = 2 ^ 8 * v1 + v2 := by
    rw [Nat.shiftLeft_eq, Nat.mul_comm]
    exact (Nat.mul_add_lt_is_or (by omega) v1).symm
  rw [hor]
  unfold to_char
  omega

theorem next_escape_sequence_hex (fuel : Nat) (h1 h2 v1 v2 : Nat) (rest : List Nat)
    (eof : Bool) (la : List Nat) (ty : token_type) (lex : List Nat)
    (hv1 : hex_val h1 = some v1) (hv2 : hex_val h2 = some v2) :
    next_escape_sequence fuel ⟨120 :: h1 :: h2 :: rest, eof, la, ty, lex⟩ =
      tk.ok ⟨rest, eof, la, ty, lex ++ [v2]⟩ := by
  unfold next_escape_sequence
  simp only [next_char, Nat.cast_ofNat, Int.reduceEq, if_false, if_true]
  rw [parse_hex_digit_val h1 v1 _ eof la ty lex hv1]
  simp only []
  rw [parse_hex_digit_val h2 v2 _ eof la ty lex hv2]
  simp only [add_to_lexeme, to_char_shift_or v1 v2 (hex_val_lt h2 v2 hv2).1]

/-- C22 (what the code does): for all hex digits `h1`, `h2` with values `v1`,
`v2`, the escape `\x h1 h2` appends exactly one character, and its code is `v2`,
the value of the second digit alone: the code computes `(v1 << 8) | v2` and cuts
it to a `char`.  That is the two-digit value `16 * v1 + v2` only when the first
digit is `0`.  In a quoted name and in a string `\x41` gives the character with
code 1, not 65. -/
theorem next_escape_sequence_hex_second_digit (fuel : Nat) (h1 h2 v1 v2 : Nat)
    (rest : List Nat) (eof : Bool) (la : List Nat) (ty : token_type) (lex : List Nat)
    (hv1 : hex_val h1 = some v1) (hv2 : hex_val h2 = some v2) :
    next_escape_sequence fuel ⟨120 :: h1 :: h2 :: rest, eof, la, ty, lex⟩ =
      tk.ok ⟨rest, eof, la, ty, lex ++ [v2]⟩ ∧
    (v2 = 16 * v1 + v2 ↔ v1 = 0) ∧
    next_token true 4 ⟨[39, 92, 120, 52, 49, 39], false, [], token_type.TOKEN_NAME, []⟩ =
      tk.ok ⟨[], false, [], token_type.TOKEN_NAME, [1]⟩ ∧
    next_token true 4 ⟨[34, 92, 120, 52, 49, 34], false, [], token_type.TOKEN_NAME, []⟩ =
      tk.ok ⟨[], false, [], token_type.TOKEN_STRING, [1]⟩ ∧
    hex_val 52 = some 4 ∧ hex_val 49 = some 1 :=
  ⟨next_escape_sequence_hex fuel h1 h2 v1 v2 rest eof la ty lex hv1 hv2, by omega,
   by decide, by decide, by decide, by decide⟩

/-- C22 at `\x41`: the character appended has code 1. -/
theorem next_escape_sequence_hex_second_digit_witness :
    next_escape_sequence 1 ⟨120 :: 52 :: 49 :: [39], false, [], token_type.TOKEN_NAME, [97]⟩ =
      tk.ok ⟨[39], false, [], token_type.TOKEN_NAME, [97, 1]⟩ ∧
    (1 = 16 * 4 + 1 ↔ 4 = 0) ∧
    next_token true 4 ⟨[39, 92, 120, 52, 49, 39], false, [], token_type.TOKEN_NAME, []⟩ =
      tk.ok ⟨[], false, [], token_type.TOKEN_NAME, [1]⟩ ∧
    next_token true 4 ⟨[34, 92, 120, 52, 49, 34], false, [], token_type.TOKEN_NAME, []⟩ =
      tk.ok ⟨[], false, [], token_type.TOKEN_STRING, [1]⟩ ∧
    hex_val 52 = some 4 ∧ hex_val 49 = some 1 :=
  next_escape_sequence_hex_second_digit 1 52 49 4 1 [39] false [] token_type.TOKEN_NAME [97]
    (by decide) (by decide)

theorem oct_step (v d : Nat) (hd : d < 8) : (v <<< 3) ||| d = 8 * v + d := by
  rw [Nat.shiftLeft_eq, Nat.mul_comm]
  exact (Nat.mul_add_lt_is_or (by omega) v).symm

theorem parse_oct_loop_digit (i v d : Nat) (r : List Nat) (eof : Bool) (la : List Nat)
    (ty : token_type) (lex : List Nat) (hd : is_oct_digit d = true) :
    parse_oct_loop (i + 1) v ⟨d :: r, eof, la, ty, lex⟩ =
      parse_oct_loop i (8 * v + (d - 48)) ⟨r, eof, la, ty, lex⟩ := by
  simp only [is_oct_digit, decide_eq_true_eq] at hd
  have e : (48 : Int) ≤ (d : Int) ∧ (d : Int) ≤ 55 := by omega
  have hn : ((d : Int) - 48).toNat = d - 48 := by omega
  simp only [parse_oct_loop, next_char]
  rw [if_pos e, hn, oct_step v (d - 48) (by omega)]

theorem parse_oct_loop_stop (i v x : Nat) (r : List Nat) (eof : Bool) (la : List Nat)
    (ty : token_type) (lex : List Nat) (hx : is_oct_digit x = false) :
    parse_oct_loop (i + 1) v ⟨x :: r, eof, la, ty, lex⟩ = (v, ⟨r, eof, la, ty, lex⟩) := by
  simp only [is_oct_digit, decide_eq_false_iff_not] at hx
  have e : ¬ ((48 : Int) ≤ (x : Int) ∧ (x : Int) ≤ 55) := by omega
  simp only [parse_oct_loop, next_char]
  rw [if_neg e]

theorem parse_oct_code_run (ds : List Nat) (x : Nat) (rest : List Nat) (eof : Bool)
    (la : List Nat) (ty : token_type) (lex : List Nat)
    (hds : ∀ d ∈ ds, is_oct_digit d = true) (hlen : ds.length ≤ 2)
    (hx : is_oct_digit x = false) :
    parse_oct_code ⟨ds ++ x :: rest, eof, la, ty, lex⟩ =
      (oct_val ds, ⟨rest, eof, la, ty, lex⟩) := by
  unfold parse_oct_code
  match ds, hds, hlen with
  | [], _, _ =>
    simp only [List.nil_append]
    rw [parse_oct_loop_stop 2 0 x rest eof la ty lex hx]
    rfl
  | [d2], hds, _ =>
    simp only [List.cons_append, List.nil_append]
    rw [parse_oct_loop_digit 2 0 d2 _ eof la ty lex (hds d2 (by simp)),
      parse_oct_loop_stop 1 _ x rest eof la ty lex hx]
    rfl
  | [d2, d3], hds, _ =>
    simp only [List.cons_append, List.nil_append]
    rw [parse_oct_loop_digit 2 0 d2 _ eof la ty lex (hds d2 (by simp)),
      parse_oct_loop_digit 1 _ d3 _ eof la ty lex (hds d3 (by simp)),
      parse_oct_loop_stop 0 _ x rest eof la ty lex hx]
    rfl
  | _ :: _ :: _ :: _, _, hlen => simp at hlen

theorem oct_val_lt (ds : List Nat) (hds : ∀ d ∈ ds, is_oct_digit d = true)
    (hlen : ds.length ≤ 2) : oct_val ds < 64 := by
  match ds, hds, hlen with
  | [], _, _ => simp [oct_val]
  | [d2], hds, _ =>
    have h2 := hds d2 (by simp)
    simp only [is_oct_digit, decide_eq_true_eq] at h2
    simp only [oct_val, List.foldl_cons, List.foldl_nil]
    omega
  | [d2, d3], hds, _ =>
    have h2 := hds d2 (by simp)
    have h3 := hds d3 (by simp)
    simp only [is_oct_digit, decide_eq_true_eq] at h2 h3
    simp only [oct_val, List.foldl_cons, List.foldl_nil]
    omega
  | _ :: _ :: _ :: _, _, hlen => simp at hlen

/-- C23 (what the code does): in the escape `\N`, with `N` an octal digit `d1`
followed by at most two more octal digits `ds` and then by a character `x` that
is no octal digit, exactly one character is appended, and its code is the octal
value of `ds`: the first digit is read by `next_escape_sequence` and dropped,
`parse_oct_code` reads the digits after it.  The character `x` that ends the
digits is taken from the input as well.  In the quoted name `'\101'` the closing
quote is taken so, and the name runs to the end of the input. -/
theorem next_escape_sequence_octal_drops_first_digit (fuel : Nat) (d1 : Nat) (ds : List Nat)
    (x : Nat) (rest : List Nat) (eof : Bool) (la : List Nat) (ty : token_type) (lex : List Nat)
    (hd1 : is_oct_digit d1 = true) (hds : ∀ d ∈ ds, is_oct_digit d = true)
    (hlen : ds.length ≤ 2) (hx : is_oct_digit x = false) :
    next_escape_sequence fuel ⟨d1 :: (ds ++ x :: rest), eof, la, ty, lex⟩ =
      tk.ok ⟨rest, eof, la, ty, lex ++ [oct_val ds]⟩ ∧
    next_token true 4 ⟨[39, 92, 49, 48, 49, 39], false, [], token_type.TOKEN_NAME, []⟩ =
      tk.ok ⟨[], true, [], token_type.TOKEN_NAME, [1, 255]⟩ ∧
    next_token true 4 ⟨[34, 92, 49, 48, 49, 98, 34], false, [], token_type.TOKEN_NAME, []⟩ =
      tk.ok ⟨[], false, [], token_type.TOKEN_STRING, [1]⟩ ∧
    oct_val [49, 48, 49] = 65 := by
  refine ⟨?_, by decide, by decide, by decide⟩
  simp only [is_oct_digit, decide_eq_true_eq] at hd1
  unfold next_escape_sequence
  simp only [next_char]
  have n1 : ¬ ((d1 : Int) = 98) := by omega
  have n2 : ¬ ((d1 : Int) = 116) := by omega
  have n3 : ¬ ((d1 : Int) = 110) := by omega
  have n4 : ¬ ((d1 : Int) = 118) := by omega
  have n5 : ¬ ((d1 : Int) = 102) := by omega
  have n6 : ¬ ((d1 : Int) = 114) := by omega
  have n7 : ¬ ((d1 : Int) = 101) := by omega
  have n8 : ¬ ((d1 : Int) = 100) := by omega
  have n9 : ¬ ((d1 : Int) = 97) := by omega
  have n10 : ¬ ((d1 : Int) = 120) := by omega
  have n11 : ¬ ((d1 : Int) = 99) := by omega
  have n12 : ¬ ((d1 : Int) = 94) := by omega
  have p : (48 : Int) ≤ (d1 : Int) ∧ (d1 : Int) ≤ 55 := by omega
  rw [if_neg n1, if_neg n2, if_neg n3, if_neg n4, if_neg n5, if_neg n6, if_neg n7, if_neg n8,
    if_neg n9, if_neg n10, if_neg n11, if_neg n12, if_pos p,
    parse_oct_code_run ds x rest eof la ty lex hds hlen hx]
  simp only [add_to_lexeme]
  rw [to_char_of_lt _ (by have := oct_val_lt ds hds hlen; omega)]

/-- C23 at `\101` followed by `b`: the character appended has code 1, and `b`
is gone from the input. -/
theorem next_escape_sequence_octal_drops_first_digit_witness :
    next_escape_sequence 1
        ⟨49 :: ([48, 49] ++ 98 :: [39]), false, [], token_type.TOKEN_NAME, []⟩ =
      tk.ok ⟨[39], false, [], token_type.TOKEN_NAME, [1]⟩ ∧
    next_token true 4 ⟨[39, 92, 49, 48, 49, 39], false, [], token_type.TOKEN_NAME, []⟩ =
      tk.ok ⟨[], true, [], token_type.TOKEN_NAME, [1, 255]⟩ ∧
    next_token true 4 ⟨[34, 92, 49, 48, 49, 98, 34], false, [], token_type.TOKEN_NAME, []⟩ =
      tk.ok ⟨[], false, [], token_type.TOKEN_STRING, [1]⟩ ∧
    oct_val [49, 48, 49] = 65 :=
  next_escape_sequence_octal_drops_first_digit 1 49 [48, 49] 98 [39] false []
    token_type.TOKEN_NAME [] (by decide) (by decide) (by decide) (by decide)

/-- C24: the control escape `\^C` appends exactly one character: the one with
code 127 when `C` is `?`, and the one with code `C mod 32` when `C` is a capital
or a small letter (`\^Z` gives 26, `\^a` gives 1).  The quoted name of the test,
`'\^?\^Z\^a'`, has the lexeme 127, 26, 1. -/
theorem next_escape_sequence_control (fuel : Nat) (c : Nat) (rest : List Nat) (eof : Bool)
    (la : List Nat) (ty : token_type) (lex : List Nat)
    (hc : c = 63 ∨ is_capital_letter (c : Int) = true ∨ is_small_letter (c : Int) = true) :
    next_escape_sequence fuel ⟨94 :: c :: rest, eof, la, ty, lex⟩ =
      tk.ok ⟨rest, eof, la, ty, lex ++ [if c = 63 then 127 else c % 32]⟩ ∧
    next_token true 5
        ⟨[39, 92, 94, 63, 92, 94, 90, 92, 94, 97, 39, 9], false, [], token_type.TOKEN_NAME, []⟩ =
      tk.ok ⟨[9], false, [], token_type.TOKEN_NAME, [127, 26, 1]⟩ := by
  refine ⟨?_, by decide⟩
  unfold next_escape_sequence
  simp only [next_char, Nat.cast_ofNat, Int.reduceEq, if_false, if_true]
  by_cases h63 : c = 63
  · subst h63
    simp [add_to_lexeme, to_char]
  · have h63i : ¬ ((c : Int) = 63) := by omega
    rw [if_neg h63i, if_neg h63]
    rcases hc with h | h | h
    · exact absurd h h63
    · rw [if_pos h]
      simp only [is_capital_letter, decide_eq_true_eq] at h
      have : to_char (((c : Int) - 65 + 1) % 32) = c % 32 := by
        unfold to_char
        omega
      simp only [add_to_lexeme, this]
    · by_cases hcap : is_capital_letter (c : Int) = true
      · rw [if_pos hcap]
        simp only [is_capital_letter, decide_eq_true_eq] at hcap
        have : to_char (((c : Int) - 65 + 1) % 32) = c % 32 := by
          unfold to_char
          omega
        simp only [add_to_lexeme, this]
      · rw [if_neg hcap, if_pos h]
        simp only [is_small_letter, decide_eq_true_eq] at h
        have : to_char (((c : Int) - 97 + 1) % 32) = c % 32 := by
          unfold to_char
          omega
        simp only [add_to_lexeme, this]

/-- C24 at `\^Z`: the character appended has code 26. -/
theorem next_escape_sequence_control_witness :
    next_escape_sequence 1 ⟨94 :: 90 :: [39], false, [], token_type.TOKEN_NAME, []⟩ =
      tk.ok ⟨[39], false, [], token_type.TOKEN_NAME, [26]⟩ ∧
    next_token true 5
        ⟨[39, 92, 94, 63, 92, 94, 90, 92, 94, 97, 39, 9], false, [], token_type.TOKEN_NAME, []⟩ =
      tk.ok ⟨[9], false, [], token_type.TOKEN_NAME, [127, 26, 1]⟩ :=
  next_escape_sequence_control 1 90 [39] false [] token_type.TOKEN_NAME [] (by decide)

/-! ## C25: doubled quotes -/

theorem next_token_quote_start (cs : Bool) (fuel : Nat) (r : List Nat) (eof : Bool)
    (la : List Nat) (ty : token_type) (lex0 : List Nat) :
    next_token cs fuel ⟨39 :: r, eof, la, ty, lex0⟩ =
      next_quoted_name fuel ⟨39 :: r, eof, la, token_type.TOKEN_NAME, []⟩ := by
  unfold next_token
  simp only [reset]
  rw [is_comment_begin_cons]
  simp [peek_char_eq, head_code_cons, set_token_type, is_digit]

theorem next_token_dquote_start (cs : Bool) (fuel : Nat) (r : List Nat) (eof : Bool)
    (la : List Nat) (ty : token_type) (lex0 : List Nat) :
    next_token cs fuel ⟨34 :: r, eof, la, ty, lex0⟩ =
      next_string fuel ⟨34 :: r, eof, la, token_type.TOKEN_STRING, []⟩ := by
  unfold next_token
  simp only [reset]
  rw [is_comment_begin_cons]
  simp [peek_char_eq, head_code_cons, set_token_type, is_digit, is_small_letter,
    is_capital_letter, is_underline_char, is_layout_char, is_symbol_char, is_solo_char,
    is_punctuation_char]

theorem quoted_name_loop_plain (f : Nat) (u r : List Nat) (n : Nat) (la : List Nat)
    (ty : token_type) (lex : List Nat)
    (hu : ∀ c ∈ u, c < 256 ∧ c ≠ 39 ∧ c ≠ 92) :
    quoted_name_loop f (u.length + n) ⟨u ++ r, false, la, ty, lex⟩ =
      quoted_name_loop f n ⟨r, false, la, ty, lex ++ u⟩ := by
  induction u generalizing lex with
  | nil => simp
  | cons c u ih =>
    have hc := hu c (List.mem_cons_self c u)
    have e : u.length + 1 + n = (u.length + n) + 1 := by omega
    have n39 : ¬ ((c : Int) = 39) := by omega
    have n92 : (c : Int) ≠ 92 := by omega
    simp only [List.length_cons, List.cons_append]
    rw [e, quoted_name_loop]
    simp only [is_eof, Bool.not_false, if_true, next_char]
    rw [if_neg n39, if_pos n92]
    simp only [add_to_lexeme, to_char_of_lt c hc.1]
    rw [ih (lex ++ [c]) (fun d hd => hu d (List.mem_cons_of_mem c hd))]
    simp

theorem string_loop_plain (f : Nat) (u r : List Nat) (n : Nat) (la : List Nat)
    (ty : token_type) (lex : List Nat)
    (hu : ∀ c ∈ u, c < 256 ∧ c ≠ 34 ∧ c ≠ 92) :
    string_loop f (u.length + n) ⟨u ++ r, false, la, ty, lex⟩ =
      string_loop f n ⟨r, false, la, ty, lex ++ u⟩ := by
  induction u generalizing lex with
  | nil => simp
  | cons c u ih =>
    have hc := hu c (List.mem_cons_self c u)
    have e : u.length + 1 + n = (u.length + n) + 1 := by omega
    have n34 : ¬ ((c : Int) = 34) := by omega
    have n92 : ¬ ((c : Int) = 92) := by omega
    simp only [List.length_cons, List.cons_append]
    rw [e, string_loop]
    simp only [next_char]
    rw [if_neg n34, if_neg n92]
    simp only [is_eof, Bool.false_eq_true, if_false, add_to_lexeme, to_char_of_lt c hc.1]
    rw [ih (lex ++ [c]) (fun d hd => hu d (List.mem_cons_of_mem c hd))]
    simp

theorem string_loop_dquote (f n : Nat) (r : List Nat) (la : List Nat) (ty : token_type)
    (lex : List Nat) :
    string_loop f (n + 1) ⟨34 :: 34 :: r, false, la, ty, lex⟩ =
      string_loop f n ⟨r, false, la, ty, lex ++ [34]⟩ := by
  rw [string_loop]
  simp only [next_char, Nat.cast_ofNat, if_true, peek_char_eq, head_code_cons]
  rw [consume_next_char_cons 34 r false la ty lex (by omega)]

theorem string_loop_close (f n : Nat) (r : List Nat) (la : List Nat) (ty : token_type)
    (lex : List Nat) (hr : head_code r ≠ 34) :
    string_loop f (n + 1) ⟨34 :: r, false, la, ty, lex⟩ = tk.ok ⟨r, false, la, ty, lex⟩ := by
  rw [string_loop]
  simp only [next_char, Nat.cast_ofNat, if_true, peek_char_eq]
  rw [if_neg hr]

theorem quoted_name_loop_quote_quote (f n : Nat) (r : List Nat) (la : List Nat)
    (ty : token_type) (lex : List Nat) :
    quoted_name_loop f (n + 1) ⟨39 :: 39 :: r, false, la, ty, lex⟩ =
      quoted_name_loop f n ⟨39 :: r, false, la, ty, lex ++ [39]⟩ := by
  rw [quoted_name_loop]
  simp only [is_eof, Bool.not_false, if_true, next_char, Nat.cast_ofNat, peek_char_eq,
    head_code_cons, add_to_lexeme]
  rfl

theorem quoted_name_loop_close (f n : Nat) (r : List Nat) (la : List Nat) (ty : token_type)
    (lex : List Nat) (hr : head_code r ≠ 39) :
    quoted_name_loop f (n + 1) ⟨39 :: r, false, la, ty, lex⟩ =
      tk.ok ⟨r, false, la, ty, lex⟩ := by
  rw [quoted_name_loop]
  simp only [is_eof, Bool.not_false, if_true, next_char, Nat.cast_ofNat, peek_char_eq]
  rw [if_neg hr]

/-- C25 (what the code does): for all texts `u` and `v` of characters other than
the two quotes and the backslash, the string `"u""v"` is returned as one
`TOKEN_STRING` with lexeme `u"v`.  The quoted name `'u''v'` is not returned as
one token with lexeme `u'v`: `next_quoted_name` appends a quote for the first
quote of the pair and leaves the second one in the input, where it is read as
the closing quote.  The token is a `TOKEN_NAME` with lexeme `u'`, and `v'` is left
unread; when `v` is empty the lexeme is `u''`. -/
theorem next_token_doubled_quote (cs : Bool) (fuel : Nat) (u v rest : List Nat)
    (la : List Nat) (ty : token_type) (lex0 : List Nat)
    (hu : ∀ c ∈ u, c < 256 ∧ c ≠ 39 ∧ c ≠ 34 ∧ c ≠ 92)
    (hv : ∀ c ∈ v, c < 256 ∧ c ≠ 39 ∧ c ≠ 34 ∧ c ≠ 92)
    (hrest : head_code rest ≠ 34 ∧ head_code rest ≠ 39)
    (hfuel : u.length + v.length + 3 ≤ fuel) :
    next_token cs fuel ⟨34 :: (u ++ 34 :: 34 :: (v ++ 34 :: rest)), false, la, ty, lex0⟩ =
      tk.ok ⟨rest, false, la, token_type.TOKEN_STRING, u ++ 34 :: v⟩ ∧
    next_token cs fuel ⟨39 :: (u ++ 39 :: 39 :: (v ++ 39 :: rest)), false, la, ty, lex0⟩ =
      (if v = [] then tk.ok ⟨rest, false, la, token_type.TOKEN_NAME, u ++ [39, 39]⟩
       else tk.ok ⟨v ++ 39 :: rest, false, la, token_type.TOKEN_NAME, u ++ [39]⟩) := by
  constructor
  · obtain ⟨k, hk⟩ : ∃ k, fuel = u.length + ((v.length + (k + 1)) + 1) :=
      ⟨fuel - (u.length + v.length + 2), by omega⟩
    rw [next_token_dquote_start, next_string]
    simp only [next_char]
    have h1 := string_loop_plain fuel u (34 :: 34 :: (v ++ 34 :: rest))
      ((v.length + (k + 1)) + 1) la token_type.TOKEN_STRING []
      (fun c hc => ⟨(hu c hc).1, (hu c hc).2.2.1, (hu c hc).2.2.2⟩)
    have h2 := string_loop_plain fuel v (34 :: rest) (k + 1) la token_type.TOKEN_STRING
      (u ++ [34]) (fun c hc => ⟨(hv c hc).1, (hv c hc).2.2.1, (hv c hc).2.2.2⟩)
    rw [← hk] at h1
    rw [h1, string_loop_dquote, List.nil_append, h2, string_loop_close _ _ _ _ _ _ hrest.1]
    simp
  · obtain ⟨k, hk⟩ : ∃ k, fuel = u.length + (k + 3) := ⟨fuel - (u.length + 3), by omega⟩
    rw [next_token_quote_start, next_quoted_name]
    simp only [next_char, Nat.cast_ofNat, ne_eq, not_true_eq_false, if_false]
    have h1 := quoted_name_loop_plain fuel u (39 :: 39 :: (v ++ 39 :: rest)) (k + 3) la
      token_type.TOKEN_NAME [] (fun c hc => ⟨(hu c hc).1, (hu c hc).2.1, (hu c hc).2.2.2⟩)
    rw [← hk] at h1
    rw [h1, quoted_name_loop_quote_quote, List.nil_append]
    cases v with
    | nil =>
      simp only [List.nil_append, if_true]
      rw [quoted_name_loop_quote_quote, quoted_name_loop_close _ _ _ _ _ _ hrest.2]
      simp
    | cons c v1 =>
      have hc := hv c (List.mem_cons_self c v1)
      have hne : head_code (c :: v1 ++ 39 :: rest) ≠ 39 := by
        simp only [List.cons_append, head_code_cons]
        omega
      rw [quoted_name_loop_close _ _ _ _ _ _ hne]
      simp

/-- C25 at `u` = `a`, `v` = `b`: the string `"a""b"` has the lexeme `a"b`; of the
quoted name `'a''b'` the token is `a'`, and `b'` is left in the input. -/
theorem next_token_doubled_quote_witness :
    next_token true 5 ⟨[34, 97, 34, 34, 98, 34], false, [],
        token_type.TOKEN_NAME, []⟩ =
      tk.ok ⟨[], false, [], token_type.TOKEN_STRING, [97, 34, 98]⟩ ∧
    next_token true 5 ⟨[39, 97, 39, 39, 98, 39], false, [],
        token_type.TOKEN_NAME, []⟩ =
      tk.ok ⟨[98, 39], false, [], token_type.TOKEN_NAME, [97, 39]⟩ :=
  next_token_doubled_quote true 5 [97] [98] [] [] token_type.TOKEN_NAME []
    (by decide) (by decide) (by decide) (by decide)

/-! ## C26: the full stop -/

theorem next_token_dot_start (cs : Bool) (fuel : Nat) (r : List Nat) (eof : Bool)
    (la : List Nat) (ty : token_type) (lex0 : List Nat) :
    next_token cs fuel ⟨46 :: r, eof, la, ty, lex0⟩ =
      tk.ok ⟨r, eof, la, token_type.TOKEN_FULL_STOP, [46]⟩ := by
  unfold next_token
  simp only [reset]
  rw [is_comment_begin_cons]
  simp [peek_char_eq, head_code_cons, set_token_type, is_digit, is_small_letter,
    is_capital_letter, is_underline_char, is_layout_char, is_symbol_char, is_solo_char,
    is_punctuation_char, is_full_stop_char, next_full_stop, consume_next_char, next_char,
    add_to_lexeme, to_char]

/-- C26 (what the code does): a `.` at the start of a token is returned as a
`TOKEN_FULL_STOP` with lexeme `.` whatever follows it: `is_full_stop` looks at
the `.` alone, not at the character after it.  On `.+` and on `.a` the token is
a full stop, and on `=..` the symbol run ends before the first `.`: the token
is the `TOKEN_NAME` with lexeme `=`, and the two `.` are left in the input. -/
theorem next_token_full_stop_any_follower :
    (∀ (cs : Bool) (fuel : Nat) (r : List Nat) (eof : Bool) (la : List Nat) (ty : token_type)
        (lex0 : List Nat),
      next_token cs fuel ⟨46 :: r, eof, la, ty, lex0⟩ =
        tk.ok ⟨r, eof, la, token_type.TOKEN_FULL_STOP, [46]⟩) ∧
    next_token true 3 ⟨[46, 43], false, [], token_type.TOKEN_NAME, []⟩ =
      tk.ok ⟨[43], false, [], token_type.TOKEN_FULL_STOP, [46]⟩ ∧
    is_symbol_char 43 = true ∧
    next_token true 3 ⟨[46, 97], false, [], token_type.TOKEN_NAME, []⟩ =
      tk.ok ⟨[97], false, [], token_type.TOKEN_FULL_STOP, [46]⟩ ∧
    next_token true 3 ⟨[61, 46, 46], false, [], token_type.TOKEN_NAME, []⟩ =
      tk.ok ⟨[46, 46], false, [], token_type.TOKEN_NAME, [61]⟩ :=
  ⟨next_token_dot_start, by decide, by decide, by decide, by decide⟩

/-! ## C27: the symbol characters -/

set_option maxRecDepth 100000 in
theorem symbol_chars_text_eq : symbol_chars_text = symbol_chars_expected := by
  decide

/-- C27: for every integer `c` with `0 ≤ c < 500`, `is_symbol_char c` is true
exactly when `c` is one of 35, 36, 38, 42, 43, 45..47, 58, 60..64, 92, 94, 96,
126, 160..191, 215, 247; and the loop of `test_is_symbol_char()` builds the text
the test expects. -/
theorem is_symbol_char_exact_set (c : Int) (h0 : 0 ≤ c) (h1 : c < 500) :
    (is_symbol_char c = true ↔
      c ∈ ([35, 36, 38, 42, 43, 45, 46, 47, 58, 60, 61, 62, 63, 64, 92, 94, 96, 126] ++
        (List.range 32).map (fun i => ((160 + i : Nat) : Int)) ++ [215, 247] : List Int)) ∧
    symbol_chars_text = symbol_chars_expected := by
  refine ⟨?_, symbol_chars_text_eq⟩
  have hmem : ∀ x : Int, x ∈ (List.range 32).map (fun i => ((160 + i : Nat) : Int)) ↔
      (160 ≤ x ∧ x ≤ 191) := by
    intro x
    simp only [List.mem_map, List.mem_range]
    constructor
    · rintro ⟨i, hi, rfl⟩
      omega
    · intro hx
      exact ⟨(x - 160).toNat, by omega, by omega⟩
  simp only [is_symbol_char, decide_eq_true_eq, List.mem_append, hmem, List.mem_cons,
    List.mem_singleton, List.not_mem_nil, or_false]
  omega

/-- C27 at the code 46 of the full stop, which is a symbol character. -/
theorem is_symbol_char_exact_set_witness :
    (is_symbol_char 46 = true ↔
      (46 : Int) ∈ ([35, 36, 38, 42, 43, 45, 46, 47, 58, 60, 61, 62, 63, 64, 92, 94, 96, 126] ++
        (List.range 32).map (fun i => ((160 + i : Nat) : Int)) ++ [215, 247] : List Int)) ∧
    symbol_chars_text = symbol_chars_expected :=
  is_symbol_char_exact_set 46 (by decide) (by decide)

/-! ## C29: the order in which `unify` binds the arguments -/

theorem arg_pairs_of_args (h : List cell) (a b : cell) (A B : List cell) (k : Nat)
    (hkA : k ≤ A.length) (hkB : k ≤ B.length)
    (hA : ∀ i, i < k → arg h a i = A[i]?) (hB : ∀ i, i < k → arg h b i = B[i]?) :
    arg_pairs h a b k = some ((A.take k).zip (B.take k)) := by
  induction k with
  | zero => simp [arg_pairs]
  | succ r ih =>
    have ha : arg h a r = some (A[r]) := by
      rw [hA r (by omega), List.getElem?_eq_getElem]
    have hb : arg h b r = some (B[r]) := by
      rw [hB r (by omega), List.getElem?_eq_getElem]
    have hrec := ih (by omega) (by omega) (fun i hi => hA i (by omega))
      (fun i hi => hB i (by omega))
    rw [arg_pairs, ha, hb]
    simp only [hrec, Option.map_some']
    have eA : A.take (r + 1) = A.take r ++ [A[r]] := by
      rw [List.take_succ, List.getElem?_eq_getElem (by omega)]; rfl
    have eB : B.take (r + 1) = B.take r ++ [B[r]] := by
      rw [List.take_succ, List.getElem?_eq_getElem (by omega)]; rfl
    rw [eA, eB, List.zip_append (by simp; omega)]
    rfl

theorem unify_pairs_nil (m : Nat) (s : term_env_impl) :
    unify_pairs m s [] = some (true, s, []) := by
  cases m <;> simp [unify_pairs]

theorem unify_pairs_bind_run (xs : List Nat) (cs : List cell) (s : term_env_impl)
    (P : List (cell × cell)) (m : Nat) (hlen : cs.length = xs.length)
    (hx : ∀ x ∈ xs, s.heap_[x]? = some (cell.REF x) ∧ x < s.register_hb_)
    (hnd : xs.Nodup) (hc : ∀ c ∈ cs, c.tag = tag_t.CON ∨ c.tag = tag_t.INT) :
    ∃ s1, unify_pairs (xs.length + m) s ((xs.map cell.REF).zip cs ++ P) = unify_pairs m s1 P ∧
      s1.trail_ = s.trail_ ++ xs ∧ s1.stack_ = s.stack_ ∧
      s1.register_hb_ = s.register_hb_ ∧ s1.register_h_ = s.register_h_ ∧
      (∀ (i x : Nat) (c : cell), xs[i]? = some x → cs[i]? = some c → s1.heap_[x]? = some c) ∧
      (∀ j, j ∉ xs → s1.heap_[j]? = s.heap_[j]?) := by
  induction xs generalizing cs s with
  | nil =>
    cases cs with
    | nil => exact ⟨s, by simp, by simp, rfl, rfl, rfl, by simp, fun _ _ => rfl⟩
    | cons c cs => simp at hlen
  | cons x xs ih =>
    cases cs with
    | nil => simp at hlen
    | cons c cs =>
      have hxx := hx x (List.mem_cons_self x xs)
      have hcc := hc c (List.mem_cons_self c cs)
      have hxlt : x < s.heap_.length := (List.getElem?_eq_some_iff.mp hxx.1).1
      have hctag : c.tag ≠ tag_t.REF := by
        rcases hcc with h | h <;> rw [h] <;> decide
      have hne : cell.REF x ≠ c := by
        intro h
        apply hctag
        rw [← h]
        rfl
      have hnd1 : x ∉ xs ∧ xs.Nodup := List.nodup_cons.mp hnd
      have hstep : unify_pairs (xs.length + m + 1) s
          ((cell.REF x, c) :: ((xs.map cell.REF).zip cs ++ P)) =
          unify_pairs (xs.length + m) ⟨s.heap_.set x c, s.register_hb_, s.register_h_,
            s.stack_, s.trail_ ++ [x]⟩ ((xs.map cell.REF).zip cs ++ P) := by
        rw [unify_pairs]
        have hd1 : deref s.heap_ (xs.length + m + 1) (cell.REF x) = some (cell.REF x) := by
          simp [deref, hxx.1]
        rw [hd1, deref_nonref s.heap_ _ c hctag]
        have htagx : (cell.REF x).tag = tag_t.REF := rfl
        have hcond : ¬ (c.tag = tag_t.REF ∧ (cell.REF x).index < c.index) := fun h => hctag h.1
        simp only []
        rw [if_neg hne, if_pos htagx, if_neg hcond]
        simp [bind, hxlt, trail, push_trail, hxx.2]
      obtain ⟨s1, h1, h2, h3, h4, h5, h6, h7⟩ := ih cs
        ⟨s.heap_.set x c, s.register_hb_, s.register_h_, s.stack_, s.trail_ ++ [x]⟩
        (by simpa using hlen)
        (by
          intro y hy
          have hyx : x ≠ y := fun h => hnd1.1 (h ▸ hy)
          have := hx y (List.mem_cons_of_mem x hy)
          simp only [List.getElem?_set_ne hyx]
          exact this)
        hnd1.2 (fun d hd => hc d (List.mem_cons_of_mem c hd))
      refine ⟨s1, ?_, ?_, h3, h4, h5, ?_, ?_⟩
      · have e : (x :: xs).length + m = xs.length + m + 1 := by simp; omega
        rw [e]
        simp only [List.map_cons, List.zip_cons_cons, List.cons_append]
        rw [hstep, h1]
      · rw [h2]; simp
      · intro i y d hy hd
        cases i with
        | zero =>
          simp only [List.getElem?_cons_zero, Option.some.injEq] at hy hd
          subst hy; subst hd
          rw [h7 x hnd1.1]
          simp [hxlt]
        | succ i =>
          simp only [List.getElem?_cons_succ] at hy hd
          exact h6 i y d hy hd
      · intro j hj
        have hjx : x ≠ j := fun h => hj (h ▸ List.mem_cons_self x xs)
        have hjxs : j ∉ xs := fun h => hj (List.mem_cons_of_mem x h)
        rw [h7 j hjxs]
        simp only [List.getElem?_set_ne hjx]

/-- C29: let `f(X1, ..., Xn)` and `f(c1, ..., cn)` be two compounds with the same
functor, the arguments of the first being distinct unbound variables with the
indices `xs` below the heap boundary `register_h_`, those of the second
constants `cs`.  Then `unify` returns true, the indices it appends to the trail
are `xs` in the order of the arguments, and every `Xi` is bound to `ci`. -/
theorem unify_trails_arguments_in_order (fuel : Nat) (s : term_env_impl) (pa pb f : Nat)
    (xs : List Nat) (cs : List cell)
    (hfa : functor s.heap_ (cell.STR pa) = some (cell.CON f xs.length))
    (hfb : functor s.heap_ (cell.STR pb) = some (cell.CON f xs.length))
    (hlen : cs.length = xs.length)
    (hA : ∀ i, i < xs.length → arg s.heap_ (cell.STR pa) i = (xs.map cell.REF)[i]?)
    (hB : ∀ i, i < xs.length → arg s.heap_ (cell.STR pb) i = cs[i]?)
    (hx : ∀ x ∈ xs, s.heap_[x]? = some (cell.REF x) ∧ x < s.register_h_)
    (hnd : xs.Nodup)
    (hc : ∀ c ∈ cs, c.tag = tag_t.CON ∨ c.tag = tag_t.INT)
    (hfuel : xs.length < fuel) :
    ∃ s1, unify fuel s (cell.STR pa) (cell.STR pb) = some (true, s1) ∧
      s1.trail_ = s.trail_ ++ xs ∧
      (∀ (i x : Nat) (c : cell), xs[i]? = some x → cs[i]? = some c → s1.heap_[x]? = some c) := by
  obtain ⟨m, hm⟩ : ∃ m, fuel = xs.length + m + 1 := ⟨fuel - xs.length - 1, by omega⟩
  subst hm
  obtain ⟨sf, h1, h2, h3, h4, h5, h6, _⟩ := unify_pairs_bind_run xs cs
    { s with register_hb_ := s.register_h_ } [] m hlen hx hnd hc
  rw [unify_pairs_nil] at h1
  have hL := arg_pairs_of_args s.heap_ (cell.STR pa) (cell.STR pb) (xs.map cell.REF) cs
    xs.length (by simp) (by omega) hA hB
  have hzip : ((xs.map cell.REF).take xs.length).zip (cs.take xs.length) =
      (xs.map cell.REF).zip cs := by
    rw [List.take_of_length_le (by simp), List.take_of_length_le (by omega)]
  rw [hzip] at hL
  have hpairs : unify_pairs (xs.length + m + 1) { s with register_hb_ := s.register_h_ }
      [(cell.STR pa, cell.STR pb)] = some (true, sf, []) := by
    rw [unify_pairs]
    rw [deref_nonref _ _ (cell.STR pa) (by simp [cell.tag]),
      deref_nonref _ _ (cell.STR pb) (by simp [cell.tag])]
    simp only []
    by_cases hab : cell.STR pa = cell.STR pb
    · rw [if_pos hab]
      have hxs : xs = [] := by
        cases xs with
        | nil => rfl
        | cons x xs1 =>
          exfalso
          cases cs with
          | nil => simp at hlen
          | cons c cs1 =>
            have e1 := hA 0 (by simp)
            have e2 := hB 0 (by simp)
            rw [hab] at e1
            rw [e1] at e2
            simp only [List.map_cons, List.getElem?_cons_zero, Option.some.injEq] at e2
            have := hc c (List.mem_cons_self c cs1)
            rw [← e2] at this
            rcases this with h | h <;> simp [cell.tag] at h
      subst hxs
      simp only [List.map_nil, List.zip_nil_left, List.nil_append, List.length_nil,
        Nat.zero_add] at h1 ⊢
      rw [unify_pairs_nil] at h1 ⊢
      exact h1
    · rw [if_neg hab]
      have t1 : ¬ ((cell.STR pa).tag = tag_t.REF) := by simp [cell.tag]
      have t2 : ¬ ((cell.STR pb).tag = tag_t.REF) := by simp [cell.tag]
      have t3 : ¬ ((cell.STR pa).tag ≠ (cell.STR pb).tag) := by simp [cell.tag]
      have t4 : ¬ ((cell.STR pa).tag ≠ tag_t.STR) := by simp [cell.tag]
      rw [if_neg t1, if_neg t2, if_neg t3, if_neg t4]
      simp only [hfa, hfb, ne_eq, not_true_eq_false, if_false, cell.arity, hL]
      rw [List.append_nil]
      simpa using h1
  have he := unify_helper_eq (xs.length + m + 1) { s with register_hb_ := s.register_h_ }
    (cell.STR pa) (cell.STR pb)
  rw [hpairs] at he
  simp only [Option.map_some', flat, List.nil_append] at he
  refine ⟨{ sf with stack_ := s.stack_, register_hb_ := s.register_hb_ }, ?_, h2, h6⟩
  simp only [unify, he]

/-- C29 at `ex_fxy_f5a`: `f(X1, X2)` against `f(5, a)`, with `X1` at slot 7 and
`X2` at slot 6; the trail grows by 7, then 6. -/
theorem unify_trails_arguments_in_order_witness :
    ∃ s1, unify 3 ex_fxy_f5a (cell.STR 0) (cell.STR 3) = some (true, s1) ∧
      s1.trail_ = ex_fxy_f5a.trail_ ++ [7, 6] ∧
      (∀ (i x : Nat) (c : cell), ([7, 6] : List Nat)[i]? = some x →
        [cell.INT 5, cell.CON 9 0][i]? = some c → s1.heap_[x]? = some c) :=
  unify_trails_arguments_in_order 3 ex_fxy_f5a 0 3 7 [7, 6] [cell.INT 5, cell.CON 9 0]
    (by decide) (by decide) (by decide) (by decide) (by decide) (by decide) (by decide)
    (by decide) (by decide)

/-! ## C30: `unwind_trail` and `trim_trail` -/

theorem unwind_loop_mid (t pre post : List Nat) (s : term_env_impl)
    (hs : s.trail_ = pre ++ t ++ post) (hb : ∀ j ∈ t, j < s.heap_.length) :
    unwind_loop t.length pre.length s = some { s with heap_ := reset_slots t s.heap_ } := by
  induction t generalizing pre s with
  | nil => simp [unwind_loop, reset_slots]
  | cons j t ih =>
    have hj : j < s.heap_.length := hb j (List.mem_cons_self j t)
    have hget : s.trail_[pre.length]? = some j := by
      rw [hs, List.append_assoc, List.getElem?_append_right (le_refl _)]; simp
    simp only [List.length_cons, unwind_loop, hget, hj, if_true]
    have := ih (pre ++ [j]) { s with heap_ := s.heap_.set j (cell.REF j) }
      (by simp [hs])
      (by intro i hi; simp only [List.length_set]; exact hb i (List.mem_cons_of_mem j hi))
    simp only [List.length_append, List.length_singleton] at this
    rw [this]
    simp [reset_slots]

theorem trail_split (l : List Nat) (from_ to_ : Nat) (h1 : from_ ≤ to_) (h2 : to_ ≤ l.length) :
    l = l.take from_ ++ (l.take to_).drop from_ ++ l.drop to_ ∧
      (l.take from_).length = from_ ∧ ((l.take to_).drop from_).length = to_ - from_ := by
  refine ⟨?_, ?_, ?_⟩
  · have e1 : l.take from_ = (l.take to_).take from_ := by
      rw [List.take_take, Nat.min_eq_left h1]
    rw [e1, List.take_append_drop, List.take_append_drop]
  · rw [List.length_take]; omega
  · rw [List.length_drop, List.length_take]; omega

theorem mem_slice_iff (l : List Nat) (from_ to_ j : Nat) :
    j ∈ (l.take to_).drop from_ ↔ ∃ k, from_ ≤ k ∧ k < to_ ∧ l[k]? = some j := by
  rw [List.mem_iff_getElem?]
  constructor
  · rintro ⟨n, hn⟩
    rw [List.getElem?_drop, List.getElem?_take] at hn
    by_cases hlt : from_ + n < to_
    · rw [if_pos hlt] at hn
      exact ⟨from_ + n, by omega, hlt, hn⟩
    · rw [if_neg hlt] at hn
      exact absurd hn (by simp)
  · rintro ⟨k, hk1, hk2, hk⟩
    refine ⟨k - from_, ?_⟩
    rw [List.getElem?_drop, List.getElem?_take]
    have e : from_ + (k - from_) = k := by omega
    rw [e, if_pos hk2]
    exact hk

/-- C30: for `from ≤ to ≤ trail_depth()`, with the trail entries `trail_[k]`,
`from ≤ k < to`, indexing heap slots, `unwind_trail(from, to)` returns; it
sets every heap slot `trail_[k]` with `from ≤ k < to` to the unbound
`REF(trail_[k])`, leaves every heap slot whose index is not among those
entries as it was, and leaves the trail, the work stack and the registers as
they were.  `trim_trail(to)` after it keeps exactly the first `to` entries and
does not touch the heap. -/
theorem unwind_trail_resets_trailed_slots (s : term_env_impl) (from_ to_ : Nat)
    (h1 : from_ ≤ to_) (h2 : to_ ≤ trail_depth s)
    (hb : ∀ j ∈ (s.trail_.take to_).drop from_, j < s.heap_.length) :
    ∃ s1, unwind_trail s from_ to_ = some s1 ∧
      (∀ k j, from_ ≤ k → k < to_ → s.trail_[k]? = some j → s1.heap_[j]? = some (cell.REF j)) ∧
      (∀ j, (∀ k, from_ ≤ k → k < to_ → s.trail_[k]? ≠ some j) → s1.heap_[j]? = s.heap_[j]?) ∧
      s1.heap_.length = s.heap_.length ∧
      s1.trail_ = s.trail_ ∧ s1.stack_ = s.stack_ ∧ s1.register_hb_ = s.register_hb_ ∧
      s1.register_h_ = s.register_h_ ∧
      (trim_trail s1 to_).trail_ = s.trail_.take to_ ∧ trail_depth (trim_trail s1 to_) = to_ ∧
      (trim_trail s1 to_).heap_ = s1.heap_ := by
  simp only [trail_depth] at h2
  obtain ⟨hsplit, hl1, hl2⟩ := trail_split s.trail_ from_ to_ h1 h2
  have hun := unwind_loop_mid ((s.trail_.take to_).drop from_) (s.trail_.take from_)
    (s.trail_.drop to_) s hsplit hb
  rw [hl1, hl2] at hun
  refine ⟨_, hun, ?_, ?_, ?_, rfl, rfl, rfl, rfl, ?_, ?_, rfl⟩
  · intro k j hk1 hk2 hk
    have hj : j ∈ (s.trail_.take to_).drop from_ :=
      (mem_slice_iff s.trail_ from_ to_ j).mpr ⟨k, hk1, hk2, hk⟩
    simp only []
    rw [reset_slots_get _ _ j hb, if_pos hj]
  · intro j hj
    have hnj : j ∉ (s.trail_.take to_).drop from_ := by
      intro hmem
      obtain ⟨k, hk1, hk2, hk⟩ := (mem_slice_iff s.trail_ from_ to_ j).mp hmem
      exact hj k hk1 hk2 hk
    simp only []
    rw [reset_slots_get _ _ j hb, if_neg hnj]
  · simp only [reset_slots_length]
  · simp only [trim_trail, if_pos h2]
  · simp only [trim_trail, trail_depth, if_pos h2, List.length_take]
    omega

/-- C30 at a concrete state: a trail `[0, 1, 3]`, of which the entries 1 and 2
are unwound. -/
theorem unwind_trail_resets_trailed_slots_witness :
    ∃ s1, unwind_trail ⟨[cell.INT 1, cell.INT 2, cell.INT 3, cell.INT 4], 4, 4, [], [0, 1, 3]⟩
        1 3 = some s1 ∧
      (∀ k j, 1 ≤ k → k < 3 → ([0, 1, 3] : List Nat)[k]? = some j →
        s1.heap_[j]? = some (cell.REF j)) ∧
      (∀ j, (∀ k, 1 ≤ k → k < 3 → ([0, 1, 3] : List Nat)[k]? ≠ some j) →
        s1.heap_[j]? = [cell.INT 1, cell.INT 2, cell.INT 3, cell.INT 4][j]?) ∧
      s1.heap_.length = 4 ∧
      s1.trail_ = [0, 1, 3] ∧ s1.stack_ = [] ∧ s1.register_hb_ = 4 ∧
      s1.register_h_ = 4 ∧
      (trim_trail s1 3).trail_ = ([0, 1, 3] : List Nat).take 3 ∧
      trail_depth (trim_trail s1 3) = 3 ∧
      (trim_trail s1 3).heap_ = s1.heap_ :=
  unwind_trail_resets_trailed_slots
    ⟨[cell.INT 1, cell.INT 2, cell.INT 3, cell.INT 4], 4, 4, [], [0, 1, 3]⟩ 1 3
    (by decide) (by decide) (by decide)


/-! ## C31: `unify` is symmetric -/

theorem ref_index_eq (a b : cell) (ha : a.tag = tag_t.REF) (hb : b.tag = tag_t.REF)
    (hi : a.index = b.index) : a = b := by
  cases a <;> cases b <;> simp_all [cell.tag, cell.index]

theorem unify_pairs_swap (n : Nat) (s : term_env_impl) (P : List (cell × cell)) :
    unify_pairs n s (P.map Prod.swap) =
      (unify_pairs n s P).map (fun x => (x.1, x.2.1, x.2.2.map Prod.swap)) := by
  induction n generalizing s P with
  | zero => cases P <;> simp [unify_pairs]
  | succ n ih =>
    cases P with
    | nil => simp [unify_pairs]
    | cons x P =>
      obtain ⟨a0, b0⟩ := x
      simp only [List.map_cons, Prod.swap_prod_mk, unify_pairs]
      cases hda : deref s.heap_ (n + 1) a0 with
      | none => cases hdb : deref s.heap_ (n + 1) b0 <;> simp
      | some a =>
        cases hdb : deref s.heap_ (n + 1) b0 with
        | none => simp
        | some b =>
          simp only []
          have hbind : ∀ x y : cell,
              (match bind s x y with
                | none => none
                | some s1 => unify_pairs n s1 (P.map Prod.swap)) =
              (match bind s x y with
                | none => none
                | some s1 => unify_pairs n s1 P).map
                (fun z : Bool × term_env_impl × List (cell × cell) =>
                  (z.1, z.2.1, z.2.2.map Prod.swap)) := by
            intro x y
            cases hb : bind s x y with
            | none => simp
            | some t => exact ih t P
          by_cases hab : a = b
          · rw [if_pos hab, if_pos hab.symm]
            exact ih s P
          · rw [if_neg hab, if_neg (Ne.symm hab)]
            by_cases har : a.tag = tag_t.REF
            · by_cases hbr : b.tag = tag_t.REF
              · rw [if_pos hbr, if_pos har]
                by_cases hlt : a.index < b.index
                · have c1 : ¬ (a.tag = tag_t.REF ∧ b.index < a.index) := fun hh => by omega
                  have c2 : b.tag = tag_t.REF ∧ a.index < b.index := ⟨hbr, hlt⟩
                  rw [if_neg c1, if_pos c2]
                  exact hbind b a
                · have hne : a.index ≠ b.index := fun hi => hab (ref_index_eq a b har hbr hi)
                  have c1 : a.tag = tag_t.REF ∧ b.index < a.index := ⟨har, by omega⟩
                  have c2 : ¬ (b.tag = tag_t.REF ∧ a.index < b.index) := fun hh => hlt hh.2
                  rw [if_pos c1, if_neg c2]
                  exact hbind a b
              · have c2 : ¬ (b.tag = tag_t.REF ∧ a.index < b.index) := fun hh => hbr hh.1
                rw [if_neg hbr, if_pos har, if_pos har, if_neg c2]
                exact hbind a b
            · by_cases hbr : b.tag = tag_t.REF
              · have c1 : ¬ (a.tag = tag_t.REF ∧ b.index < a.index) := fun hh => har hh.1
                rw [if_pos hbr, if_neg har, if_pos hbr, if_neg c1]
                exact hbind b a
              · rw [if_neg hbr, if_neg har, if_neg har, if_neg hbr]
                by_cases ht : a.tag ≠ b.tag
                · rw [if_pos ht, if_pos (Ne.symm ht)]
                  rfl
                · rw [if_neg ht, if_neg (fun hh => ht (Ne.symm hh))]
                  have hteq : a.tag = b.tag := not_not.mp ht
                  by_cases hstr : a.tag ≠ tag_t.STR
                  · rw [if_pos hstr, if_pos (by rw [← hteq]; exact hstr), ← hteq]
                    by_cases hc : a.tag = tag_t.CON ∨ a.tag = tag_t.INT
                    · simp only [if_pos hc, Option.map_some']
                    · simp only [if_neg hc, Option.map_none']
                  · rw [if_neg hstr, if_neg (by rw [← hteq]; exact hstr)]
                    cases hfa : functor s.heap_ a with
                    | none => cases hfb : functor s.heap_ b <;> simp
                    | some fa =>
                      cases hfb : functor s.heap_ b with
                      | none => simp
                      | some fb =>
                        simp only []
                        by_cases hf : fa ≠ fb
                        · rw [if_pos hf, if_pos (Ne.symm hf)]
                          rfl
                        · rw [if_neg hf, if_neg (fun hh => hf (Ne.symm hh))]
                          have hfeq : fa = fb := not_not.mp hf
                          rw [← hfeq, arg_pairs_swap s.heap_ a b fa.arity]
                          cases hL : arg_pairs s.heap_ a b fa.arity with
                          | none => simp
                          | some L =>
                            simp only [Option.map_some']
                            have := ih s (L ++ P)
                            simpa using this

theorem unwind_loop_stack (count i : Nat) (t : term_env_impl) (l : List cell) :
    unwind_loop count i { t with stack_ := l } =
      (unwind_loop count i t).map (fun u => { u with stack_ := l }) := by
  induction count generalizing i t with
  | zero => simp [unwind_loop]
  | succ c ih =>
    simp only [unwind_loop]
    cases ht : t.trail_[i]? with
    | none => simp
    | some index =>
      simp only []
      by_cases hlt : index < t.heap_.length
      · rw [if_pos hlt, if_pos hlt]
        exact ih (i + 1) { t with heap_ := t.heap_.set index (cell.REF index) }
      · rw [if_neg hlt, if_neg hlt]
        rfl

theorem unify_rollback_stack (sf : term_env_impl) (w base : List cell) (st hb : Nat) :
    (match unwind_trail { sf with stack_ := w ++ base } st
        (trail_depth { sf with stack_ := w ++ base }) with
      | none => none
      | some s3 =>
        some (false, { trim_stack (trim_trail s3 st) base.length with register_hb_ := hb })) =
    (match unwind_trail sf st (trail_depth sf) with
      | none => none
      | some s3 =>
        some (false, { trim_trail s3 st with stack_ := base, register_hb_ := hb })) := by
  simp only [unwind_trail, trail_depth, unwind_loop_stack]
  cases hu : unwind_loop (sf.trail_.length - st) st sf with
  | none => simp
  | some u =>
    simp only [Option.map_some']
    have : trim_stack (trim_trail { u with stack_ := w ++ base } st) base.length =
        { trim_trail u st with stack_ := base } := by
      simp [trim_trail, trim_stack]
    rw [this]

/-- C31: `unify` is symmetric: for every state and cells `a`, `b`, the calls
`unify(a, b)` and `unify(b, a)` started from the same state give the same
boolean and the same state after the call (heap, trail, work stack and
registers), or no result for both.  On `f(X)` and `f(Y)` both calls bind `Y`,
the variable with the higher index, and trail it. -/
theorem unify_symmetric :
    (∀ (n : Nat) (s : term_env_impl) (a b : cell), unify n s a b = unify n s b a) ∧
    unify 3 ex_fx_fy (cell.STR 0) (cell.STR 2) =
      some (true, ⟨[cell.CON 7 1, cell.REF 1, cell.CON 7 1, cell.REF 1], 4, 4,
        [cell.INT 9], [0, 3]⟩) ∧
    unify 3 ex_fx_fy (cell.STR 2) (cell.STR 0) =
      some (true, ⟨[cell.CON 7 1, cell.REF 1, cell.CON 7 1, cell.REF 1], 4, 4,
        [cell.INT 9], [0, 3]⟩) := by
  refine ⟨?_, by decide, by decide⟩
  intro n s a b
  have hsw := unify_pairs_swap n { s with register_hb_ := s.register_h_ } [(a, b)]
  simp only [List.map_cons, Prod.swap_prod_mk, List.map_nil] at hsw
  simp only [unify, unify_helper_eq, hsw, stack_depth]
  cases hp : unify_pairs n { s with register_hb_ := s.register_h_ } [(a, b)] with
  | none => simp
  | some res =>
    obtain ⟨r, sf, P1⟩ := res
    obtain ⟨t, _, hnil⟩ := unify_pairs_evolves n _ sf _ P1 r hp
    cases r with
    | true =>
      have hP : P1 = [] := hnil rfl
      subst hP
      simp
    | false =>
      simp only [Option.map_some']
      have h1 := unify_rollback_stack sf (flat P1) s.stack_ (trail_depth s) s.register_hb_
      have h2 := unify_rollback_stack sf (flat (P1.map Prod.swap)) s.stack_ (trail_depth s)
        s.register_hb_
      rw [h1, h2]

/-! ## C32: `unify` of terms that are `equal` -/

theorem unify_pairs_of_equal (n : Nat) (s : term_env_impl) (P : List (cell × cell))
    (he : equal_pairs s.heap_ n P = some true) :
    unify_pairs n s P = some (true, s, []) := by
  induction n generalizing P with
  | zero =>
    cases P with
    | nil => simp [unify_pairs]
    | cons x P => simp [equal_pairs] at he
  | succ n ih =>
    cases P with
    | nil => simp [unify_pairs]
    | cons x P =>
      obtain ⟨a0, b0⟩ := x
      rw [equal_pairs] at he
      rw [unify_pairs]
      cases hda : deref s.heap_ (n + 1) a0 with
      | none => simp [hda] at he
      | some a =>
        cases hdb : deref s.heap_ (n + 1) b0 with
        | none => simp [hda, hdb] at he
        | some b =>
          simp only [hda, hdb] at he ⊢
          by_cases hab : a = b
          · rw [if_pos hab] at he ⊢
            exact ih P he
          · rw [if_neg hab] at he ⊢
            by_cases ht : a.tag ≠ b.tag
            · rw [if_pos ht] at he
              simp at he
            · rw [if_neg ht] at he
              by_cases hstr : a.tag ≠ tag_t.STR
              · rw [if_pos hstr] at he
                simp at he
              · rw [if_neg hstr] at he
                have hsa : a.tag = tag_t.STR := not_not.mp hstr
                have hsb : b.tag = tag_t.STR := by rw [← not_not.mp ht]; exact hsa
                have hra : ¬ (a.tag = tag_t.REF) := by rw [hsa]; decide
                have hrb : ¬ (b.tag = tag_t.REF) := by rw [hsb]; decide
                rw [if_neg hra, if_neg hrb, if_neg ht, if_neg hstr]
                cases hfa : functor s.heap_ a with
                | none => simp [hfa] at he
                | some fa =>
                  cases hfb : functor s.heap_ b with
                  | none => simp [hfa, hfb] at he
                  | some fb =>
                    simp only [hfa, hfb] at he ⊢
                    by_cases hf : fa ≠ fb
                    · rw [if_pos hf] at he
                      simp at he
                    · rw [if_neg hf] at he ⊢
                      cases hL : arg_pairs s.heap_ a b fa.arity with
                      | none => simp [hL] at he
                      | some L =>
                        simp only [hL] at he ⊢
                        exact ih (L ++ P) he

/-- C32: for every state and cells `a`, `b` with `equal(a, b)` true, `unify(a, b)`
returns true and the state after the call is the state before it: no heap cell
is bound, the trail, the work stack and the registers are unchanged. -/
theorem unify_of_equal_is_noop (n : Nat) (s s0 : term_env_impl) (a b : cell)
    (he : equal n s a b = some (true, s0)) :
    unify n s a b = some (true, s) ∧ s0 = s := by
  rw [equal_eq] at he
  cases hp : equal_pairs s.heap_ n [(a, b)] with
  | none => simp [hp] at he
  | some r =>
    simp only [hp, Option.map_some', Option.some.injEq, Prod.mk.injEq] at he
    obtain ⟨hr, hs⟩ := he
    subst hr
    refine ⟨?_, hs.symm⟩
    have hu := unify_pairs_of_equal n { s with register_hb_ := s.register_h_ } [(a, b)] hp
    simp only [unify, unify_helper_eq, hu, Option.map_some', flat, List.nil_append]

/-- C32 at a concrete state: `f(5)` at 2 of `ex_fx_f5_bound` against `f(X)` at 0,
where `X` is bound to 5. -/
theorem unify_of_equal_is_noop_witness :
    unify 3 ex_fx_f5_bound (cell.STR 0) (cell.STR 2) = some (true, ex_fx_f5_bound) ∧
      ex_fx_f5_bound = ex_fx_f5_bound :=
  unify_of_equal_is_noop 3 ex_fx_f5_bound ex_fx_f5_bound (cell.STR 0) (cell.STR 2) (by decide)

/-! ## C33: termination of the loops of `equal` and `unify_helper` -/

theorem finite_term_mono (h : List cell) (n : Nat) (c : cell)
    (hf : finite_term h n c = true) : finite_term h (n + 1) c = true := by
  induction n generalizing c with
  | zero => simp [finite_term] at hf
  | succ n ih =>
    cases c with
    | REF i =>
      rw [finite_term] at hf ⊢
      cases hi : h[i]? with
      | none => simp [hi] at hf
      | some c1 =>
        simp only [hi, Bool.or_eq_true, decide_eq_true_eq] at hf ⊢
        rcases hf with hf | hf
        · exact Or.inl hf
        · exact Or.inr (ih c1 hf)
    | STR p =>
      rw [finite_term] at hf ⊢
      cases hp : h[p]? with
      | none => simp [hp] at hf
      | some f =>
        cases f with
        | CON name k =>
          simp only [hp, List.all_eq_true, List.mem_range] at hf ⊢
          intro j hj
          have := hf j hj
          cases hc : h[p + 1 + j]? with
          | none => simp [hc] at this
          | some c1 =>
            simp only [hc] at this ⊢
            exact ih c1 this
        | _ => simp [hp] at hf
    | CON _ _ => rfl
    | INT _ => rfl
    | BIG _ => simp [finite_term] at hf
    | GBL _ => simp [finite_term] at hf

theorem finite_term_mono_le (h : List cell) (n m : Nat) (c : cell) (hnm : n ≤ m)
    (hf : finite_term h n c = true) : finite_term h m c = true := by
  induction hnm with
  | refl => exact hf
  | step _ ih => exact finite_term_mono h _ c ih

theorem deref_of_finite (h : List cell) (n : Nat) (c : cell) (m : Nat)
    (hf : finite_term h n c = true) (hnm : n ≤ m) :
    ∃ r, deref h m c = some r ∧ finite_term h n r = true ∧
      (∀ i, r = cell.REF i → h[i]? = some (cell.REF i)) := by
  induction n generalizing c m with
  | zero => simp [finite_term] at hf
  | succ n ih =>
    cases m with
    | zero => omega
    | succ m =>
      cases c with
      | REF i =>
        rw [finite_term] at hf
        cases hi : h[i]? with
        | none => simp [hi] at hf
        | some c1 =>
          simp only [hi, Bool.or_eq_true, decide_eq_true_eq] at hf
          by_cases hself : c1 = cell.REF i
          · subst hself
            refine ⟨cell.REF i, by simp [deref, hi], ?_, ?_⟩
            · rw [finite_term]; simp [hi]
            · intro j hj
              cases hj
              exact hi
          · rcases hf with hf | hf
            · exact absurd hf hself
            · obtain ⟨r, hr, hfr, hu⟩ := ih c1 m hf (by omega)
              refine ⟨r, ?_, finite_term_mono h n r hfr, hu⟩
              simp only [deref, hi, if_neg hself]
              exact hr
      | STR p => exact ⟨cell.STR p, by simp [deref], hf, fun i hi => by cases hi⟩
      | CON a k => exact ⟨cell.CON a k, by simp [deref], hf, fun i hi => by cases hi⟩
      | INT v => exact ⟨cell.INT v, by simp [deref], hf, fun i hi => by cases hi⟩
      | BIG v => simp [finite_term] at hf
      | GBL v => simp [finite_term] at hf

/-- What a finite `STR` cell points to: a functor cell, and argument slots that
hold finite terms. -/
theorem finite_str (h : List cell) (n p : Nat) (hf : finite_term h (n + 1) (cell.STR p) = true) :
    ∃ name k, h[p]? = some (cell.CON name k) ∧
      ∀ j, j < k → ∃ c, h[p + 1 + j]? = some c ∧ finite_term h n c = true := by
  rw [finite_term] at hf
  cases hp : h[p]? with
  | none => simp [hp] at hf
  | some f =>
    cases f with
    | CON name k =>
      simp only [hp, List.all_eq_true, List.mem_range] at hf
      refine ⟨name, k, rfl, ?_⟩
      intro j hj
      have := hf j hj
      cases hc : h[p + 1 + j]? with
      | none => simp [hc] at this
      | some c1 =>
        simp only [hc] at this
        exact ⟨c1, rfl, this⟩
    | _ => simp [hp] at hf

theorem finite_nonref_cases (h : List cell) (n : Nat) (c : cell)
    (hf : finite_term h n c = true) (hr : c.tag ≠ tag_t.REF) :
    c.tag = tag_t.STR ∨ c.tag = tag_t.CON ∨ c.tag = tag_t.INT := by
  cases n with
  | zero => simp [finite_term] at hf
  | succ n =>
    cases c with
    | REF i => exact absurd rfl hr
    | STR p => exact Or.inl rfl
    | CON a k => exact Or.inr (Or.inl rfl)
    | INT v => exact Or.inr (Or.inr rfl)
    | BIG v => simp [finite_term] at hf
    | GBL v => simp [finite_term] at hf

/-- The argument pairs of two finite compounds with `k` arguments each. -/
theorem arg_pairs_of_finite (h : List cell) (n m pa pb ka kb : Nat)
    (hargs_a : ∀ j, j < ka → ∃ c, h[pa + 1 + j]? = some c ∧ finite_term h n c = true)
    (hargs_b : ∀ j, j < kb → ∃ c, h[pb + 1 + j]? = some c ∧ finite_term h m c = true)
    (k : Nat) (hka : k ≤ ka) (hkb : k ≤ kb) :
    ∃ L, arg_pairs h (cell.STR pa) (cell.STR pb) k = some L ∧
      ∀ x ∈ L, finite_term h n x.1 = true ∧ finite_term h m x.2 = true := by
  induction k with
  | zero => exact ⟨[], rfl, by simp⟩
  | succ r ih =>
    obtain ⟨L, hL, hfin⟩ := ih (by omega) (by omega)
    obtain ⟨ca, hca, hfa⟩ := hargs_a r (by omega)
    obtain ⟨cb, hcb, hfb⟩ := hargs_b r (by omega)
    refine ⟨L ++ [(ca, cb)], ?_, ?_⟩
    · simp only [arg_pairs, arg, hca, hcb, hL, Option.map_some']
    · intro x hx
      rcases List.mem_append.mp hx with hx | hx
      · exact hfin x hx
      · simp only [List.mem_singleton] at hx
        subst hx
        exact ⟨hfa, hfb⟩

theorem functor_of_slot (h : List cell) (p name k : Nat) (hp : h[p]? = some (cell.CON name k)) :
    functor h (cell.STR p) = some (cell.CON name k) := by
  simp [functor, hp]

theorem tag_str_iff (c : cell) : c.tag = tag_t.STR ↔ ∃ p, c = cell.STR p := by
  cases c <;> simp [cell.tag]

theorem equal_pairs_terminates (h : List cell) (n : Nat) (L P : List (cell × cell))
    (hL : ∀ x ∈ L, finite_term h n x.1 = true ∧ ∃ k, finite_term h k x.2 = true)
    (hP : ∃ N, ∀ m, N ≤ m → ∃ r, equal_pairs h m P = some r) :
    ∃ N, ∀ m, N ≤ m → ∃ r, equal_pairs h m (L ++ P) = some r := by
  induction n generalizing L P with
  | zero =>
    cases L with
    | nil => exact hP
    | cons x L => simpa [finite_term] using (hL x (List.mem_cons_self x L)).1
  | succ n ihn =>
    induction L with
    | nil => exact hP
    | cons x L ihL =>
      obtain ⟨a0, b0⟩ := x
      obtain ⟨hfa0, k, hfb0⟩ := hL (a0, b0) (List.mem_cons_self _ L)
      have hrest := ihL (fun y hy => hL y (List.mem_cons_of_mem _ hy))
      obtain ⟨N1, hN1⟩ := hrest
      obtain ⟨a, hda, hfa, _⟩ := deref_of_finite h (n + 1) a0 (n + 1) hfa0 (le_refl _)
      obtain ⟨b, hdb, hfb, _⟩ := deref_of_finite h k b0 k hfb0 (le_refl _)
      -- the first pair, once both sides are dereferenced
      have hstep : ∀ m, n + 1 ≤ m + 1 → k ≤ m + 1 →
          equal_pairs h (m + 1) ((a0, b0) :: (L ++ P)) =
            (if a = b then equal_pairs h m (L ++ P)
             else if a.tag ≠ b.tag then some false
             else if a.tag ≠ tag_t.STR then some false
             else
               match functor h a, functor h b with
               | some fa, some fb =>
                 if fa ≠ fb then some false
                 else
                   match arg_pairs h a b fa.arity with
                   | none => none
                   | some L1 => equal_pairs h m (L1 ++ (L ++ P))
               | _, _ => none) := by
        intro m h1 h2
        rw [equal_pairs, deref_mono_le h _ _ a0 a h1 hda, deref_mono_le h _ _ b0 b h2 hdb]
      by_cases hab : a = b
      · refine ⟨max N1 (max (n + 1) k) + 1, ?_⟩
        intro m hm
        obtain ⟨m1, rfl⟩ : ∃ m1, m = m1 + 1 := ⟨m - 1, by omega⟩
        rw [List.cons_append, hstep m1 (by omega) (by omega), if_pos hab]
        exact hN1 m1 (by omega)
      · by_cases ht : a.tag ≠ b.tag
        · refine ⟨max (n + 1) k + 1, ?_⟩
          intro m hm
          obtain ⟨m1, rfl⟩ : ∃ m1, m = m1 + 1 := ⟨m - 1, by omega⟩
          rw [List.cons_append, hstep m1 (by omega) (by omega), if_neg hab, if_pos ht]
          exact ⟨false, rfl⟩
        · by_cases hstr : a.tag ≠ tag_t.STR
          · refine ⟨max (n + 1) k + 1, ?_⟩
            intro m hm
            obtain ⟨m1, rfl⟩ : ∃ m1, m = m1 + 1 := ⟨m - 1, by omega⟩
            rw [List.cons_append, hstep m1 (by omega) (by omega), if_neg hab, if_neg ht,
              if_pos hstr]
            exact ⟨false, rfl⟩
          · have hsa : a.tag = tag_t.STR := not_not.mp hstr
            have hsb : b.tag = tag_t.STR := by rw [← not_not.mp ht]; exact hsa
            obtain ⟨pa, rfl⟩ := (tag_str_iff a).mp hsa
            obtain ⟨pb, rfl⟩ := (tag_str_iff b).mp hsb
            cases k with
            | zero => simp [finite_term] at hfb
            | succ k1 =>
              obtain ⟨na, ka, hpa, hargs_a⟩ := finite_str h n pa hfa
              obtain ⟨nb, kb, hpb, hargs_b⟩ := finite_str h k1 pb hfb
              have hfna := functor_of_slot h pa na ka hpa
              have hfnb := functor_of_slot h pb nb kb hpb
              by_cases hf : cell.CON na ka ≠ cell.CON nb kb
              · refine ⟨max (n + 1) (k1 + 1) + 1, ?_⟩
                intro m hm
                obtain ⟨m1, rfl⟩ : ∃ m1, m = m1 + 1 := ⟨m - 1, by omega⟩
                rw [List.cons_append, hstep m1 (by omega) (by omega), if_neg hab, if_neg ht,
                  if_neg hstr]
                simp only [hfna, hfnb, if_pos hf]
                exact ⟨false, rfl⟩
              · have hfeq : cell.CON na ka = cell.CON nb kb := not_not.mp hf
                have hk : ka = kb := by cases hfeq; rfl
                obtain ⟨L1, hL1, hfin1⟩ := arg_pairs_of_finite h n k1 pa pb ka kb
                  hargs_a hargs_b ka (le_refl _) (by omega)
                obtain ⟨N2, hN2⟩ := ihn L1 (L ++ P)
                  (fun y hy => ⟨(hfin1 y hy).1, k1, (hfin1 y hy).2⟩) ⟨N1, hN1⟩
                refine ⟨max N2 (max (n + 1) (k1 + 1)) + 1, ?_⟩
                intro m hm
                obtain ⟨m1, rfl⟩ : ∃ m1, m = m1 + 1 := ⟨m - 1, by omega⟩
                rw [List.cons_append, hstep m1 (by omega) (by omega), if_neg hab, if_neg ht,
                  if_neg hstr]
                simp only [hfna, hfnb, if_neg hf, cell.arity, hL1]
                exact hN2 m1 (by omega)

theorem equal_terminates (s : term_env_impl) (a b : cell) (k : Nat)
    (ha : finite_term s.heap_ k a = true) (hb : finite_term s.heap_ k b = true) :
    ∃ N, ∀ n, N ≤ n → ∃ r, equal n s a b = some (r, s) := by
  obtain ⟨N, hN⟩ := equal_pairs_terminates s.heap_ k [(a, b)] []
    (by
      intro x hx
      simp only [List.mem_singleton] at hx
      subst hx
      exact ⟨ha, k, hb⟩)
    ⟨0, fun m _ => ⟨true, by cases m <;> simp [equal_pairs]⟩⟩
  refine ⟨N, ?_⟩
  intro n hn
  obtain ⟨r, hr⟩ := hN n hn
  refine ⟨r, ?_⟩
  rw [equal_eq]
  simp only [List.cons_append, List.nil_append] at hr
  rw [hr]
  rfl

theorem unify_pairs_round (n : Nat) (t : term_env_impl) (a0 b0 : cell)
    (P : List (cell × cell)) :
    unify_pairs (n + 1) t ((a0, b0) :: P) =
      (match unify_round_pairs (n + 1) t a0 b0 P with
        | none => none
        | some (round_result.next t1 P1) => unify_pairs n t1 P1
        | some (round_result.ret r) => some (r, t, P)) := by
  rw [unify_pairs, unify_round_pairs]
  cases hda : deref t.heap_ (n + 1) a0 with
  | none => simp
  | some a =>
    cases hdb : deref t.heap_ (n + 1) b0 with
    | none => simp
    | some b =>
      simp only [unify_round_cells]
      have hbind : ∀ x y : cell,
          (match bind t x y with
            | none => none
            | some s1 => unify_pairs n s1 P) =
          (match (match bind t x y with
              | none => none
              | some t1 => some (round_result.next t1 P)) with
            | none => none
            | some (round_result.next t1 P1) => unify_pairs n t1 P1
            | some (round_result.ret r) => some (r, t, P)) := by
        intro x y
        cases bind t x y <;> rfl
      by_cases hab : a = b
      · rw [if_pos hab, if_pos hab]
      · rw [if_neg hab, if_neg hab]
        by_cases har : a.tag = tag_t.REF
        · rw [if_pos har, if_pos har]
          by_cases hc : b.tag = tag_t.REF ∧ a.index < b.index
          · rw [if_pos hc]; exact hbind b a
          · rw [if_neg hc]; exact hbind a b
        · rw [if_neg har, if_neg har]
          by_cases hbr : b.tag = tag_t.REF
          · rw [if_pos hbr, if_pos hbr]; exact hbind b a
          · rw [if_neg hbr, if_neg hbr]
            by_cases ht : a.tag ≠ b.tag
            · rw [if_pos ht, if_pos ht]
            · rw [if_neg ht, if_neg ht]
              by_cases hstr : a.tag ≠ tag_t.STR
              · rw [if_pos hstr, if_pos hstr]
                by_cases hc : a.tag = tag_t.CON ∨ a.tag = tag_t.INT
                · rw [if_pos hc, if_pos hc]
                · rw [if_neg hc, if_neg hc]
              · rw [if_neg hstr, if_neg hstr]
                cases hfa : functor t.heap_ a with
                | none => simp
                | some fa =>
                  cases hfb : functor t.heap_ b with
                  | none => simp
                  | some fb =>
                    simp only []
                    by_cases hf : fa ≠ fb
                    · rw [if_pos hf, if_pos hf]
                    · rw [if_neg hf, if_neg hf]
                      cases arg_pairs t.heap_ a b fa.arity <;> rfl

theorem with_pending_bind (t : term_env_impl) (P : List (cell × cell)) (x y : cell) :
    bind (with_pending t P) x y = (bind t x y).map (fun t1 => with_pending t1 P) := by
  unfold with_pending
  rw [bind_stack]
  cases hb : bind t x y with
  | none => rfl
  | some u =>
    have := (bind_frame t u x y hb).1
    simp only [Option.map_some', this]

theorem unify_body_round (fuel : Nat) (t : term_env_impl) (a0 b0 : cell)
    (P : List (cell × cell)) :
    unify_body fuel (with_pending t ((a0, b0) :: P)) =
      (unify_round_pairs fuel t a0 b0 P).map (fun x =>
        match x with
        | round_result.next t1 P1 => outcome.next (with_pending t1 P1)
        | round_result.ret r => outcome.ret r (with_pending t P)) := by
  have hpop1 : pop (with_pending t ((a0, b0) :: P)) =
      some (a0, { t with stack_ := b0 :: (flat P ++ t.stack_) }) := by
    simp [pop, with_pending, flat]
  have hbindm : ∀ x y : cell,
      (bind (with_pending t P) x y).map outcome.next =
        (match bind t x y with
          | none => none
          | some t1 => some (round_result.next t1 P)).map (fun x =>
            match x with
            | round_result.next t1 P1 => outcome.next (with_pending t1 P1)
            | round_result.ret r => outcome.ret r (with_pending t P)) := by
    intro x y
    rw [with_pending_bind t P x y]
    cases bind t x y <;> rfl
  rw [unify_body, unify_round_pairs, hpop1]
  simp only [pop]
  cases hda : deref t.heap_ fuel a0 with
  | none => simp
  | some a =>
    cases hdb : deref t.heap_ fuel b0 with
    | none => simp
    | some b =>
      simp only [unify_round_cells]
      have hw : ({ t with stack_ := flat P ++ t.stack_ } : term_env_impl) = with_pending t P := rfl
      rw [hw]
      by_cases hab : a = b
      · rw [if_pos hab, if_pos hab]; rfl
      · rw [if_neg hab, if_neg hab]
        by_cases har : a.tag = tag_t.REF
        · rw [if_pos har, if_pos har]
          by_cases hbr : b.tag = tag_t.REF
          · rw [if_pos hbr]
            by_cases hlt : a.index < b.index
            · rw [if_pos hlt, if_pos ⟨hbr, hlt⟩]; exact hbindm b a
            · rw [if_neg hlt, if_neg (fun hh => hlt hh.2)]; exact hbindm a b
          · rw [if_neg hbr, if_neg (fun hh => hbr hh.1)]; exact hbindm a b
        · rw [if_neg har, if_neg har]
          by_cases hbr : b.tag = tag_t.REF
          · rw [if_pos hbr, if_pos hbr]; exact hbindm b a
          · rw [if_neg hbr, if_neg hbr]
            by_cases ht : a.tag ≠ b.tag
            · rw [if_pos ht, if_pos ht]; rfl
            · rw [if_neg ht, if_neg ht]
              by_cases hstr : a.tag ≠ tag_t.STR
              · rw [if_pos hstr, unify_switch_atomic _ a b hab har hstr]
                by_cases hc : a.tag = tag_t.CON ∨ a.tag = tag_t.INT
                · rw [if_pos hc, if_pos hc]; rfl
                · rw [if_neg hc, if_neg hc]; rfl
              · rw [if_neg hstr]
                have hstr2 : a.tag = tag_t.STR := not_not.mp hstr
                have hheap : (with_pending t P).heap_ = t.heap_ := rfl
                simp only [unify_switch, hstr2, unify_str, hheap]
                cases hfa : functor t.heap_ a with
                | none => simp
                | some fa =>
                  cases hfb : functor t.heap_ b with
                  | none => simp
                  | some fb =>
                    simp only []
                    by_cases hf : fa ≠ fb
                    · rw [if_pos hf, if_pos hf]; rfl
                    · rw [if_neg hf, if_neg hf, push_args_eq]
                      simp only [hheap]
                      cases hL : arg_pairs t.heap_ a b fa.arity with
                      | none => simp
                      | some L =>
                        simp [with_pending, flat_append]

theorem unbound_from_set (l : List cell) (i k : Nat) (y : cell)
    (hk : l[k]? = some (cell.REF (i + k))) (hy : y ≠ cell.REF (i + k)) :
    unbound_from i (l.set k y) + 1 = unbound_from i l := by
  induction l generalizing i k with
  | nil => simp at hk
  | cons c r ih =>
    cases k with
    | zero =>
      simp only [List.getElem?_cons_zero, Option.some.injEq, Nat.add_zero] at hk hy
      subst hk
      simp only [List.set_cons_zero, unbound_from, if_neg hy, if_true]
      omega
    | succ k =>
      simp only [List.getElem?_cons_succ] at hk
      have e : i + (k + 1) = (i + 1) + k := by omega
      rw [e] at hk hy
      have := ih (i + 1) k hk hy
      simp only [List.set_cons_succ, unbound_from]
      omega

theorem unbound_count_bind (t t1 : term_env_impl) (i : Nat) (y : cell)
    (hb : bind t (cell.REF i) y = some t1) (hi : t.heap_[i]? = some (cell.REF i))
    (hy : y ≠ cell.REF i) : unbound_count t1.heap_ < unbound_count t.heap_ := by
  have hset := (bind_heap t t1 i y hb).2
  have := unbound_from_set t.heap_ 0 i y (by simpa using hi) (by simpa using hy)
  rw [hset]
  unfold unbound_count
  omega

theorem bind_some (t : term_env_impl) (i : Nat) (y : cell) (hi : i < t.heap_.length) :
    ∃ t1, bind t (cell.REF i) y = some t1 := by
  simp [bind, hi]

theorem mem_flat_of_mem (P : List (cell × cell)) (x : cell × cell) (hx : x ∈ P) :
    x.1 ∈ flat P ∧ x.2 ∈ flat P := by
  induction P with
  | nil => simp at hx
  | cons y P ih =>
    obtain ⟨a, b⟩ := y
    rcases List.mem_cons.mp hx with h | h
    · subst h
      simp [flat]
    · have := ih h
      simp [flat, this.1, this.2]

theorem flat_length_even (P : List (cell × cell)) : (flat P).length = 2 * P.length := by
  induction P with
  | nil => rfl
  | cons y P ih =>
    obtain ⟨a, b⟩ := y
    simp only [flat, List.length_cons, ih]
    omega

theorem pending_of_with (d : Nat) (t : term_env_impl) (Q : List (cell × cell))
    (hd : stack_depth t = d) (hp : pending_finite d (with_pending t Q)) :
    ∃ k, ∀ x ∈ Q, finite_term t.heap_ k x.1 = true ∧ finite_term t.heap_ k x.2 = true := by
  obtain ⟨k, hk⟩ := hp
  refine ⟨k, ?_⟩
  intro x hx
  have htake : (with_pending t Q).stack_.take (stack_depth (with_pending t Q) - d) = flat Q := by
    simp only [with_pending, stack_depth, List.length_append] at hd ⊢
    rw [← hd]
    simp
  rw [htake] at hk
  have hm := mem_flat_of_mem Q x hx
  exact ⟨hk x.1 hm.1, hk x.2 hm.2⟩

theorem ends_of_next (t t1 : term_env_impl) (a0 b0 : cell) (Q Q1 : List (cell × cell))
    (f0 : Nat)
    (hr : ∀ f, f0 ≤ f → unify_round_pairs f t a0 b0 Q = some (round_result.next t1 Q1))
    (hT : unify_pairs_ends t1 Q1) : unify_pairs_ends t ((a0, b0) :: Q) := by
  obtain ⟨N, hN⟩ := hT
  refine ⟨max N f0 + 1, ?_⟩
  intro m hm
  obtain ⟨m1, rfl⟩ : ∃ m1, m = m1 + 1 := ⟨m - 1, by omega⟩
  rw [unify_pairs_round, hr (m1 + 1) (by omega)]
  exact hN m1 (by omega)

theorem ends_of_ret (t : term_env_impl) (a0 b0 : cell) (Q : List (cell × cell))
    (f0 : Nat) (r : Bool)
    (hr : ∀ f, f0 ≤ f → unify_round_pairs f t a0 b0 Q = some (round_result.ret r)) :
    unify_pairs_ends t ((a0, b0) :: Q) := by
  refine ⟨f0 + 1, ?_⟩
  intro m hm
  obtain ⟨m1, rfl⟩ : ∃ m1, m = m1 + 1 := ⟨m - 1, by omega⟩
  rw [unify_pairs_round, hr (m1 + 1) (by omega)]
  exact ⟨_, rfl⟩

theorem reach_next (d : Nat) (s0 t t1 : term_env_impl) (a0 b0 : cell)
    (Q Q1 : List (cell × cell)) (f : Nat) (hd : stack_depth t = d)
    (hreach : unify_reaches d s0 (with_pending t ((a0, b0) :: Q)))
    (hr : unify_round_pairs f t a0 b0 Q = some (round_result.next t1 Q1)) :
    unify_reaches d s0 (with_pending t1 Q1) := by
  refine unify_reaches.round _ _ hreach ⟨?_, f, ?_⟩
  · simp only [with_pending, stack_depth, flat, List.length_append, List.length_cons] at hd ⊢
    omega
  · rw [unify_body_round, hr]
    rfl

theorem unify_round_of_deref (f f0 : Nat) (t : term_env_impl) (a0 b0 a b : cell)
    (Q : List (cell × cell)) (hf : f0 ≤ f) (hda : deref t.heap_ f0 a0 = some a)
    (hdb : deref t.heap_ f0 b0 = some b) :
    unify_round_pairs f t a0 b0 Q = unify_round_cells t a b Q := by
  rw [unify_round_pairs, deref_mono_le _ _ _ a0 a hf hda, deref_mono_le _ _ _ b0 b hf hdb]

/-- A round that binds the unbound variable `REF i` to `y`. -/
theorem progress_bind (d : Nat) (s0 : term_env_impl) (t : term_env_impl)
    (hd : stack_depth t = d)
    (ihv : ∀ t1 P1, unbound_count t1.heap_ < unbound_count t.heap_ → stack_depth t1 = d →
      unify_reaches d s0 (with_pending t1 P1) → unify_pairs_ends t1 P1)
    (a0 b0 : cell) (Q : List (cell × cell)) (f0 i : Nat) (y : cell)
    (hreach : unify_reaches d s0 (with_pending t ((a0, b0) :: Q)))
    (hi : t.heap_[i]? = some (cell.REF i)) (hy : y ≠ cell.REF i)
    (hr : ∀ t1, bind t (cell.REF i) y = some t1 →
      ∀ f, f0 ≤ f → unify_round_pairs f t a0 b0 Q = some (round_result.next t1 Q)) :
    unify_pairs_ends t ((a0, b0) :: Q) := by
  have hilt : i < t.heap_.length := (List.getElem?_eq_some_iff.mp hi).1
  obtain ⟨t1, hb⟩ := bind_some t i y hilt
  have hcount := unbound_count_bind t t1 i y hb hi hy
  have hd1 : stack_depth t1 = d := by
    have := (bind_frame t t1 _ _ hb).1
    simp only [stack_depth, this] at hd ⊢
    exact hd
  have hreach1 := reach_next d s0 t t1 a0 b0 Q Q f0 hd hreach (hr t1 hb f0 (le_refl _))
  exact ends_of_next t t1 a0 b0 Q Q f0 (hr t1 hb) (ihv t1 Q hcount hd1 hreach1)

theorem unify_pairs_progress (d : Nat) (s0 : term_env_impl)
    (hgood : ∀ s1, unify_reaches d s0 s1 → pending_finite d s1)
    (t : term_env_impl) (hd : stack_depth t = d)
    (ihv : ∀ t1 P1, unbound_count t1.heap_ < unbound_count t.heap_ → stack_depth t1 = d →
      unify_reaches d s0 (with_pending t1 P1) → unify_pairs_ends t1 P1)
    (n : Nat) (L P : List (cell × cell))
    (hreach : unify_reaches d s0 (with_pending t (L ++ P)))
    (hL : ∀ x ∈ L, finite_term t.heap_ n x.1 = true)
    (hcont : unify_reaches d s0 (with_pending t P) → unify_pairs_ends t P) :
    unify_pairs_ends t (L ++ P) := by
  induction n generalizing L P with
  | zero =>
    cases L with
    | nil => exact hcont hreach
    | cons x L => simpa [finite_term] using hL x (List.mem_cons_self x L)
  | succ n ihn =>
    induction L with
    | nil => exact hcont hreach
    | cons x L ihL =>
      obtain ⟨a0, b0⟩ := x
      have hfa0 := hL (a0, b0) (List.mem_cons_self _ L)
      obtain ⟨k, hk⟩ := pending_of_with d t _ hd (hgood _ hreach)
      have hfb0 := (hk (a0, b0) (by simp)).2
      obtain ⟨a, hda, hfa, hua⟩ := deref_of_finite t.heap_ (n + 1) a0 (max (n + 1) k) hfa0
        (le_max_left _ _)
      obtain ⟨b, hdb, hfb, hub⟩ := deref_of_finite t.heap_ k b0 (max (n + 1) k) hfb0
        (le_max_right _ _)
      have hround : ∀ f, max (n + 1) k ≤ f →
          unify_round_pairs f t a0 b0 (L ++ P) = unify_round_cells t a b (L ++ P) :=
        fun f hf => unify_round_of_deref f _ t a0 b0 a b _ hf hda hdb
      have hLtail : ∀ y ∈ L, finite_term t.heap_ (n + 1) y.1 = true :=
        fun y hy => hL y (List.mem_cons_of_mem _ hy)
      rw [List.cons_append] at hreach ⊢
      by_cases hab : a = b
      · -- identical cells: the pair is dropped
        have hr : ∀ f, max (n + 1) k ≤ f →
            unify_round_pairs f t a0 b0 (L ++ P) = some (round_result.next t (L ++ P)) := by
          intro f hf
          rw [hround f hf, unify_round_cells, if_pos hab]
        have hreach1 := reach_next d s0 t t a0 b0 _ _ _ hd hreach (hr _ (le_refl _))
        exact ends_of_next t t a0 b0 _ _ _ hr (ihL hreach1 hLtail)
      · by_cases har : a.tag = tag_t.REF
        · obtain ⟨i, rfl⟩ := (tag_ref_iff a).mp har
          have hi := hua i rfl
          by_cases hc : b.tag = tag_t.REF ∧ (cell.REF i).index < b.index
          · -- both unbound, `b` has the higher index
            obtain ⟨j, rfl⟩ := (tag_ref_iff b).mp hc.1
            have hj := hub j rfl
            refine progress_bind d s0 t hd ihv a0 b0 _ (max (n + 1) k) j (cell.REF i) hreach hj
              (fun h => hab h) ?_
            intro t1 hb f hf
            rw [hround f hf, unify_round_cells, if_neg hab, if_pos har, if_pos hc, hb]
          · refine progress_bind d s0 t hd ihv a0 b0 _ (max (n + 1) k) i b hreach hi
              (fun h => hab h.symm) ?_
            intro t1 hb f hf
            rw [hround f hf, unify_round_cells, if_neg hab, if_pos har, if_neg hc, hb]
        · by_cases hbr : b.tag = tag_t.REF
          · obtain ⟨j, rfl⟩ := (tag_ref_iff b).mp hbr
            have hj := hub j rfl
            refine progress_bind d s0 t hd ihv a0 b0 _ (max (n + 1) k) j a hreach hj
              (fun h => hab h) ?_
            intro t1 hb f hf
            rw [hround f hf, unify_round_cells, if_neg hab, if_neg har, if_pos hbr, hb]
          · by_cases ht : a.tag ≠ b.tag
            · refine ends_of_ret t a0 b0 _ (max (n + 1) k) false ?_
              intro f hf
              rw [hround f hf, unify_round_cells, if_neg hab, if_neg har, if_neg hbr, if_pos ht]
            · by_cases hstr : a.tag ≠ tag_t.STR
              · have hc : a.tag = tag_t.CON ∨ a.tag = tag_t.INT := by
                  rcases finite_nonref_cases t.heap_ _ a hfa har with h | h
                  · exact absurd h hstr
                  · exact h
                refine ends_of_ret t a0 b0 _ (max (n + 1) k) false ?_
                intro f hf
                rw [hround f hf, unify_round_cells, if_neg hab, if_neg har, if_neg hbr,
                  if_neg ht, if_pos hstr, if_pos hc]
              · have hsa : a.tag = tag_t.STR := not_not.mp hstr
                have hsb : b.tag = tag_t.STR := by rw [← not_not.mp ht]; exact hsa
                obtain ⟨pa, rfl⟩ := (tag_str_iff a).mp hsa
                obtain ⟨pb, rfl⟩ := (tag_str_iff b).mp hsb
                cases k with
                | zero => simp [finite_term] at hfb
                | succ k1 =>
                  obtain ⟨na, ka, hpa, hargs_a⟩ := finite_str t.heap_ n pa hfa
                  obtain ⟨nb, kb, hpb, hargs_b⟩ := finite_str t.heap_ k1 pb hfb
                  have hfna := functor_of_slot t.heap_ pa na ka hpa
                  have hfnb := functor_of_slot t.heap_ pb nb kb hpb
                  by_cases hf : cell.CON na ka ≠ cell.CON nb kb
                  · refine ends_of_ret t a0 b0 _ (max (n + 1) (k1 + 1)) false ?_
                    intro f hf1
                    rw [hround f hf1, unify_round_cells, if_neg hab, if_neg har, if_neg hbr,
                      if_neg ht, if_neg hstr]
                    simp only [hfna, hfnb, if_pos hf]
                  · have hfeq : cell.CON na ka = cell.CON nb kb := not_not.mp hf
                    have hkk : ka = kb := by cases hfeq; rfl
                    obtain ⟨L1, hL1, hfin1⟩ := arg_pairs_of_finite t.heap_ n k1 pa pb ka kb
                      hargs_a hargs_b ka (le_refl _) (by omega)
                    have hr : ∀ f, max (n + 1) (k1 + 1) ≤ f →
                        unify_round_pairs f t a0 b0 (L ++ P) =
                          some (round_result.next t (L1 ++ (L ++ P))) := by
                      intro f hf1
                      rw [hround f hf1, unify_round_cells, if_neg hab, if_neg har, if_neg hbr,
                        if_neg ht, if_neg hstr]
                      simp only [hfna, hfnb, if_neg hf, cell.arity, hL1]
                    have hreach1 := reach_next d s0 t t a0 b0 _ _ _ hd hreach (hr _ (le_refl _))
                    refine ends_of_next t t a0 b0 _ _ _ hr ?_
                    exact ihn L1 (L ++ P) hreach1 (fun y hy => (hfin1 y hy).1)
                      (fun hreach2 => ihL hreach2 hLtail)

theorem unify_pairs_terminates (d : Nat) (s0 : term_env_impl)
    (hgood : ∀ s1, unify_reaches d s0 s1 → pending_finite d s1) (v : Nat) :
    ∀ (t : term_env_impl) (P : List (cell × cell)), unbound_count t.heap_ = v →
      stack_depth t = d → unify_reaches d s0 (with_pending t P) → unify_pairs_ends t P := by
  induction v using Nat.strong_induction_on with
  | _ v ih =>
    intro t P hv hd hreach
    obtain ⟨k, hk⟩ := pending_of_with d t P hd (hgood _ hreach)
    have ihv : ∀ t1 P1, unbound_count t1.heap_ < unbound_count t.heap_ → stack_depth t1 = d →
        unify_reaches d s0 (with_pending t1 P1) → unify_pairs_ends t1 P1 := by
      intro t1 P1 hlt hd1 hr1
      exact ih (unbound_count t1.heap_) (by omega) t1 P1 rfl hd1 hr1
    have := unify_pairs_progress d s0 hgood t hd ihv k P []
      (by rw [List.append_nil]; exact hreach) (fun x hx => (hk x hx).1)
      (fun _ => ⟨0, fun m _ => ⟨_, unify_pairs_nil m t⟩⟩)
    rw [List.append_nil] at this
    exact this

theorem push_push_eq (s : term_env_impl) (a b : cell) :
    push (push s b) a = with_pending s [(a, b)] := by
  simp [push, with_pending, flat]

theorem unify_helper_terminates (s : term_env_impl) (a b : cell)
    (hgood : ∀ s1, unify_reaches (stack_depth s) (push (push s b) a) s1 →
      pending_finite (stack_depth s) s1) :
    ∃ N, ∀ n, N ≤ n → ∃ r s1, unify_helper n s a b = some (r, s1) := by
  rw [push_push_eq] at hgood
  obtain ⟨N, hN⟩ := unify_pairs_terminates (stack_depth s) _ hgood _ s [(a, b)] rfl rfl
    unify_reaches.start
  refine ⟨N, ?_⟩
  intro n hn
  obtain ⟨res, hres⟩ := hN n hn
  rw [unify_helper_eq, hres]
  exact ⟨_, _, rfl⟩

/-- When the loop of `unify_helper` returns, `unify` returns: the trail entries
it unwinds after a failure are heap slots. -/
theorem unify_of_helper (n : Nat) (s s2 : term_env_impl) (a b : cell) (r : Bool)
    (hh : unify_helper n { s with register_hb_ := s.register_h_ } a b = some (r, s2)) :
    ∃ s1, unify n s a b = some (r, s1) := by
  have he := unify_helper_eq n { s with register_hb_ := s.register_h_ } a b
  rw [hh] at he
  cases hp : unify_pairs n { s with register_hb_ := s.register_h_ } [(a, b)] with
  | none => simp [hp] at he
  | some res =>
    obtain ⟨r1, sf, P1⟩ := res
    rw [hp] at he
    simp only [Option.map_some', Option.some.injEq, Prod.mk.injEq] at he
    obtain ⟨hr, hs2⟩ := he
    subst hr
    obtain ⟨t, e, _⟩ := unify_pairs_evolves n _ sf _ P1 r hp
    cases r with
    | true => exact ⟨{ s2 with register_hb_ := s.register_hb_ }, by simp only [unify, hh]⟩
    | false =>
      have htr : sf.trail_ = s.trail_ ++ t := e.trail_eq
      have hlen : sf.heap_.length = s.heap_.length := e.ext.length_eq
      have hbnd : ∀ j ∈ t, j < sf.heap_.length := by
        intro j hj
        have := (e.trailed j hj).1
        rw [hlen]
        exact (List.getElem?_eq_some_iff.mp this).1
      have hun := unwind_loop_eq t s.trail_ { sf with stack_ := flat P1 ++ s.stack_ } htr hbnd
      have hcount : sf.trail_.length - s.trail_.length = t.length := by
        rw [htr]; simp
      simp only [unify, hh]
      rw [hs2]
      simp only [unwind_trail, trail_depth, hcount, hun]
      exact ⟨_, rfl⟩

theorem unify_terminates (s : term_env_impl) (a b : cell)
    (hgood : ∀ s1, unify_reaches (stack_depth s)
        (push (push { s with register_hb_ := s.register_h_ } b) a) s1 →
      pending_finite (stack_depth s) s1) :
    ∃ N, ∀ n, N ≤ n → ∃ r s1, unify n s a b = some (r, s1) := by
  obtain ⟨N, hN⟩ := unify_helper_terminates { s with register_hb_ := s.register_h_ } a b hgood
  refine ⟨N, ?_⟩
  intro n hn
  obtain ⟨r, s2, hh⟩ := hN n hn
  obtain ⟨s1, h1⟩ := unify_of_helper n s s2 a b r hh
  exact ⟨r, s1, h1⟩

theorem round_cells_stack (t t1 : term_env_impl) (a b : cell) (Q Q1 : List (cell × cell))
    (h : unify_round_cells t a b Q = some (round_result.next t1 Q1)) :
    t1.stack_ = t.stack_ := by
  have hbind : ∀ x y : cell,
      (match bind t x y with
        | none => none
        | some u => some (round_result.next u Q)) = some (round_result.next t1 Q1) →
      t1.stack_ = t.stack_ := by
    intro x y hm
    cases hb : bind t x y with
    | none => simp [hb] at hm
    | some u =>
      simp only [hb, Option.some.injEq, round_result.next.injEq] at hm
      rw [← hm.1]
      exact (bind_frame t u x y hb).1
  unfold unify_round_cells at h
  by_cases hab : a = b
  · rw [if_pos hab] at h
    simp only [Option.some.injEq, round_result.next.injEq] at h
    rw [← h.1]
  · rw [if_neg hab] at h
    by_cases har : a.tag = tag_t.REF
    · rw [if_pos har] at h
      by_cases hc : b.tag = tag_t.REF ∧ a.index < b.index
      · rw [if_pos hc] at h; exact hbind b a h
      · rw [if_neg hc] at h; exact hbind a b h
    · rw [if_neg har] at h
      by_cases hbr : b.tag = tag_t.REF
      · rw [if_pos hbr] at h; exact hbind b a h
      · rw [if_neg hbr] at h
        by_cases ht : a.tag ≠ b.tag
        · rw [if_pos ht] at h; simp at h
        · rw [if_neg ht] at h
          by_cases hstr : a.tag ≠ tag_t.STR
          · rw [if_pos hstr] at h
            by_cases hc : a.tag = tag_t.CON ∨ a.tag = tag_t.INT
            · rw [if_pos hc] at h; simp at h
            · rw [if_neg hc] at h; simp at h
          · rw [if_neg hstr] at h
            cases hfa : functor t.heap_ a with
            | none => simp [hfa] at h
            | some fa =>
              cases hfb : functor t.heap_ b with
              | none => simp [hfa, hfb] at h
              | some fb =>
                simp only [hfa, hfb] at h
                by_cases hf : fa ≠ fb
                · rw [if_pos hf] at h; simp at h
                · rw [if_neg hf] at h
                  cases hL : arg_pairs t.heap_ a b fa.arity with
                  | none => simp [hL] at h
                  | some L =>
                    simp only [hL, Option.some.injEq, round_result.next.injEq] at h
                    rw [← h.1]

theorem with_pending_nonempty (t : term_env_impl) (P : List (cell × cell))
    (h : stack_depth (with_pending t P) > stack_depth t) :
    ∃ a0 b0 Q, P = (a0, b0) :: Q := by
  cases P with
  | nil => simp [with_pending, stack_depth, flat] at h
  | cons x Q => exact ⟨x.1, x.2, Q, rfl⟩

/-- At the head of the loop of `unify_helper` the work stack is the entry stack
under the cells of the pending pairs. -/
theorem unify_reaches_stack (t0 : term_env_impl) (P0 : List (cell × cell))
    (s1 : term_env_impl)
    (h : unify_reaches (stack_depth t0) (with_pending t0 P0) s1) :
    ∃ t P, s1 = with_pending t P ∧ t.stack_ = t0.stack_ := by
  induction h with
  | start => exact ⟨t0, P0, rfl, rfl⟩
  | round s1 s2 _ hround ih =>
    obtain ⟨t, P, hs1, hst⟩ := ih
    obtain ⟨hdepth, f, hbody⟩ := hround
    subst hs1
    have hd : stack_depth t = stack_depth t0 := by simp only [stack_depth, hst]
    rw [← hd] at hdepth
    obtain ⟨a0, b0, Q, rfl⟩ := with_pending_nonempty t P hdepth
    rw [unify_body_round] at hbody
    cases hr : unify_round_pairs f t a0 b0 Q with
    | none => simp [hr] at hbody
    | some res =>
      cases res with
      | ret r => simp [hr] at hbody
      | next t1 Q1 =>
        simp only [hr, Option.map_some', Option.some.injEq, outcome.next.injEq] at hbody
        refine ⟨t1, Q1, hbody.symm, ?_⟩
        rw [← hst]
        unfold unify_round_pairs at hr
        cases hda : deref t.heap_ f a0 with
        | none => simp [hda] at hr
        | some a =>
          cases hdb : deref t.heap_ f b0 with
          | none => simp [hda, hdb] at hr
          | some b =>
            simp only [hda, hdb] at hr
            exact round_cells_stack t t1 a b Q Q1 hr

theorem equal_body_next (d f : Nat) (t : term_env_impl) (a0 b0 : cell)
    (Q : List (cell × cell)) (s2 : term_env_impl)
    (h : equal_body d f (with_pending t ((a0, b0) :: Q)) = some (outcome.next s2)) :
    ∃ Q1, s2 = with_pending t Q1 := by
  have hpop1 : pop (with_pending t ((a0, b0) :: Q)) =
      some (a0, { t with stack_ := b0 :: (flat Q ++ t.stack_) }) := by
    simp [pop, with_pending, flat]
  rw [equal_body, hpop1] at h
  simp only [pop] at h
  cases hda : deref t.heap_ f a0 with
  | none => simp [hda] at h
  | some a =>
    cases hdb : deref t.heap_ f b0 with
    | none => simp [hda, hdb] at h
    | some b =>
      simp only [hda, hdb] at h
      by_cases hab : a = b
      · rw [if_pos hab] at h
        simp only [Option.some.injEq, outcome.next.injEq] at h
        exact ⟨Q, h.symm⟩
      · rw [if_neg hab] at h
        by_cases ht : a.tag ≠ b.tag
        · rw [if_pos ht] at h; simp at h
        · rw [if_neg ht] at h
          by_cases hstr : a.tag ≠ tag_t.STR
          · rw [if_pos hstr] at h; simp at h
          · rw [if_neg hstr] at h
            cases hfa : functor t.heap_ a with
            | none => simp [hfa] at h
            | some fa =>
              cases hfb : functor t.heap_ b with
              | none => simp [hfa, hfb] at h
              | some fb =>
                simp only [hfa, hfb] at h
                by_cases hf : fa ≠ fb
                · rw [if_pos hf] at h; simp at h
                · rw [if_neg hf, push_args_eq] at h
                  cases hL : arg_pairs t.heap_ a b fa.arity with
                  | none => simp [hL] at h
                  | some L =>
                    simp only [hL, Option.map_some', Option.some.injEq,
                      outcome.next.injEq] at h
                    refine ⟨L ++ Q, ?_⟩
                    rw [← h]
                    simp [with_pending, flat_append]

/-- At the head of the loop of `equal` the state is the entry state with the
cells of the pending pairs on its work stack. -/
theorem equal_reaches_stack (t0 : term_env_impl) (P0 : List (cell × cell))
    (s1 : term_env_impl)
    (h : equal_reaches (stack_depth t0) (with_pending t0 P0) s1) :
    ∃ P, s1 = with_pending t0 P := by
  induction h with
  | start => exact ⟨P0, rfl⟩
  | round s1 s2 _ hround ih =>
    obtain ⟨P, hs1⟩ := ih
    obtain ⟨hdepth, f, hbody⟩ := hround
    subst hs1
    obtain ⟨a0, b0, Q, rfl⟩ := with_pending_nonempty t0 P hdepth
    exact equal_body_next _ f t0 a0 b0 Q s2 hbody

theorem ex_occurs_cycle (m : Nat) :
    unify_pairs m ⟨ex_occurs_bound, 12, 12, [], [1, 2]⟩ [(cell.REF 1, cell.REF 2)] = none ∧
    unify_pairs m ⟨ex_occurs_bound, 12, 12, [], [1, 2]⟩ [(cell.REF 2, cell.REF 1)] = none := by
  induction m with
  | zero => exact ⟨rfl, rfl⟩
  | succ m ih =>
    have d1 : deref ex_occurs_bound (m + 1) (cell.REF 1) = some (cell.STR 8) := by
      rw [deref]
      exact deref_nonref _ m (cell.STR 8) (by decide)
    have d2 : deref ex_occurs_bound (m + 1) (cell.REF 2) = some (cell.STR 10) := by
      rw [deref]
      exact deref_nonref _ m (cell.STR 10) (by decide)
    have r1 : unify_round_cells ⟨ex_occurs_bound, 12, 12, [], [1, 2]⟩ (cell.STR 8) (cell.STR 10)
        [] = some (round_result.next ⟨ex_occurs_bound, 12, 12, [], [1, 2]⟩
          [(cell.REF 2, cell.REF 1)]) := by decide
    have r2 : unify_round_cells ⟨ex_occurs_bound, 12, 12, [], [1, 2]⟩ (cell.STR 10) (cell.STR 8)
        [] = some (round_result.next ⟨ex_occurs_bound, 12, 12, [], [1, 2]⟩
          [(cell.REF 1, cell.REF 2)]) := by decide
    constructor
    · rw [unify_pairs_round, unify_round_pairs]
      simp only [d1, d2, r1]
      exact ih.2
    · rw [unify_pairs_round, unify_round_pairs]
      simp only [d1, d2, r2]
      exact ih.1

theorem ex_occurs_start (m : Nat) :
    unify_pairs (m + 3) ⟨ex_occurs.heap_, 12, 12, [], []⟩ [(cell.STR 0, cell.STR 4)] =
      unify_pairs m ⟨ex_occurs_bound, 12, 12, [], [1, 2]⟩ [(cell.REF 1, cell.REF 2)] := by
  have r1 : ∀ f, unify_round_pairs (f + 1) ⟨ex_occurs.heap_, 12, 12, [], []⟩ (cell.STR 0)
      (cell.STR 4) [] = some (round_result.next ⟨ex_occurs.heap_, 12, 12, [], []⟩
        [(cell.REF 1, cell.STR 8), (cell.REF 2, cell.STR 10), (cell.REF 1, cell.REF 2)]) := by
    intro f
    rw [unify_round_of_deref (f + 1) 1 _ _ _ (cell.STR 0) (cell.STR 4) _ (by omega)
      (by decide) (by decide)]
    decide
  have r2 : ∀ f, unify_round_pairs (f + 1) ⟨ex_occurs.heap_, 12, 12, [], []⟩ (cell.REF 1)
      (cell.STR 8) [(cell.REF 2, cell.STR 10), (cell.REF 1, cell.REF 2)] =
      some (round_result.next
        ⟨[cell.CON 1 3, cell.STR 8, cell.REF 2, cell.REF 1,
          cell.CON 1 3, cell.STR 8, cell.STR 10, cell.REF 2,
          cell.CON 2 1, cell.REF 2, cell.CON 2 1, cell.REF 1], 12, 12, [], [1]⟩
        [(cell.REF 2, cell.STR 10), (cell.REF 1, cell.REF 2)]) := by
    intro f
    rw [unify_round_of_deref (f + 1) 1 _ _ _ (cell.REF 1) (cell.STR 8) _ (by omega)
      (by decide) (by decide)]
    decide
  have r3 : ∀ f, unify_round_pairs (f + 1)
      ⟨[cell.CON 1 3, cell.STR 8, cell.REF 2, cell.REF 1,
        cell.CON 1 3, cell.STR 8, cell.STR 10, cell.REF 2,
        cell.CON 2 1, cell.REF 2, cell.CON 2 1, cell.REF 1], 12, 12, [], [1]⟩ (cell.REF 2)
      (cell.STR 10) [(cell.REF 1, cell.REF 2)] =
      some (round_result.next ⟨ex_occurs_bound, 12, 12, [], [1, 2]⟩
        [(cell.REF 1, cell.REF 2)]) := by
    intro f
    rw [unify_round_of_deref (f + 1) 1 _ _ _ (cell.REF 2) (cell.STR 10) _ (by omega)
      (by decide) (by decide)]
    decide
  rw [unify_pairs_round, r1 (m + 2)]
  simp only []
  rw [unify_pairs_round, r2 (m + 1)]
  simp only []
  rw [unify_pairs_round, r3 m]

theorem ex_occurs_never_returns (n : Nat) :
    unify n ex_occurs (cell.STR 0) (cell.STR 4) = none := by
  have hp : unify_pairs n ⟨ex_occurs.heap_, 12, 12, [], []⟩ [(cell.STR 0, cell.STR 4)] = none := by
    by_cases hn : n < 3
    · interval_cases n <;> decide
    · obtain ⟨m, rfl⟩ : ∃ m, n = m + 3 := ⟨n - 3, by omega⟩
      rw [ex_occurs_start]
      exact (ex_occurs_cycle m).1
  have he := unify_helper_eq n ⟨ex_occurs.heap_, 12, 12, [], []⟩ (cell.STR 0) (cell.STR 4)
  rw [hp] at he
  have hs : ({ ex_occurs with register_hb_ := ex_occurs.register_h_ } : term_env_impl) =
      ⟨ex_occurs.heap_, 12, 12, [], []⟩ := rfl
  simp only [unify, hs, he, Option.map_none']

/-- C33 as stated fails for `unify`.  The heap of `ex_occurs` is acyclic: the
term at every cell is finite, and so are `f(X, Y, X)` at 0 and
`f(g(Y), g(X), Y)` at 4.  `unify` of the two binds `X` to `g(Y)` and `Y` to
`g(X)`, there is no occurs check, and then compares `X` with `Y`: the loop of
`unify_helper` comes to the state `ex_occurs_loop_a`, goes from there to
`ex_occurs_loop_b` and from there back to `ex_occurs_loop_a`, and `unify` gives
no result for any fuel. -/
theorem unify_loops_after_binding_closes_cycle :
    finite_term ex_occurs.heap_ 3 (cell.STR 0) = true ∧
    finite_term ex_occurs.heap_ 3 (cell.STR 4) = true ∧
    ex_occurs.heap_.all (finite_term ex_occurs.heap_ 3) = true ∧
    (∀ n, unify n ex_occurs (cell.STR 0) (cell.STR 4) = none) ∧
    unify_reaches 0
      (push (push { ex_occurs with register_hb_ := ex_occurs.register_h_ } (cell.STR 4))
        (cell.STR 0)) ex_occurs_loop_a ∧
    unify_round 0 ex_occurs_loop_a ex_occurs_loop_b ∧
    unify_round 0 ex_occurs_loop_b ex_occurs_loop_a ∧
    ¬ (∀ (s : term_env_impl) (a b : cell) (k : Nat), finite_term s.heap_ k a = true →
        finite_term s.heap_ k b = true → ∃ n r s1, unify n s a b = some (r, s1)) := by
  refine ⟨by decide, by decide, by decide, ex_occurs_never_returns, ?_,
    ⟨by decide, 2, by decide⟩, ⟨by decide, 2, by decide⟩, ?_⟩
  · refine unify_reaches.round
      ⟨[cell.CON 1 3, cell.STR 8, cell.REF 2, cell.REF 1,
        cell.CON 1 3, cell.STR 8, cell.STR 10, cell.REF 2,
        cell.CON 2 1, cell.REF 2, cell.CON 2 1, cell.REF 1], 12, 12,
        [cell.REF 2, cell.STR 10, cell.REF 1, cell.REF 2], [1]⟩ _
      (unify_reaches.round
        ⟨ex_occurs.heap_, 12, 12,
          [cell.REF 1, cell.STR 8, cell.REF 2, cell.STR 10, cell.REF 1, cell.REF 2], []⟩ _
        (unify_reaches.round _ _ unify_reaches.start ⟨by decide, 1, by decide⟩)
        ⟨by decide, 1, by decide⟩)
      ⟨by decide, 1, by decide⟩
  · intro hall
    obtain ⟨n, r, s1, h⟩ := hall ex_occurs (cell.STR 0) (cell.STR 4) 3 (by decide) (by decide)
    rw [ex_occurs_never_returns n] at h
    exact absurd h (by simp)

/-- C33 (amended): let the terms at `a` and `b` be finite in the heap of `s`.
The loop of `equal` terminates: every large enough fuel gives a result, and the
state is the one before the call.  The loop of `unify` terminates, and `unify`
returns, provided the cells pending on the work stack are finite terms of the
heap in every state in which the loop comes to its head, that is as long as no
binding has closed a cycle.  In both loops the work stack at the head of the
loop is the entry stack under the cells of the pending pairs, two for each
pair, so that it never drops below its entry depth. -/
theorem loops_terminate_while_terms_finite (s : term_env_impl) (a b : cell) (k : Nat)
    (ha : finite_term s.heap_ k a = true) (hb : finite_term s.heap_ k b = true) :
    (∃ N, ∀ n, N ≤ n → ∃ r, equal n s a b = some (r, s)) ∧
    (∀ s1, equal_reaches (stack_depth s) (push (push s b) a) s1 →
      ∃ P, s1.stack_ = flat P ++ s.stack_ ∧ stack_depth s1 = stack_depth s + 2 * P.length) ∧
    ((∀ s1, unify_reaches (stack_depth s)
          (push (push { s with register_hb_ := s.register_h_ } b) a) s1 →
        pending_finite (stack_depth s) s1) →
      ∃ N, ∀ n, N ≤ n → ∃ r s1, unify n s a b = some (r, s1)) ∧
    (∀ s1, unify_reaches (stack_depth s)
        (push (push { s with register_hb_ := s.register_h_ } b) a) s1 →
      ∃ P, s1.stack_ = flat P ++ s.stack_ ∧ stack_depth s1 = stack_depth s + 2 * P.length) := by
  refine ⟨equal_terminates s a b k ha hb, ?_, unify_terminates s a b, ?_⟩
  · intro s1 h1
    rw [push_push_eq] at h1
    obtain ⟨P, hP⟩ := equal_reaches_stack s [(a, b)] s1 h1
    refine ⟨P, by rw [hP]; rfl, ?_⟩
    rw [hP]
    simp only [with_pending, stack_depth, List.length_append, flat_length_even]
    omega
  · intro s1 h1
    rw [push_push_eq] at h1
    obtain ⟨t, P, hP, hst⟩ := unify_reaches_stack { s with register_hb_ := s.register_h_ }
      [(a, b)] s1 h1
    refine ⟨P, by rw [hP]; simp only [with_pending, hst], ?_⟩
    rw [hP]
    simp only [with_pending, stack_depth, List.length_append, flat_length_even, hst]
    omega

/-- The states of the loop of `unify_helper` when `unify` is called on `f(X)` and
`f(5)` in `ex_fx_f5`: the pair of the two compounds pending, then the pair of
their arguments, then `X` bound and nothing pending. -/
theorem ex_fx_f5_reaches (s1 : term_env_impl)
    (h : unify_reaches 1
      (with_pending ⟨ex_fx_f5.heap_, 4, 4, [cell.INT 9], [0]⟩ [(cell.STR 0, cell.STR 2)]) s1) :
    s1 = with_pending ⟨ex_fx_f5.heap_, 4, 4, [cell.INT 9], [0]⟩ [(cell.STR 0, cell.STR 2)] ∨
    s1 = with_pending ⟨ex_fx_f5.heap_, 4, 4, [cell.INT 9], [0]⟩ [(cell.REF 1, cell.INT 5)] ∨
    s1 = with_pending ⟨ex_fx_f5_bound.heap_, 4, 4, [cell.INT 9], [0, 1]⟩ [] := by
  induction h with
  | start => exact Or.inl rfl
  | round s1 s2 _ hround ih =>
    obtain ⟨hdepth, f, hbody⟩ := hround
    rcases ih with h1 | h1 | h1
    · subst h1
      rw [unify_body_round, unify_round_of_deref f 0 _ _ _ (cell.STR 0) (cell.STR 2) _
        (Nat.zero_le f) (by decide) (by decide)] at hbody
      have hr : unify_round_cells ⟨ex_fx_f5.heap_, 4, 4, [cell.INT 9], [0]⟩ (cell.STR 0)
          (cell.STR 2) [] = some (round_result.next ⟨ex_fx_f5.heap_, 4, 4, [cell.INT 9], [0]⟩
            [(cell.REF 1, cell.INT 5)]) := by decide
      rw [hr] at hbody
      simp only [Option.map_some', Option.some.injEq, outcome.next.injEq] at hbody
      exact Or.inr (Or.inl hbody.symm)
    · subst h1
      rw [unify_body_round] at hbody
      cases f with
      | zero =>
        have : unify_round_pairs 0 ⟨ex_fx_f5.heap_, 4, 4, [cell.INT 9], [0]⟩ (cell.REF 1)
            (cell.INT 5) [] = none := by decide
        rw [this] at hbody
        simp at hbody
      | succ f =>
        rw [unify_round_of_deref (f + 1) 1 _ _ _ (cell.REF 1) (cell.INT 5) _ (by omega)
          (by decide) (by decide)] at hbody
        have hr : unify_round_cells ⟨ex_fx_f5.heap_, 4, 4, [cell.INT 9], [0]⟩ (cell.REF 1)
            (cell.INT 5) [] = some (round_result.next
              ⟨ex_fx_f5_bound.heap_, 4, 4, [cell.INT 9], [0, 1]⟩ []) := by decide
        rw [hr] at hbody
        simp only [Option.map_some', Option.some.injEq, outcome.next.injEq] at hbody
        exact Or.inr (Or.inr hbody.symm)
    · subst h1
      exact absurd hdepth (by decide)

theorem ex_fx_f5_pending (s1 : term_env_impl)
    (h : unify_reaches (stack_depth ex_fx_f5)
      (push (push { ex_fx_f5 with register_hb_ := ex_fx_f5.register_h_ } (cell.STR 2))
        (cell.STR 0)) s1) :
    pending_finite (stack_depth ex_fx_f5) s1 := by
  rcases ex_fx_f5_reaches s1 h with h1 | h1 | h1 <;> subst h1 <;> exact ⟨3, by decide⟩

/-- C33 (amended) at `f(X)` and `f(5)` in `ex_fx_f5`: both loops terminate. -/
theorem loops_terminate_while_terms_finite_witness :
    (∃ N, ∀ n, N ≤ n → ∃ r, equal n ex_fx_f5 (cell.STR 0) (cell.STR 2) = some (r, ex_fx_f5)) ∧
    (∀ s1, equal_reaches (stack_depth ex_fx_f5)
        (push (push ex_fx_f5 (cell.STR 2)) (cell.STR 0)) s1 →
      ∃ P, s1.stack_ = flat P ++ ex_fx_f5.stack_ ∧
        stack_depth s1 = stack_depth ex_fx_f5 + 2 * P.length) ∧
    (∃ N, ∀ n, N ≤ n → ∃ r s1, unify n ex_fx_f5 (cell.STR 0) (cell.STR 2) = some (r, s1)) ∧
    (∀ s1, unify_reaches (stack_depth ex_fx_f5)
        (push (push { ex_fx_f5 with register_hb_ := ex_fx_f5.register_h_ } (cell.STR 2))
          (cell.STR 0)) s1 →
      ∃ P, s1.stack_ = flat P ++ ex_fx_f5.stack_ ∧
        stack_depth s1 = stack_depth ex_fx_f5 + 2 * P.length) :=
  have h := loops_terminate_while_terms_finite ex_fx_f5 (cell.STR 0) (cell.STR 2) 3
    (by decide) (by decide)
  ⟨h.1, h.2.1, h.2.2.1 ex_fx_f5_pending, h.2.2.2⟩

/-! ## C34: `unify` overwrites unbound variables only -/

theorem unify_changes_unbound_only (n : Nat) (s s1 : term_env_impl) (a b : cell) (r : Bool)
    (h : unify n s a b = some (r, s1)) :
    s1.heap_.length = s.heap_.length ∧
      ∀ j, s1.heap_[j]? ≠ s.heap_[j]? → s.heap_[j]? = some (cell.REF j) := by
  cases r with
  | true =>
    obtain ⟨sf, hp, _, hs1⟩ := unify_true_inv n s s1 a b h
    obtain ⟨t, e, _⟩ := unify_pairs_evolves n _ sf _ _ _ hp
    subst hs1
    exact ⟨e.ext.length_eq, e.ext.only_unbound⟩
  | false =>
    obtain ⟨sf, t, e, hbnd, hs1⟩ := unify_false_inv n s s1 a b h
    subst hs1
    refine ⟨by simp only [reset_slots_length]; exact e.ext.length_eq, ?_⟩
    intro j hj
    simp only [] at hj
    rw [reset_slots_get t sf.heap_ j hbnd] at hj
    by_cases hjt : j ∈ t
    · exact (e.trailed j hjt).1
    · rw [if_neg hjt] at hj
      exact e.ext.only_unbound j hj

/-- C34: `unify` only ever overwrites unbound variables.  Whatever `unify(a, b)`
returns, every heap slot whose content after the call differs from its content
before the call held the self-referential cell `REF(slot index)` before the
call; a slot that held a `CON`, `INT` or `STR` cell, or a bound `REF` cell (any
cell other than its own self-reference), holds the same cell after the call;
and the heap has the same number of cells. -/
theorem unify_overwrites_only_unbound (n : Nat) (s s1 : term_env_impl) (a b : cell) (r : Bool)
    (h : unify n s a b = some (r, s1)) :
    (∀ j, s1.heap_[j]? ≠ s.heap_[j]? → s.heap_[j]? = some (cell.REF j)) ∧
    (∀ (j : Nat) (c : cell), s.heap_[j]? = some c → c ≠ cell.REF j → s1.heap_[j]? = some c) ∧
    s1.heap_.length = s.heap_.length := by
  obtain ⟨hlen, hch⟩ := unify_changes_unbound_only n s s1 a b r h
  refine ⟨hch, ?_, hlen⟩
  intro j c hc hne
  by_contra hcon
  have hdiff : s1.heap_[j]? ≠ s.heap_[j]? := by rw [hc]; exact hcon
  have := hch j hdiff
  rw [hc] at this
  exact hne (Option.some.inj this)

/-- C34 at a concrete state: `unify` of `f(X)` with `f(5)` changes the slot of `X`
and no other. -/
theorem unify_overwrites_only_unbound_witness :
    (∀ j, ex_fx_f5_bound.heap_[j]? ≠ ex_fx_f5.heap_[j]? →
      ex_fx_f5.heap_[j]? = some (cell.REF j)) ∧
    (∀ (j : Nat) (c : cell), ex_fx_f5.heap_[j]? = some c → c ≠ cell.REF j →
      ex_fx_f5_bound.heap_[j]? = some c) ∧
    ex_fx_f5_bound.heap_.length = ex_fx_f5.heap_.length :=
  unify_overwrites_only_unbound 3 ex_fx_f5 ex_fx_f5_bound (cell.STR 0) (cell.STR 2) true
    (by decide)

end prologcoin
